import Mathlib

/-!
# ExpressionSolver: a shallow embedding of `src/main.cpp`

The C++ class `ExpressionSolver` tokenizes an infix expression (`parse_input`),
builds a binary expression tree (`BuildTree`, `FillNumIntoTreeNode`) and
evaluates it (`TreeNode::solve`).

Modelling conventions:

* `double` values are exact rationals (`ℚ`): rounding, infinities and NaN are
  outside the embedding. Division is the field division of `ℚ`.
* `std::vector` is a `List` in index order: `push_back` appends at the end,
  `back` is the last element, `pop_back` is `dropLast`, `front` is the head.
* `std::unique_ptr<TreeNode>` is the type `TreeNode` with the extra constructor
  `null` for the empty pointer. The field `parent` is never written after
  construction (it is always `nullptr`) and is omitted. `const Operator *op`
  is `Option Operator`: the vector it points into is not modified after the
  tree has been built.
* `early return false` in the scan is `none` of `scanStep`.
* Undefined behaviour of the C++ program (dereferencing a null pointer, `back`
  or `front` of an empty vector, a `double` to `int` conversion out of range,
  signed overflow on negation) is `none` of the functions returning `Option`.
* `int priority_lvl` is a 32-bit two's-complement `int`: the constructor of
  `Operator` reduces `4 * depth + base` with `wrapInt` into the range of `int`.
  For fewer than `2^29` open brackets nothing overflows and the key is
  `4 * depth + base` itself. From `2^29` open brackets on, `nested_lvl_*4`
  overflows `int`, which C++ leaves undefined; the embedding takes the result
  modulo `2^32` that the usual targets produce. No `int` equals
  `4 * depth + base` there, whatever the target does.
-/

namespace ExpressionSolver

/-- The enumeration `OperatorType` (line 10). -/
inductive OperatorType where
  | sum | diff | prod | div | pow
  deriving DecidableEq, Repr

/-- `CharToOperatorType` (lines 21-30). -/
def CharToOperatorType (c : Char) : OperatorType :=
  if c = '+' then OperatorType.sum
  else if c = '-' then OperatorType.diff
  else if c = '*' then OperatorType.prod
  else if c = '/' ∨ c = ':' then OperatorType.div
  else if c = '^' then OperatorType.pow
  else OperatorType.pow

/-- `OpPriority` (lines 31-39). -/
def OpPriority (c : Char) : Int :=
  if c = '+' ∨ c = '-' then 0
  else if c = '*' ∨ c = ':' then 1
  else if c = '/' then 2
  else if c = '^' then 3
  else -1

/-- The loop of `compute_power` (lines 43-48), one iteration per unit of fuel.
`exp % 2` and `exp /= 2` are the C++ truncating remainder and quotient.
`none` means that the fuel ran out before the loop reached its `break`. -/
def compute_power_loop : Nat → ℚ → Int → ℚ → Option ℚ
  | 0, _, _, _ => none
  | fuel + 1, base, exp, result =>
    let result1 := if exp.tmod 2 = 1 then result * base else result
    let exp1 := exp.tdiv 2
    if exp1 = 0 then some result1
    else compute_power_loop fuel (base * base) exp1 result1

/-- `compute_power` (lines 41-50): `result` starts at `1.0`. The fuel
`exp.natAbs + 1` is never exhausted on an exponent `exp ≥ 0` (see
`compute_power_nat`). -/
def compute_power (base : ℚ) (exp : Int) : Option ℚ :=
  compute_power_loop (exp.natAbs + 1) base exp 1

/-- `static_cast<int>(r)` for a `double` r: truncation toward zero, undefined
when the truncated value is not representable in a 32-bit `int`. -/
def static_cast_int (r : ℚ) : Option Int :=
  let n := r.num.tdiv (r.den : Int)
  if -2147483648 ≤ n ∧ n ≤ 2147483647 then some n else none

/-- Unary minus on `int`: undefined on `INT_MIN`. -/
def int_neg (n : Int) : Option Int :=
  if n = -2147483648 then none else some (-n)

/-- The struct `Operator` (lines 51-55). -/
structure Operator where
  op : OperatorType
  priority_lvl : Int
  array_idx : Nat
  deriving DecidableEq, Repr

/-- The value of an integer as a 32-bit two's-complement `int`: the
representative modulo `2^32` in the range from `-2^31` to `2^31 - 1`. -/
def wrapInt (x : Int) : Int :=
  (x + 2147483648) % 4294967296 - 2147483648

/-- The constructor `Operator(char c, int nested_lvl_, size_t array_idx_)`
(line 55). The key `nested_lvl_*4+OpPriority(c)` is computed in `int`. -/
def Operator.new (c : Char) (nested_lvl : Int) (array_idx : Nat) : Operator :=
  { op := CharToOperatorType c
    priority_lvl := wrapInt (nested_lvl * 4 + OpPriority c)
    array_idx := array_idx }

/-- `Operator::compute` (lines 56-65). For `div` with `r = 0` the C++ result
is an IEEE infinity or NaN, which is not a number of the embedding: the value
of the field division of `ℚ` there stands for no result of the program. -/
def Operator.compute (o : Operator) (l r : ℚ) : Option ℚ :=
  match o.op with
  | OperatorType.sum => some (l + r)
  | OperatorType.diff => some (l - r)
  | OperatorType.prod => some (l * r)
  | OperatorType.div => some (l / r)
  | OperatorType.pow =>
    if r ≥ 0 then
      (static_cast_int r).bind fun n => compute_power l n
    else
      (static_cast_int r).bind fun n => (int_neg n).bind fun m => compute_power (1 / l) m

/-- The struct `TreeNode` (lines 68-79) behind a `std::unique_ptr`: `null` is
the empty pointer, `mk number op son0 son1` a node with `sons = {son0, son1}`. -/
inductive TreeNode where
  | null : TreeNode
  | mk (number : ℚ) (op : Option Operator) (son0 son1 : TreeNode) : TreeNode
  deriving DecidableEq, Repr

/-- The constructor `TreeNode(double number_)` with its default arguments
(line 73): a node without operator and without sons. -/
def TreeNode.ofNumber (number : ℚ) : TreeNode :=
  TreeNode.mk number none TreeNode.null TreeNode.null

/-- The constructor `TreeNode(const Operator *op_)` (line 74): `number` is
`0.0` and both sons are empty. -/
def TreeNode.ofOperator (o : Operator) : TreeNode :=
  TreeNode.mk 0 (some o) TreeNode.null TreeNode.null

/-- The test `p == nullptr` on a `unique_ptr<TreeNode>`. -/
def TreeNode.isNull : TreeNode → Bool
  | TreeNode.null => true
  | TreeNode.mk _ _ _ _ => false

/-- `TreeNode::solve` (lines 75-78), returning the value it returns. Calling
it through an empty pointer is undefined. -/
def TreeNode.solve : TreeNode → Option ℚ
  | TreeNode.null => none
  | TreeNode.mk number none _ _ => some number
  | TreeNode.mk _ (some o) son0 son1 =>
    (TreeNode.solve son0).bind fun l =>
      (TreeNode.solve son1).bind fun r => o.compute l r

/-- `are_matching_parenthesis` (lines 85-87). -/
def are_matching_parenthesis (l_par r_par : Char) : Bool :=
  (l_par = '(' ∧ r_par = ')') ∨ (l_par = '[' ∧ r_par = ']') ∨ (l_par = '{' ∧ r_par = '}')

/-- The comparator handed to `std::sort` (line 94). -/
def opLess (lhs rhs : Operator) : Prop :=
  if lhs.priority_lvl ≠ rhs.priority_lvl then lhs.priority_lvl < rhs.priority_lvl
  else lhs.array_idx > rhs.array_idx

instance opLess_decidable : DecidableRel opLess := fun lhs rhs => by
  unfold opLess; exact inferInstance

/-- The call of `std::sort` (lines 93-95), as an insertion sort with the
comparator `opLess`. Whenever the position indices are pairwise distinct the
comparator is a strict total order, so every sorting algorithm returns this
same list. -/
def sortOperators (ops : List Operator) : List Operator :=
  ops.insertionSort opLess

/-- The inner `for` loop of `BuildTree` (lines 102-108) started at
`current_node`: walk down by comparing position indices and attach a new node
for `o` in the first empty slot. The result is the subtree after the loop. -/
def placeOperator (o : Operator) : TreeNode → Option TreeNode
  | TreeNode.null => some TreeNode.null
  | TreeNode.mk number cop son0 son1 =>
    match cop with
    | none => none
    | some c =>
      if o.array_idx < c.array_idx then
        if son0.isNull then
          some (TreeNode.mk number cop (TreeNode.ofOperator o) son1)
        else
          (placeOperator o son0).map fun s => TreeNode.mk number cop s son1
      else
        if son1.isNull then
          some (TreeNode.mk number cop son0 (TreeNode.ofOperator o))
        else
          (placeOperator o son1).map fun s => TreeNode.mk number cop son0 s

/-- The outer `for` loop of `BuildTree` (lines 97-109) over the sorted
operators, threading `_root`. -/
def placeAll : TreeNode → List Operator → Option TreeNode
  | root, [] => some root
  | root, o :: rest =>
    if root.isNull then placeAll (TreeNode.ofOperator o) rest
    else (placeOperator o root).bind fun root1 => placeAll root1 rest

/-- One round of the loop body of `FillNumIntoTreeNode` on an empty slot
(lines 115-116): the new leaf and the numbers left. -/
def popLeaf (numbers : List ℚ) : Option (TreeNode × List ℚ) :=
  match numbers.getLast? with
  | none => none
  | some x => some (TreeNode.ofNumber x, numbers.dropLast)

/-- `FillNumIntoTreeNode` (lines 112-121): side 1 first, then side 0. Returns
the node after the call and the numbers left in `_numbers`. -/
def FillNumIntoTreeNode : TreeNode → List ℚ → Option (TreeNode × List ℚ)
  | TreeNode.null, _ => none
  | TreeNode.mk number cop son0 son1, numbers =>
    (if son1.isNull then popLeaf numbers else FillNumIntoTreeNode son1 numbers).bind
      fun (p1 : TreeNode × List ℚ) =>
        (if son0.isNull then popLeaf p1.2 else FillNumIntoTreeNode son0 p1.2).bind
          fun (p0 : TreeNode × List ℚ) =>
            some (TreeNode.mk number cop p0.1 p1.1, p0.2)

end ExpressionSolver

/-- The data members of the class `ExpressionSolver` (lines 81-83). -/
structure ExpressionSolver where
  root : ExpressionSolver.TreeNode
  operators : List ExpressionSolver.Operator
  numbers : List ℚ
  deriving DecidableEq, Repr

namespace ExpressionSolver

/-- The constructor `ExpressionSolver()` (line 123). -/
def new : ExpressionSolver :=
  { root := TreeNode.null, operators := [], numbers := [] }

/-- `BuildTree` (lines 88-111). -/
def BuildTree (es : ExpressionSolver) : Option ExpressionSolver :=
  if es.operators.isEmpty then
    match es.numbers.head? with
    | none => none
    | some x => some { es with root := TreeNode.ofNumber x }
  else
    let sorted := sortOperators es.operators
    (placeAll es.root sorted).bind fun root1 =>
      (FillNumIntoTreeNode root1 es.numbers).bind fun (p : TreeNode × List ℚ) =>
        some { root := p.1, operators := sorted, numbers := p.2 }

/-- The entries of `forbidden_last_chars` (line 127). -/
def forbidden_last_chars (i : Nat) : List Char :=
  match i with
  | 0 => [')', '0', '.']
  | 1 => ['(', '.', '+']
  | 2 => [')']
  | 3 => ['?', '(']
  | _ => ['(', '.', '+']

/-- The local variables of `parse_input` (lines 126-131) together with the
object they update. The local `digit` is written before every read and is a
`let` in `scanStep`. -/
structure ScanState where
  es : ExpressionSolver
  last_char_type : Char
  is_num_active : Bool
  is_decimal : Bool
  current_num : ℚ
  decimal_mult : ℚ
  sign : Int
  parenthesis : List Char
  deriving DecidableEq, Repr

/-- The state at the entry of the scan loop (lines 126-131). -/
def ScanState.init (es : ExpressionSolver) : ScanState :=
  { es := es
    last_char_type := '?'
    is_num_active := false
    is_decimal := false
    current_num := 0
    decimal_mult := 1
    sign := 1
    parenthesis := [] }

/-- The body of the scan loop for one character (lines 133-172). `none` is
`return false`. A character matching no branch leaves the state unchanged. -/
def scanStep (st : ScanState) (c : Char) : Option ScanState :=
  if c = '(' ∨ c = '[' ∨ c = '{' then
    if st.is_num_active ∨ st.last_char_type ∈ forbidden_last_chars 0 then none
    else some { st with parenthesis := st.parenthesis ++ [c], last_char_type := '(' }
  else if c = ')' ∨ c = ']' ∨ c = '}' then
    match st.parenthesis.getLast? with
    | none => none
    | some top =>
      if !are_matching_parenthesis top c ∨ st.last_char_type ∈ forbidden_last_chars 1 then none
      else some { st with parenthesis := st.parenthesis.dropLast, last_char_type := ')' }
  else if '0' ≤ c ∧ c ≤ '9' then
    if st.last_char_type ∈ forbidden_last_chars 2 then none
    else
      let digit : Int := (c.toNat : Int) - ('0'.toNat : Int)
      if !st.is_num_active then
        some { st with is_num_active := true, current_num := (digit : ℚ), last_char_type := '0' }
      else if !st.is_decimal then
        some { st with current_num := st.current_num * 10 + (digit : ℚ), last_char_type := '0' }
      else
        let decimal_mult1 := st.decimal_mult * (1 / 10)
        some { st with decimal_mult := decimal_mult1
                       current_num := st.current_num + (digit : ℚ) * decimal_mult1
                       last_char_type := '0' }
  else if c = '.' ∨ c = ',' then
    if st.is_decimal ∨ !st.is_num_active ∨ st.last_char_type ≠ '0' then none
    else some { st with is_decimal := true, decimal_mult := 1, last_char_type := '.' }
  else if c = '-' ∧ st.last_char_type ∈ forbidden_last_chars 3 then
    if st.sign ≠ 1 then none
    else some { st with sign := -1, last_char_type := '0' }
  else if c = '+' ∨ c = '-' ∨ c = '*' ∨ c = '/' ∨ c = ':' ∨ c = '^' then
    if !st.is_num_active ∨ st.last_char_type ∈ forbidden_last_chars 4 then none
    else
      some { st with
        is_num_active := false
        is_decimal := false
        es := { st.es with
          numbers := st.es.numbers ++ [st.current_num * (st.sign : ℚ)]
          operators := st.es.operators ++
            [Operator.new c (st.parenthesis.length : Int) st.es.operators.length] }
        sign := 1
        current_num := 0
        last_char_type := '+' }
  else some st

/-- The scan loop (lines 132-173): `none` as soon as one character is
rejected, otherwise the state after the last character. -/
def scanLoop : ScanState → List Char → Option ScanState
  | st, [] => some st
  | st, c :: cs =>
    match scanStep st c with
    | none => none
    | some st1 => scanLoop st1 cs

/-- The scan of `parse_input` up to the call of `BuildTree` (lines 126-175):
`none` when the scan returns `false`, otherwise the object handed to
`BuildTree`, the last number appended. -/
def tokenize (es : ExpressionSolver) (input : List Char) : Option ExpressionSolver :=
  match scanLoop (ScanState.init es) input with
  | none => none
  | some st =>
    if !st.parenthesis.isEmpty ∨ !st.is_num_active then none
    else some { st.es with numbers := st.es.numbers ++ [st.current_num * (st.sign : ℚ)] }

/-- The outcome of a call of `parse_input`. -/
inductive ParseResult where
  | undefined : ParseResult
  | rejected : ParseResult
  | built (ret : Bool) (es : ExpressionSolver) : ParseResult
  deriving DecidableEq, Repr

/-- `parse_input` (lines 125-178) on the object `es`: `rejected` when the scan
returns `false`, `undefined` when `BuildTree` has undefined behaviour,
otherwise `built ret es1` with the returned value `_numbers.empty()` and the
object after `BuildTree`. -/
def parse_input (es : ExpressionSolver) (input : List Char) : ParseResult :=
  match tokenize es input with
  | none => ParseResult.rejected
  | some es1 =>
    match BuildTree es1 with
    | none => ParseResult.undefined
    | some es2 => ParseResult.built es2.numbers.isEmpty es2

/-- The boolean returned by `parse_input`, when the call is defined. -/
def ParseResult.returned : ParseResult → Option Bool
  | ParseResult.undefined => none
  | ParseResult.rejected => some false
  | ParseResult.built ret _ => some ret

/-- `ExpressionSolver::solve` (line 179). -/
def solve (es : ExpressionSolver) : Option ℚ :=
  es.root.solve

/-- What `main` computes (lines 186-192) on a fresh object: `none` when
`parse_input` returns `false` or the run is undefined, otherwise the value
returned by `solve`. -/
def evaluate (input : List Char) : Option ℚ :=
  match parse_input new input with
  | ParseResult.built true es => solve es
  | _ => none

/-! ## Vocabulary of the specification -/

/-- The digit test of line 141. -/
def isDigit (c : Char) : Prop := '0' ≤ c ∧ c ≤ '9'

instance isDigit_decidable : DecidablePred isDigit := fun c => by
  unfold isDigit; exact inferInstance

/-- The decimal separator test of line 154. -/
def isSeparator (c : Char) : Prop := c = '.' ∨ c = ','

instance isSeparator_decidable : DecidablePred isSeparator := fun c => by
  unfold isSeparator; exact inferInstance

/-- The binary operator test of line 163. -/
def isBinOp (c : Char) : Prop :=
  c = '+' ∨ c = '-' ∨ c = '*' ∨ c = '/' ∨ c = ':' ∨ c = '^'

instance isBinOp_decidable : DecidablePred isBinOp := fun c => by
  unfold isBinOp; exact inferInstance

/-- The opening bracket test of line 133. -/
def isOpen (c : Char) : Prop := c = '(' ∨ c = '[' ∨ c = '{'

instance isOpen_decidable : DecidablePred isOpen := fun c => by
  unfold isOpen; exact inferInstance

/-- The closing bracket test of line 137. -/
def isClose (c : Char) : Prop := c = ')' ∨ c = ']' ∨ c = '}'

instance isClose_decidable : DecidablePred isClose := fun c => by
  unfold isClose; exact inferInstance

/-- The value of `static_cast<int>(c-'0')` (line 143) as a number. -/
def digitValue (c : Char) : ℚ := (((c.toNat : Int) - ('0'.toNat : Int) : Int) : ℚ)

/-- An unsigned number literal: a non-empty run of digits, optionally followed
by a decimal separator and a second non-empty run of digits. -/
structure NumLit where
  intDigits : List Char
  frac : Option (Char × List Char)
  deriving DecidableEq, Repr

/-- Well-formedness of a number literal. -/
def NumLit.wf (a : NumLit) : Prop :=
  a.intDigits ≠ [] ∧ (∀ c ∈ a.intDigits, isDigit c) ∧
    ∀ p ∈ a.frac, isSeparator p.1 ∧ p.2 ≠ [] ∧ ∀ c ∈ p.2, isDigit c

instance NumLit.wf_decidable (a : NumLit) : Decidable a.wf := by
  unfold NumLit.wf; exact inferInstance

/-- The characters of a number literal. -/
def NumLit.chars (a : NumLit) : List Char :=
  match a.frac with
  | none => a.intDigits
  | some p => a.intDigits ++ p.1 :: p.2

/-- The accumulation of the integer digits (lines 146 and 148). -/
def accInt (v : ℚ) (ds : List Char) : ℚ :=
  ds.foldl (fun acc c => acc * 10 + digitValue c) v

/-- The accumulation of the fractional digits (lines 150-151): the pair of
`current_num` and `decimal_mult`. -/
def accFrac (vm : ℚ × ℚ) (ds : List Char) : ℚ × ℚ :=
  ds.foldl (fun acc c => (acc.1 + digitValue c * (acc.2 * (1 / 10)), acc.2 * (1 / 10))) vm

/-- The number denoted by a literal, as the scan accumulates it. -/
def NumLit.value (a : NumLit) : ℚ :=
  match a.frac with
  | none => accInt 0 a.intDigits
  | some p => (accFrac (accInt 0 a.intDigits, 1) p.2).1

/-- The value of `decimal_mult` once the literal has been scanned. -/
def NumLit.multAfter (a : NumLit) (m : ℚ) : ℚ :=
  match a.frac with
  | none => m
  | some p => (accFrac (accInt 0 a.intDigits, 1) p.2).2

/-- The scan state after a number literal has been read from `st`. -/
def ScanState.afterLit (st : ScanState) (a : NumLit) : ScanState :=
  { st with
    last_char_type := '0'
    is_num_active := true
    is_decimal := a.frac.isSome
    current_num := a.value
    decimal_mult := a.multAfter st.decimal_mult }

/-- The scan state after the binary operator branch (lines 165-171). -/
def ScanState.afterOp (st : ScanState) (c : Char) : ScanState :=
  { st with
    is_num_active := false
    is_decimal := false
    es := { st.es with
      numbers := st.es.numbers ++ [st.current_num * (st.sign : ℚ)]
      operators := st.es.operators ++
        [Operator.new c (st.parenthesis.length : Int) st.es.operators.length] }
    sign := 1
    current_num := 0
    last_char_type := '+' }

/-- The scan state after the opening bracket branch (lines 135-136). -/
def ScanState.afterOpen (st : ScanState) (c : Char) : ScanState :=
  { st with parenthesis := st.parenthesis ++ [c], last_char_type := '(' }

/-- The scan state after the closing bracket branch (lines 139-140). -/
def ScanState.afterClose (st : ScanState) : ScanState :=
  { st with parenthesis := st.parenthesis.dropLast, last_char_type := ')' }

/-- The scan state after the unary sign branch (lines 161-162). -/
def ScanState.afterSign (st : ScanState) : ScanState :=
  { st with sign := -1, last_char_type := '0' }

/-- A token of the in-order reading of an expression tree. -/
inductive Token where
  | num (x : ℚ) : Token
  | op (o : Operator) : Token
  deriving DecidableEq, Repr

/-- The in-order traversal of a tree: left son, the node, right son. A node
with an operator contributes the operator, a node without contributes its
number. -/
def TreeNode.inorder : TreeNode → List Token
  | TreeNode.null => []
  | TreeNode.mk number none son0 son1 =>
    TreeNode.inorder son0 ++ Token.num number :: TreeNode.inorder son1
  | TreeNode.mk _ (some o) son0 son1 =>
    TreeNode.inorder son0 ++ Token.op o :: TreeNode.inorder son1

/-- A full binary tree: every node is a leaf (no operator, no sons) or an
internal node (an operator and two sons that are full trees). -/
def TreeNode.isFull : TreeNode → Bool
  | TreeNode.null => false
  | TreeNode.mk _ none son0 son1 => son0.isNull && son1.isNull
  | TreeNode.mk _ (some _) son0 son1 => TreeNode.isFull son0 && TreeNode.isFull son1

/-- The textual sequence `x_0, op_0, x_1, op_1, ..., op_(n-1), x_n`. -/
def interleave : List ℚ → List Operator → List Token
  | [], _ => []
  | x :: _, [] => [Token.num x]
  | x :: xs, o :: os => Token.num x :: Token.op o :: interleave xs os

/-- The operators of a tree in in-order. -/
def TreeNode.operators : TreeNode → List Operator
  | TreeNode.null => []
  | TreeNode.mk _ none son0 son1 => TreeNode.operators son0 ++ TreeNode.operators son1
  | TreeNode.mk _ (some o) son0 son1 =>
    TreeNode.operators son0 ++ o :: TreeNode.operators son1

/-- A tree as the placement pass leaves it: every node carries an operator. -/
def TreeNode.isSkeleton : TreeNode → Bool
  | TreeNode.null => true
  | TreeNode.mk _ none _ _ => false
  | TreeNode.mk _ (some _) son0 son1 => TreeNode.isSkeleton son0 && TreeNode.isSkeleton son1

/-- The search-tree property on position indices that `placeOperator`
maintains: smaller indices to the left, the others to the right. -/
def TreeNode.isSearchTree : TreeNode → Prop
  | TreeNode.null => True
  | TreeNode.mk _ none _ _ => False
  | TreeNode.mk _ (some c) son0 son1 =>
    (∀ o ∈ TreeNode.operators son0, o.array_idx < c.array_idx) ∧
    (∀ o ∈ TreeNode.operators son1, c.array_idx ≤ o.array_idx) ∧
    TreeNode.isSearchTree son0 ∧ TreeNode.isSearchTree son1

/-- The bracket characters of an input, in order. -/
def brackets (input : List Char) : List Char :=
  input.filter fun c => isOpen c ∨ isClose c

/-- Properly nested bracket sequences in which every closing bracket has the
shape of the opening bracket it closes. -/
inductive Nested : List Char → Prop where
  | nil : Nested []
  | wrap (o c : Char) (l : List Char) :
      are_matching_parenthesis o c = true → Nested l → Nested (o :: l ++ [c])
  | append (l₁ l₂ : List Char) : Nested l₁ → Nested l₂ → Nested (l₁ ++ l₂)

/-- Bracket sequences that are nested except for the still open brackets
`stack` (outermost first). -/
inductive Pending : List Char → List Char → Prop where
  | base (l : List Char) : Nested l → Pending [] l
  | push (stack l m : List Char) (o : Char) :
      Pending stack l → Nested m → Pending (stack ++ [o]) (l ++ o :: m)

/-- The characters `o_1 a_1 ... o_k a_k` of the tail of a chain. -/
def chainChars : List (Char × NumLit) → List Char
  | [] => []
  | p :: rest => p.1 :: p.2.chars ++ chainChars rest

/-- The left fold `(...((x o_1 a_1) o_2 a_2)... o_k a_k)` with
`Operator::compute`; the operators get the position indices `i, i+1, ...`. -/
def leftFold (x : ℚ) (i : Nat) : List (Char × NumLit) → Option ℚ
  | [] => some x
  | p :: rest =>
    ((Operator.new p.1 0 i).compute x p.2.value).bind fun y => leftFold y (i + 1) rest

/-- The operators emitted for the chain tail `o_1 a_1 ... o_k a_k` scanned at
nesting depth `d`, the first with position index `i`. -/
def chainOps (d : Int) (i : Nat) : List (Char × NumLit) → List Operator
  | [] => []
  | p :: rest => Operator.new p.1 d i :: chainOps d (i + 1) rest

/-- The scan state after the chain tail `o_1 a_1 ... o_k a_k` has been read. -/
def ScanState.afterChain (st : ScanState) : List (Char × NumLit) → ScanState
  | [] => st
  | p :: rest => ScanState.afterChain ((st.afterOp p.1).afterLit p.2) rest

/-- The tree of operators that descends to the left only: the head of the
list is the root. -/
def leftSpine : List Operator → TreeNode
  | [] => TreeNode.null
  | o :: rest => TreeNode.mk 0 (some o) (leftSpine rest) TreeNode.null

/-- The left spine with its leaves: the operators from the root downwards and
the numbers from the rightmost leaf to the leftmost. -/
def filledSpine : List Operator → List ℚ → TreeNode
  | _, [] => TreeNode.null
  | [], x :: _ => TreeNode.ofNumber x
  | o :: s, x :: r => TreeNode.mk 0 (some o) (filledSpine s r) (TreeNode.ofNumber x)

/-- A checker for bracket sequences with a stack of the open brackets
(innermost first): used to show that a sequence is not `Nested`. -/
def matchStack : List Char → List Char → Bool
  | stack, [] => stack.isEmpty
  | stack, c :: cs =>
    if isOpen c then matchStack (c :: stack) cs
    else
      match stack with
      | [] => false
      | o :: rest => are_matching_parenthesis o c && matchStack rest cs

/-- While the last character class is start or open bracket, no number is
being accumulated. -/
def ScanState.noNumberAtStart (st : ScanState) : Prop :=
  st.last_char_type ∈ ['?', '('] → st.is_num_active = false

/-- The accepted grammar alphabet: digits, the two decimal separators, the six
operator characters and the six bracket characters. -/
def inAlphabet (c : Char) : Prop :=
  isDigit c ∨ isSeparator c ∨ isBinOp c ∨ isOpen c ∨ isClose c

instance inAlphabet_decidable : DecidablePred inAlphabet := fun c => by
  unfold inAlphabet; exact inferInstance

/-- The truncation toward zero of a number: the integer that
`static_cast<int>` yields when it is representable. -/
def truncate (r : ℚ) : Int := r.num.tdiv (r.den : Int)

/-- The number of brackets open after the characters `pre`: opening brackets
minus closing brackets. -/
def bracketDepth (pre : List Char) : Int :=
  ((pre.countP fun c => isOpen c : Nat) : Int) - ((pre.countP fun c => isClose c : Nat) : Int)

/-- The operator `o` is the one emitted with position index `i` by the scan of
`input`: after a prefix `pre`, which emits `i` operators, the character `c` is
accepted by the binary operator branch, and `o` has the kind of `c`, the
position index `i` and the priority key `4 * depth + base` reduced to an `int`,
which is `4 * depth + base` itself while fewer than `2^29` brackets are
open. -/
def EmittedAt (input : List Char) (i : Nat) (o : Operator) : Prop :=
  ∃ (pre : List Char) (c : Char) (post : List Char) (st : ScanState),
    input = pre ++ c :: post ∧ isBinOp c ∧
    scanLoop (ScanState.init new) pre = some st ∧
    scanStep st c = some (st.afterOp c) ∧
    st.es.operators.length = i ∧
    0 ≤ bracketDepth pre ∧
    o.op = CharToOperatorType c ∧
    o.array_idx = i ∧
    o.priority_lvl = wrapInt (4 * bracketDepth pre + OpPriority c) ∧
    (bracketDepth pre < 536870912 →
      o.priority_lvl = 4 * bracketDepth pre + OpPriority c)

/-- The heap order on priority keys: the operator of every node has a priority
key less than or equal to that of every operator in its two subtrees. -/
def TreeNode.isHeap : TreeNode → Prop
  | TreeNode.null => True
  | TreeNode.mk _ none son0 son1 => TreeNode.isHeap son0 ∧ TreeNode.isHeap son1
  | TreeNode.mk _ (some c) son0 son1 =>
    (∀ o ∈ TreeNode.operators son0, c.priority_lvl ≤ o.priority_lvl) ∧
    (∀ o ∈ TreeNode.operators son1, c.priority_lvl ≤ o.priority_lvl) ∧
    TreeNode.isHeap son0 ∧ TreeNode.isHeap son1

/-- The node of the operator `a` is a proper ancestor of the node of the
operator `b`: some node carries `a` and `b` lies in one of its two subtrees. -/
def TreeNode.isAncestor (a b : Operator) : TreeNode → Prop
  | TreeNode.null => False
  | TreeNode.mk _ cop son0 son1 =>
    (cop = some a ∧ (b ∈ TreeNode.operators son0 ∨ b ∈ TreeNode.operators son1)) ∨
    TreeNode.isAncestor a b son0 ∨ TreeNode.isAncestor a b son1

/-- The tree without its nodes that carry no operator (the leaves that
`FillNumIntoTreeNode` creates). -/
def TreeNode.strip : TreeNode → TreeNode
  | TreeNode.null => TreeNode.null
  | TreeNode.mk _ none _ _ => TreeNode.null
  | TreeNode.mk number (some c) son0 son1 =>
    TreeNode.mk number (some c) (TreeNode.strip son0) (TreeNode.strip son1)

/-- The number of nodes that carry no operator. -/
def TreeNode.numLeaves : TreeNode → Nat
  | TreeNode.null => 0
  | TreeNode.mk _ none son0 son1 => 1 + TreeNode.numLeaves son0 + TreeNode.numLeaves son1
  | TreeNode.mk _ (some _) son0 son1 => TreeNode.numLeaves son0 + TreeNode.numLeaves son1

/-- The number of empty child slots of a tree of operators. -/
def TreeNode.emptySlots : TreeNode → Nat
  | TreeNode.null => 1
  | TreeNode.mk _ _ son0 son1 => TreeNode.emptySlots son0 + TreeNode.emptySlots son1

end ExpressionSolver

/-! # Lemmas -/

namespace ExpressionSolver

/-! ## The scan loop -/

theorem scanLoop_append (st : ScanState) (a b : List Char) :
    scanLoop st (a ++ b) = (scanLoop st a).bind fun st1 => scanLoop st1 b := by
  induction a generalizing st with
  | nil => simp [scanLoop]
  | cons c cs ih =>
    simp only [List.cons_append, scanLoop]
    cases scanStep st c with
    | none => simp
    | some st1 => simpa using ih st1

theorem isDigit_not_open {c : Char} (h : isDigit c) : ¬ (c = '(' ∨ c = '[' ∨ c = '{') := by
  rintro (rfl | rfl | rfl) <;> revert h <;> decide

theorem isDigit_not_close {c : Char} (h : isDigit c) : ¬ (c = ')' ∨ c = ']' ∨ c = '}') := by
  rintro (rfl | rfl | rfl) <;> revert h <;> decide

theorem scanStep_digit (st : ScanState) {c : Char} (h : isDigit c) :
    scanStep st c =
      if st.last_char_type = ')' then none
      else if st.is_num_active = false then
        some { st with is_num_active := true, current_num := digitValue c, last_char_type := '0' }
      else if st.is_decimal = false then
        some { st with current_num := st.current_num * 10 + digitValue c, last_char_type := '0' }
      else
        some { st with decimal_mult := st.decimal_mult * (1 / 10)
                       current_num := st.current_num + digitValue c * (st.decimal_mult * (1 / 10))
                       last_char_type := '0' } := by
  have h0 : '0' ≤ c ∧ c ≤ '9' := h
  unfold scanStep
  rw [if_neg (isDigit_not_open h), if_neg (isDigit_not_close h), if_pos h0]
  simp [forbidden_last_chars, digitValue]

theorem scanStep_separator (st : ScanState) {c : Char} (h : isSeparator c) :
    scanStep st c =
      if st.is_decimal = true ∨ st.is_num_active = false ∨ st.last_char_type ≠ '0' then none
      else some { st with is_decimal := true, decimal_mult := 1, last_char_type := '.' } := by
  rcases h with rfl | rfl <;> simp [scanStep]

theorem scanStep_open (st : ScanState) {c : Char} (h : isOpen c) :
    scanStep st c =
      if st.is_num_active = true ∨ st.last_char_type ∈ [')', '0', '.'] then none
      else some (st.afterOpen c) := by
  rcases h with rfl | rfl | rfl <;> simp [scanStep, forbidden_last_chars, ScanState.afterOpen]

theorem scanStep_close (st : ScanState) {c : Char} (h : isClose c) :
    scanStep st c =
      match st.parenthesis.getLast? with
      | none => none
      | some top =>
        if are_matching_parenthesis top c = false ∨ st.last_char_type ∈ ['(', '.', '+'] then none
        else some st.afterClose := by
  rcases h with rfl | rfl | rfl <;> simp [scanStep, forbidden_last_chars, ScanState.afterClose]

theorem scanStep_binop (st : ScanState) {c : Char} (h : isBinOp c) :
    scanStep st c =
      if c = '-' ∧ st.last_char_type ∈ ['?', '('] then
        if st.sign ≠ 1 then none else some st.afterSign
      else if st.is_num_active = false ∨ st.last_char_type ∈ ['(', '.', '+'] then none
      else some (st.afterOp c) := by
  rcases h with rfl | rfl | rfl | rfl | rfl | rfl <;>
    simp [scanStep, forbidden_last_chars, ScanState.afterOp, ScanState.afterSign]

theorem scanStep_other (st : ScanState) {c : Char} (h1 : ¬ isOpen c) (h2 : ¬ isClose c)
    (h3 : ¬ isDigit c) (h4 : ¬ isSeparator c) (h5 : ¬ isBinOp c) : scanStep st c = some st := by
  unfold isOpen at h1
  unfold isClose at h2
  unfold isDigit at h3
  unfold isSeparator at h4
  unfold scanStep
  have h6 : ¬ (c = '-' ∧ st.last_char_type ∈ forbidden_last_chars 3) := fun h =>
    h5 (Or.inr (Or.inl h.1))
  unfold isBinOp at h5
  rw [if_neg h1, if_neg h2, if_neg h3, if_neg h4, if_neg h6, if_neg h5]

/-! ## Scanning a number literal -/

theorem scanLoop_some_cons {st st1 : ScanState} {c : Char} (cs : List Char)
    (h : scanStep st c = some st1) : scanLoop st (c :: cs) = scanLoop st1 cs := by
  simp [scanLoop, h]

theorem scanLoop_none_cons {st : ScanState} {c : Char} (cs : List Char)
    (h : scanStep st c = none) : scanLoop st (c :: cs) = none := by
  simp [scanLoop, h]

theorem scanStep_digit_first (st : ScanState) {c : Char} (h : isDigit c)
    (h1 : st.is_num_active = false) (h3 : st.last_char_type ≠ ')') :
    scanStep st c = some { st with
      is_num_active := true, current_num := digitValue c, last_char_type := '0' } := by
  rw [scanStep_digit st h, if_neg h3, if_pos h1]

theorem scanStep_digit_int (st : ScanState) {c : Char} (h : isDigit c)
    (h1 : st.is_num_active = true) (h2 : st.is_decimal = false) (h3 : st.last_char_type ≠ ')') :
    scanStep st c = some { st with
      current_num := st.current_num * 10 + digitValue c, last_char_type := '0' } := by
  rw [scanStep_digit st h, if_neg h3, if_neg (by simp [h1]), if_pos h2]

theorem scanStep_digit_frac (st : ScanState) {c : Char} (h : isDigit c)
    (h1 : st.is_num_active = true) (h2 : st.is_decimal = true) (h3 : st.last_char_type ≠ ')') :
    scanStep st c = some { st with
      decimal_mult := st.decimal_mult * (1 / 10)
      current_num := st.current_num + digitValue c * (st.decimal_mult * (1 / 10))
      last_char_type := '0' } := by
  rw [scanStep_digit st h, if_neg h3, if_neg (by simp [h1]), if_neg (by simp [h2])]

theorem scanLoop_intDigits (ds : List Char) (hds : ∀ c ∈ ds, isDigit c) (st : ScanState)
    (h1 : st.is_num_active = true) (h2 : st.is_decimal = false) (h3 : st.last_char_type = '0') :
    scanLoop st ds = some { st with current_num := accInt st.current_num ds } := by
  induction ds generalizing st with
  | nil => simp [scanLoop, accInt]
  | cons c cs ih =>
    have hc : isDigit c := hds c (List.mem_cons_self c cs)
    have hcs : ∀ d ∈ cs, isDigit d := fun d hd => hds d (List.mem_cons_of_mem c hd)
    rw [scanLoop_some_cons cs (scanStep_digit_int st hc h1 h2 (by simp [h3]))]
    refine (ih hcs _ ?_ ?_ ?_).trans ?_
    · simpa using h1
    · simpa using h2
    · rfl
    · simp [accInt, h3]

theorem scanLoop_fracDigits (ds : List Char) (hds : ∀ c ∈ ds, isDigit c) (st : ScanState)
    (h1 : st.is_num_active = true) (h2 : st.is_decimal = true) (h3 : st.last_char_type ≠ ')') :
    scanLoop st ds = some { st with
      current_num := (accFrac (st.current_num, st.decimal_mult) ds).1
      decimal_mult := (accFrac (st.current_num, st.decimal_mult) ds).2
      last_char_type := if ds = [] then st.last_char_type else '0' } := by
  induction ds generalizing st with
  | nil => simp [scanLoop, accFrac]
  | cons c cs ih =>
    have hc : isDigit c := hds c (List.mem_cons_self c cs)
    have hcs : ∀ d ∈ cs, isDigit d := fun d hd => hds d (List.mem_cons_of_mem c hd)
    rw [scanLoop_some_cons cs (scanStep_digit_frac st hc h1 h2 h3)]
    refine (ih hcs _ ?_ ?_ ?_).trans ?_
    · simpa using h1
    · simpa using h2
    · simp
    · simp [accFrac]

theorem scanLoop_numLit (a : NumLit) (ha : a.wf) (st : ScanState)
    (h1 : st.is_num_active = false) (h2 : st.is_decimal = false)
    (h3 : st.last_char_type ≠ ')') :
    scanLoop st a.chars = some (st.afterLit a) := by
  obtain ⟨hne, hint, hfrac⟩ := ha
  obtain ⟨d, ds, hd⟩ := List.exists_cons_of_ne_nil hne
  have hdd : isDigit d := hint d (by simp [hd])
  have hds : ∀ c ∈ ds, isDigit c := fun c hc => hint c (by simp [hd, hc])
  have hfirst : ∀ rest : List Char, scanLoop st (a.intDigits ++ rest) =
      scanLoop { st with is_num_active := true, current_num := accInt 0 a.intDigits,
                         last_char_type := '0' } rest := by
    intro rest
    rw [scanLoop_append, hd, scanLoop_some_cons ds (scanStep_digit_first st hdd h1 h3)]
    rw [scanLoop_intDigits ds hds _ rfl (by simpa using h2) rfl]
    simp [accInt]
  cases hf : a.frac with
  | none =>
    have := hfirst []
    simp only [List.append_nil, scanLoop] at this
    simp [NumLit.chars, hf, this, ScanState.afterLit, NumLit.value, NumLit.multAfter, h2]
  | some p =>
    obtain ⟨hsep, hpne, hpd⟩ := hfrac p (by simp [hf])
    simp only [NumLit.chars, hf]
    rw [hfirst]
    have hstep := scanStep_separator
      { st with is_num_active := true, current_num := accInt 0 a.intDigits, last_char_type := '0' }
      hsep
    rw [if_neg (by simp [h2])] at hstep
    rw [scanLoop_some_cons p.2 hstep]
    refine (scanLoop_fracDigits p.2 hpd _ rfl rfl (by simp)).trans ?_
    simp [ScanState.afterLit, NumLit.value, NumLit.multAfter, hf, hpne]

/-! ## The placement pass -/

theorem sortOperators_perm (ops : List Operator) : (sortOperators ops).Perm ops :=
  List.perm_insertionSort opLess ops

theorem sortOperators_length (ops : List Operator) :
    (sortOperators ops).length = ops.length :=
  (sortOperators_perm ops).length_eq

theorem sortOperators_pair (x y : Operator) :
    sortOperators [x, y] = if opLess x y then [x, y] else [y, x] := by
  simp [sortOperators, List.insertionSort, List.orderedInsert]

theorem TreeNode.isNull_iff (t : TreeNode) : t.isNull = true ↔ t = TreeNode.null := by
  cases t <;> simp [TreeNode.isNull]

theorem TreeNode.operators_ofOperator (o : Operator) :
    (TreeNode.ofOperator o).operators = [o] := by
  simp [TreeNode.ofOperator, TreeNode.operators]

/-- Placing an operator in a tree of operators succeeds, adds exactly this
operator and keeps the search-tree property. -/
theorem placeOperator_spec (o : Operator) (t : TreeNode) (hs : t.isSkeleton = true)
    (hn : t.isNull = false) :
    ∃ t1, placeOperator o t = some t1 ∧ t1.isSkeleton = true ∧ t1.isNull = false ∧
      t1.operators.Perm (o :: t.operators) ∧ (t.isSearchTree → t1.isSearchTree) := by
  induction t with
  | null => simp [TreeNode.isNull] at hn
  | mk number cop son0 son1 ih0 ih1 =>
    cases cop with
    | none => simp [TreeNode.isSkeleton] at hs
    | some c =>
      simp only [TreeNode.isSkeleton, Bool.and_eq_true] at hs
      simp only [placeOperator]
      by_cases hlt : o.array_idx < c.array_idx
      · rw [if_pos hlt]
        cases h0 : son0.isNull with
        | true =>
          have hnull : son0 = TreeNode.null := (TreeNode.isNull_iff son0).1 h0
          subst hnull
          refine ⟨TreeNode.mk number (some c) (TreeNode.ofOperator o) son1,
            by simp [TreeNode.isNull], ?_, ?_, ?_, ?_⟩
          · simp [TreeNode.isSkeleton, TreeNode.ofOperator, hs.2]
          · simp [TreeNode.isNull]
          · simp [TreeNode.operators, TreeNode.ofOperator]
          · intro hst
            simp only [TreeNode.isSearchTree, TreeNode.operators, TreeNode.ofOperator] at hst ⊢
            refine ⟨?_, hst.2.1, ?_, hst.2.2.2⟩
            · intro x hx
              simp at hx
              subst hx
              exact hlt
            · simp
        | false =>
          obtain ⟨s, hs1, hs2, hs3, hs4, hs5⟩ := ih0 hs.1 h0
          refine ⟨TreeNode.mk number (some c) s son1, by simp [hs1], ?_, ?_, ?_, ?_⟩
          · simp [TreeNode.isSkeleton, hs2, hs.2]
          · simp [TreeNode.isNull]
          · simp only [TreeNode.operators]
            exact (hs4.append_right _).trans (by simp)
          · intro hst
            simp only [TreeNode.isSearchTree] at hst ⊢
            refine ⟨?_, hst.2.1, hs5 hst.2.2.1, hst.2.2.2⟩
            intro x hx
            rcases List.mem_cons.1 (hs4.mem_iff.1 hx) with hx1 | hx1
            · subst hx1
              exact hlt
            · exact hst.1 x hx1
      · rw [if_neg hlt]
        cases h1 : son1.isNull with
        | true =>
          have hnull : son1 = TreeNode.null := (TreeNode.isNull_iff son1).1 h1
          subst hnull
          refine ⟨TreeNode.mk number (some c) son0 (TreeNode.ofOperator o),
            by simp [TreeNode.isNull], ?_, ?_, ?_, ?_⟩
          · simp [TreeNode.isSkeleton, TreeNode.ofOperator, hs.1]
          · simp [TreeNode.isNull]
          · simp only [TreeNode.operators, TreeNode.ofOperator, List.append_nil, List.nil_append]
            have h := List.perm_append_singleton o (son0.operators ++ [c])
            simpa using h
          · intro hst
            simp only [TreeNode.isSearchTree, TreeNode.operators, TreeNode.ofOperator] at hst ⊢
            refine ⟨hst.1, ?_, hst.2.2.1, ?_⟩
            · intro x hx
              simp at hx
              subst hx
              exact Nat.le_of_not_lt hlt
            · simp
        | false =>
          obtain ⟨s, hs1, hs2, hs3, hs4, hs5⟩ := ih1 hs.2 h1
          refine ⟨TreeNode.mk number (some c) son0 s, by simp [hs1], ?_, ?_, ?_, ?_⟩
          · simp [TreeNode.isSkeleton, hs2, hs.1]
          · simp [TreeNode.isNull]
          · simp only [TreeNode.operators]
            have h : (son0.operators ++ c :: s.operators).Perm
                (son0.operators ++ c :: o :: son1.operators) :=
              (hs4.cons c).append_left _
            refine h.trans ?_
            have h2 : (son0.operators ++ c :: o :: son1.operators) =
                (son0.operators ++ [c]) ++ o :: son1.operators := by simp
            rw [h2]
            refine List.perm_middle.trans ?_
            simp
          · intro hst
            simp only [TreeNode.isSearchTree] at hst ⊢
            refine ⟨hst.1, ?_, hst.2.2.1, hs5 hst.2.2.2⟩
            intro x hx
            rcases List.mem_cons.1 (hs4.mem_iff.1 hx) with hx1 | hx1
            · subst hx1
              exact Nat.le_of_not_lt hlt
            · exact hst.2.1 x hx1

/-- The placement loop started on a non-empty tree of operators. -/
theorem placeAll_spec (ops : List Operator) (t : TreeNode) (hs : t.isSkeleton = true)
    (hn : t.isNull = false) (hst : t.isSearchTree) :
    ∃ t1, placeAll t ops = some t1 ∧ t1.isSkeleton = true ∧ t1.isNull = false ∧
      t1.operators.Perm (ops ++ t.operators) ∧ t1.isSearchTree := by
  induction ops generalizing t with
  | nil => exact ⟨t, by simp [placeAll], hs, hn, by simp, hst⟩
  | cons o rest ih =>
    obtain ⟨t1, h1, h2, h3, h4, h5⟩ := placeOperator_spec o t hs hn
    obtain ⟨t2, k1, k2, k3, k4, k5⟩ := ih t1 h2 h3 (h5 hst)
    refine ⟨t2, by simp [placeAll, hn, h1, k1], k2, k3, ?_, k5⟩
    refine k4.trans ?_
    refine (List.Perm.append_left rest h4).trans ?_
    simp

/-- The placement loop of `BuildTree` on an empty root and at least one
operator. -/
theorem placeAll_null_spec (o : Operator) (rest : List Operator) :
    ∃ t1, placeAll TreeNode.null (o :: rest) = some t1 ∧ t1.isSkeleton = true ∧
      t1.isNull = false ∧ t1.operators.Perm (o :: rest) ∧ t1.isSearchTree := by
  obtain ⟨t1, h1, h2, h3, h4, h5⟩ := placeAll_spec rest (TreeNode.ofOperator o)
    (by simp [TreeNode.ofOperator, TreeNode.isSkeleton])
    (by simp [TreeNode.ofOperator, TreeNode.isNull])
    (by simp [TreeNode.ofOperator, TreeNode.isSearchTree, TreeNode.operators])
  refine ⟨t1, by simp [placeAll, TreeNode.isNull, h1], h2, h3, ?_, h5⟩
  refine h4.trans ?_
  simp [TreeNode.operators_ofOperator]

/-- The in-order sequence of a search tree is ordered by position index. -/
theorem TreeNode.operators_sorted (t : TreeNode) (hst : t.isSearchTree) :
    t.operators.Pairwise fun a b => a.array_idx ≤ b.array_idx := by
  induction t with
  | null => simp [TreeNode.operators]
  | mk number cop son0 son1 ih0 ih1 =>
    cases cop with
    | none => simp [TreeNode.isSearchTree] at hst
    | some c =>
      simp only [TreeNode.isSearchTree] at hst
      obtain ⟨h0, h1, hs0, hs1⟩ := hst
      simp only [TreeNode.operators]
      rw [List.pairwise_append]
      refine ⟨ih0 hs0, ?_, ?_⟩
      · rw [List.pairwise_cons]
        exact ⟨h1, ih1 hs1⟩
      · intro a ha b hb
        rcases List.mem_cons.1 hb with hb1 | hb1
        · subst hb1
          exact Nat.le_of_lt (h0 a ha)
        · exact Nat.le_trans (Nat.le_of_lt (h0 a ha)) (h1 b hb1)

instance idxLt_antisymm :
    IsAntisymm Operator (fun a b => a.array_idx < b.array_idx) :=
  ⟨fun _ _ h1 h2 => absurd h1 (Nat.lt_asymm h2)⟩

/-- A search tree holding a permutation of operators with increasing position
indices lists them, in in-order, in their original order. -/
theorem TreeNode.operators_eq_of_perm (t : TreeNode) (ops : List Operator)
    (hst : t.isSearchTree) (hp : t.operators.Perm ops)
    (hinc : ops.Pairwise fun a b => a.array_idx < b.array_idx) : t.operators = ops := by
  have hne : ops.Pairwise fun a b => a.array_idx ≠ b.array_idx :=
    hinc.imp fun h => Nat.ne_of_lt h
  have hne1 : t.operators.Pairwise fun a b => a.array_idx ≠ b.array_idx :=
    hne.perm hp.symm fun h => h.symm
  have hlt : t.operators.Pairwise fun a b => a.array_idx < b.array_idx :=
    ((TreeNode.operators_sorted t hst).and hne1).imp fun h => Nat.lt_of_le_of_ne h.1 h.2
  exact List.eq_of_perm_of_sorted hp hlt hinc

theorem pairwise_idx_of_range (ops : List Operator)
    (h : ops.map Operator.array_idx = List.range ops.length) :
    ops.Pairwise fun a b => a.array_idx < b.array_idx := by
  have h1 : (ops.map Operator.array_idx).Pairwise (· < ·) := by
    rw [h]; exact List.pairwise_lt_range ops.length
  exact (List.pairwise_map.1 h1)

/-! ## The leaf fill -/

theorem interleave_append (xs0 xs1 : List ℚ) (ops0 ops1 : List Operator) (c : Operator)
    (h : xs0.length = ops0.length + 1) :
    interleave (xs0 ++ xs1) (ops0 ++ c :: ops1) =
      interleave xs0 ops0 ++ Token.op c :: interleave xs1 ops1 := by
  induction ops0 generalizing xs0 with
  | nil =>
    match xs0, h with
    | [x], _ =>
      cases xs1 <;> simp [interleave]
  | cons o os ih =>
    match xs0, h with
    | x :: xs, h =>
      have h1 : xs.length = os.length + 1 := by simpa using h
      simp [interleave, ih xs h1]

theorem interleave_length (xs : List ℚ) (ops : List Operator)
    (h : xs.length = ops.length + 1) : (interleave xs ops).length = 2 * ops.length + 1 := by
  induction ops generalizing xs with
  | nil =>
    match xs, h with
    | [x], _ => simp [interleave]
  | cons o os ih =>
    match xs, h with
    | x :: xs, h =>
      have h1 : xs.length = os.length + 1 := by simpa using h
      simp [interleave, ih xs h1]
      omega

/-- The slot filling of `FillNumIntoTreeNode` for one side (lines 114-119). -/
theorem fillSlot_spec (t : TreeNode) (hs : t.isSkeleton = true) (pre xs : List ℚ)
    (hlen : xs.length = t.operators.length + 1) :
    ∃ t1, (if t.isNull = true then popLeaf (pre ++ xs) else FillNumIntoTreeNode t (pre ++ xs)) =
        some (t1, pre) ∧
      t1.isFull = true ∧ t1.inorder = interleave xs t.operators := by
  induction t generalizing pre xs with
  | null =>
    simp only [TreeNode.operators, List.length_nil, Nat.zero_add] at hlen
    match xs, hlen with
    | [x], _ =>
      refine ⟨TreeNode.ofNumber x, ?_, ?_, ?_⟩
      · simp [TreeNode.isNull, popLeaf]
      · simp [TreeNode.ofNumber, TreeNode.isFull, TreeNode.isNull]
      · simp [TreeNode.ofNumber, TreeNode.inorder, interleave, TreeNode.operators]
  | mk number cop son0 son1 ih0 ih1 =>
    cases cop with
    | none => simp [TreeNode.isSkeleton] at hs
    | some c =>
      simp only [TreeNode.isSkeleton, Bool.and_eq_true] at hs
      simp only [TreeNode.operators, List.length_append, List.length_cons] at hlen
      have hx : xs = xs.take (son0.operators.length + 1) ++ xs.drop (son0.operators.length + 1) :=
        (List.take_append_drop _ xs).symm
      have hl0 : (xs.take (son0.operators.length + 1)).length = son0.operators.length + 1 := by
        rw [List.length_take]; omega
      have hl1 : (xs.drop (son0.operators.length + 1)).length = son1.operators.length + 1 := by
        rw [List.length_drop]; omega
      obtain ⟨t1, k1, k2, k3⟩ := ih1 hs.2 (pre ++ xs.take (son0.operators.length + 1))
        (xs.drop (son0.operators.length + 1)) hl1
      obtain ⟨t0, j1, j2, j3⟩ := ih0 hs.1 pre (xs.take (son0.operators.length + 1)) hl0
      rw [List.append_assoc, ← hx] at k1
      refine ⟨TreeNode.mk number (some c) t0 t1, ?_, ?_, ?_⟩
      · have hnn : (TreeNode.mk number (some c) son0 son1).isNull = false := rfl
        rw [hnn, if_neg (by simp), FillNumIntoTreeNode, k1]
        simp only [Option.some_bind]
        rw [j1]
        simp
      · simp [TreeNode.isFull, j2, k2]
      · simp only [TreeNode.inorder, TreeNode.operators, j3, k3]
        conv_rhs => rw [hx]
        rw [interleave_append _ _ _ _ _ hl0]

/-! ## Symbolic execution of the scan -/

theorem ne_close_of_class {x : Char}
    (h : x = '?' ∨ x = '(' ∨ x = '+' ∨ x = '0') : x ≠ ')' := by
  rcases h with rfl | rfl | rfl | rfl <;> decide

theorem scanLoop_lit_append (a : NumLit) (ha : a.wf) (st : ScanState) (rest : List Char)
    (h1 : st.is_num_active = false) (h2 : st.is_decimal = false)
    (h3 : st.last_char_type = '?' ∨ st.last_char_type = '(' ∨ st.last_char_type = '+' ∨
      st.last_char_type = '0') :
    scanLoop st (a.chars ++ rest) = scanLoop (st.afterLit a) rest := by
  rw [scanLoop_append, scanLoop_numLit a ha st h1 h2 (ne_close_of_class h3)]
  rfl

theorem scanLoop_lit (a : NumLit) (ha : a.wf) (st : ScanState)
    (h1 : st.is_num_active = false) (h2 : st.is_decimal = false)
    (h3 : st.last_char_type = '?' ∨ st.last_char_type = '(' ∨ st.last_char_type = '+' ∨
      st.last_char_type = '0') :
    scanLoop st a.chars = some (st.afterLit a) :=
  scanLoop_numLit a ha st h1 h2 (ne_close_of_class h3)

theorem scanStep_op (st : ScanState) {c : Char} (hc : isBinOp c)
    (h1 : st.is_num_active = true)
    (h2 : st.last_char_type = '0' ∨ st.last_char_type = ')') :
    scanStep st c = some (st.afterOp c) := by
  rw [scanStep_binop st hc, if_neg, if_neg]
  · rcases h2 with h | h <;> simp [h, h1]
  · rcases h2 with h | h <;> simp [h]

theorem scanLoop_op_cons (st : ScanState) {c : Char} (hc : isBinOp c) (rest : List Char)
    (h1 : st.is_num_active = true)
    (h2 : st.last_char_type = '0' ∨ st.last_char_type = ')') :
    scanLoop st (c :: rest) = scanLoop (st.afterOp c) rest :=
  scanLoop_some_cons rest (scanStep_op st hc h1 h2)

theorem scanLoop_open_cons (st : ScanState) {c : Char} (hc : isOpen c) (rest : List Char)
    (h1 : st.is_num_active = false)
    (h2 : st.last_char_type = '?' ∨ st.last_char_type = '(' ∨ st.last_char_type = '+') :
    scanLoop st (c :: rest) = scanLoop (st.afterOpen c) rest := by
  refine scanLoop_some_cons rest ?_
  rw [scanStep_open st hc, if_neg]
  rcases h2 with h | h | h <;> simp [h, h1]

theorem scanLoop_close_cons (st : ScanState) {c o : Char} (hc : isClose c) (rest : List Char)
    (stack : List Char) (h1 : st.parenthesis = stack ++ [o])
    (hm : are_matching_parenthesis o c = true)
    (h2 : st.last_char_type = '0' ∨ st.last_char_type = ')') :
    scanLoop st (c :: rest) = scanLoop st.afterClose rest := by
  refine scanLoop_some_cons rest ?_
  rw [scanStep_close st hc, h1]
  rcases h2 with h | h <;> simp [h, hm]

theorem scanLoop_sign_cons (st : ScanState) (rest : List Char)
    (h1 : st.last_char_type = '?' ∨ st.last_char_type = '(') (h2 : st.sign = 1) :
    scanLoop st ('-' :: rest) = scanLoop st.afterSign rest := by
  refine scanLoop_some_cons rest ?_
  rw [scanStep_binop st (by decide), if_pos, if_neg (by simp [h2])]
  rcases h1 with h | h <;> simp [h]

theorem isOpen_of_matching {o c : Char} (h : are_matching_parenthesis o c = true) :
    isOpen o := by
  simp only [are_matching_parenthesis, decide_eq_true_eq] at h
  rcases h with h | h | h
  · exact Or.inl h.1
  · exact Or.inr (Or.inl h.1)
  · exact Or.inr (Or.inr h.1)

theorem isClose_of_matching {o c : Char} (h : are_matching_parenthesis o c = true) :
    isClose c := by
  simp only [are_matching_parenthesis, decide_eq_true_eq] at h
  rcases h with h | h | h
  · exact Or.inl h.2
  · exact Or.inr (Or.inl h.2)
  · exact Or.inr (Or.inr h.2)

theorem OpPriority_bounds {c : Char} (h : isBinOp c) : 0 ≤ OpPriority c ∧ OpPriority c ≤ 3 := by
  rcases h with rfl | rfl | rfl | rfl | rfl | rfl <;> decide

/-- The tokens of `(a p b) q c`. -/
theorem tokenize_group_left (a b c : NumLit) (p q o cl : Char) (ha : a.wf) (hb : b.wf)
    (hc : c.wf) (hp : isBinOp p) (hq : isBinOp q)
    (hm : are_matching_parenthesis o cl = true) :
    tokenize new (o :: a.chars ++ p :: b.chars ++ cl :: q :: c.chars) =
      some { root := TreeNode.null
             operators := [Operator.new p 1 0, Operator.new q 0 1]
             numbers := [a.value, b.value, c.value] } := by
  have ho := isOpen_of_matching hm
  have hcl := isClose_of_matching hm
  simp only [tokenize, List.cons_append, List.append_assoc]
  rw [scanLoop_open_cons _ ho _ rfl (Or.inl rfl),
    scanLoop_lit_append a ha _ _ rfl rfl (Or.inr (Or.inl rfl)),
    scanLoop_op_cons _ hp _ rfl (Or.inl rfl),
    scanLoop_lit_append b hb _ _ rfl rfl (Or.inr (Or.inr (Or.inl rfl))),
    scanLoop_close_cons _ hcl _ [] rfl hm (Or.inl rfl),
    scanLoop_op_cons _ hq _ rfl (Or.inr rfl),
    scanLoop_lit c hc _ rfl rfl (Or.inr (Or.inr (Or.inl rfl)))]
  simp [scanLoop, ScanState.afterLit, ScanState.afterOp, ScanState.afterOpen,
    ScanState.afterClose, ScanState.init, new]

/-- The tokens of `a q (b p c)`. -/
theorem tokenize_group_right (a b c : NumLit) (p q o cl : Char) (ha : a.wf) (hb : b.wf)
    (hc : c.wf) (hp : isBinOp p) (hq : isBinOp q)
    (hm : are_matching_parenthesis o cl = true) :
    tokenize new (a.chars ++ q :: o :: b.chars ++ p :: c.chars ++ [cl]) =
      some { root := TreeNode.null
             operators := [Operator.new q 0 0, Operator.new p 1 1]
             numbers := [a.value, b.value, c.value] } := by
  have ho := isOpen_of_matching hm
  have hcl := isClose_of_matching hm
  simp only [tokenize, List.cons_append, List.append_assoc]
  rw [scanLoop_lit_append a ha _ _ rfl rfl (Or.inl rfl),
    scanLoop_op_cons _ hq _ rfl (Or.inl rfl),
    scanLoop_open_cons _ ho _ rfl (Or.inr (Or.inr rfl)),
    scanLoop_lit_append b hb _ _ rfl rfl (Or.inr (Or.inl rfl)),
    scanLoop_op_cons _ hp _ rfl (Or.inl rfl),
    scanLoop_lit_append c hc _ _ rfl rfl (Or.inr (Or.inr (Or.inl rfl))),
    scanLoop_close_cons _ hcl _ [] rfl hm (Or.inl rfl)]
  simp [scanLoop, ScanState.afterLit, ScanState.afterOp, ScanState.afterOpen,
    ScanState.afterClose, ScanState.init, new]

/-- The tokens of `a p b q c`. -/
theorem tokenize_two_ops (a b c : NumLit) (p q : Char) (ha : a.wf) (hb : b.wf)
    (hc : c.wf) (hp : isBinOp p) (hq : isBinOp q) :
    tokenize new (a.chars ++ p :: b.chars ++ q :: c.chars) =
      some { root := TreeNode.null
             operators := [Operator.new p 0 0, Operator.new q 0 1]
             numbers := [a.value, b.value, c.value] } := by
  simp only [tokenize, List.cons_append, List.append_assoc]
  rw [scanLoop_lit_append a ha _ _ rfl rfl (Or.inl rfl),
    scanLoop_op_cons _ hp _ rfl (Or.inl rfl),
    scanLoop_lit_append b hb _ _ rfl rfl (Or.inr (Or.inr (Or.inl rfl))),
    scanLoop_op_cons _ hq _ rfl (Or.inl rfl),
    scanLoop_lit c hc _ rfl rfl (Or.inr (Or.inr (Or.inl rfl)))]
  simp [scanLoop, ScanState.afterLit, ScanState.afterOp, ScanState.init, new]

theorem opLess_of_lt {x y : Operator} (h : x.priority_lvl < y.priority_lvl) : opLess x y := by
  unfold opLess
  rw [if_pos (Int.ne_of_lt h)]
  exact h

theorem not_opLess_of_lt {x y : Operator} (h : y.priority_lvl < x.priority_lvl) :
    ¬ opLess x y := by
  unfold opLess
  rw [if_pos (Int.ne_of_gt h)]
  exact Int.lt_asymm h

/-- `BuildTree` on two operators, the first of lower priority key. -/
theorem BuildTree_two_first (x y : Operator) (n0 n1 n2 : ℚ) (hxy : x.array_idx < y.array_idx)
    (h : x.priority_lvl < y.priority_lvl) :
    BuildTree { root := TreeNode.null, operators := [x, y], numbers := [n0, n1, n2] } =
      some { root := TreeNode.mk 0 (some x) (TreeNode.ofNumber n0)
                       (TreeNode.mk 0 (some y) (TreeNode.ofNumber n1) (TreeNode.ofNumber n2))
             operators := [x, y]
             numbers := [] } := by
  have h1 : ¬ (y.array_idx < x.array_idx) := Nat.lt_asymm hxy
  simp [BuildTree, sortOperators_pair, opLess_of_lt h, placeAll, placeOperator, TreeNode.isNull,
    TreeNode.ofOperator, h1, FillNumIntoTreeNode, popLeaf]

/-- `BuildTree` on two operators, the second of lower priority key. -/
theorem BuildTree_two_second (x y : Operator) (n0 n1 n2 : ℚ) (hxy : x.array_idx < y.array_idx)
    (h : y.priority_lvl < x.priority_lvl) :
    BuildTree { root := TreeNode.null, operators := [x, y], numbers := [n0, n1, n2] } =
      some { root := TreeNode.mk 0 (some y)
                       (TreeNode.mk 0 (some x) (TreeNode.ofNumber n0) (TreeNode.ofNumber n1))
                       (TreeNode.ofNumber n2)
             operators := [y, x]
             numbers := [] } := by
  simp [BuildTree, sortOperators_pair, not_opLess_of_lt h, placeAll, placeOperator,
    TreeNode.isNull, TreeNode.ofOperator, hxy, FillNumIntoTreeNode, popLeaf]

/-- Below `2^29` open brackets the key of an operator is `4 * depth + base`:
the arithmetic of line 55 does not overflow. -/
theorem priority_new_eq {c : Char} (h : isBinOp c) (d i : Nat) (hd : d < 536870912) :
    (Operator.new c d i).priority_lvl = (d : Int) * 4 + OpPriority c := by
  have b := OpPriority_bounds h
  simp only [Operator.new, wrapInt]
  have h3 : (d : Int) < 536870912 := by exact_mod_cast hd
  omega

theorem priority_new_zero {c : Char} (h : isBinOp c) (i : Nat) :
    (Operator.new c 0 i).priority_lvl = OpPriority c := by
  have := priority_new_eq h 0 i (by decide)
  simpa using this

theorem priority_new_lt_of_depth {c1 c2 : Char} (h1 : isBinOp c1) (h2 : isBinOp c2)
    (d1 d2 : Nat) (i j : Nat) (h : d1 < d2) (hd : d2 < 536870912) :
    (Operator.new c1 d1 i).priority_lvl < (Operator.new c2 d2 j).priority_lvl := by
  have b1 := OpPriority_bounds h1
  have b2 := OpPriority_bounds h2
  rw [priority_new_eq h1 d1 i (by omega), priority_new_eq h2 d2 j hd]
  have h3 : (d1 : Int) + 1 ≤ (d2 : Int) := by exact_mod_cast h
  omega

/-! ## Chains of operators of equal priority -/

theorem afterChain_props (rest : List (Char × NumLit)) (st : ScanState)
    (h1 : st.is_num_active = true) (h2 : st.last_char_type = '0') :
    (st.afterChain rest).is_num_active = true ∧ (st.afterChain rest).last_char_type = '0' ∧
      (st.afterChain rest).parenthesis = st.parenthesis ∧
      (st.afterChain rest).es.root = st.es.root ∧
      (st.afterChain rest).es.operators =
        st.es.operators ++ chainOps st.parenthesis.length st.es.operators.length rest ∧
      (st.afterChain rest).es.numbers ++
          [(st.afterChain rest).current_num * ((st.afterChain rest).sign : ℚ)] =
        st.es.numbers ++ (st.current_num * (st.sign : ℚ)) :: rest.map fun p => p.2.value := by
  induction rest generalizing st with
  | nil => simp [ScanState.afterChain, chainOps, h1, h2]
  | cons p rest ih =>
    obtain ⟨k1, k2, k3, k4, k5, k6⟩ := ih ((st.afterOp p.1).afterLit p.2) rfl rfl
    simp only [ScanState.afterChain]
    refine ⟨k1, k2, k3, k4, ?_, ?_⟩
    · rw [k5]
      simp [ScanState.afterLit, ScanState.afterOp, chainOps]
    · rw [k6]
      simp [ScanState.afterLit, ScanState.afterOp]

theorem scanLoop_chain (rest : List (Char × NumLit)) (st : ScanState)
    (hrest : ∀ p ∈ rest, isBinOp p.1 ∧ p.2.wf)
    (h1 : st.is_num_active = true) (h2 : st.last_char_type = '0') :
    scanLoop st (chainChars rest) = some (st.afterChain rest) := by
  induction rest generalizing st with
  | nil => simp [chainChars, scanLoop, ScanState.afterChain]
  | cons p rest ih =>
    have hp := hrest p (List.mem_cons_self p rest)
    have hr : ∀ q ∈ rest, isBinOp q.1 ∧ q.2.wf := fun q hq =>
      hrest q (List.mem_cons_of_mem p hq)
    simp only [chainChars, ScanState.afterChain, List.cons_append]
    rw [scanLoop_op_cons st hp.1 _ h1 (Or.inl h2),
      scanLoop_lit_append p.2 hp.2 _ _ rfl rfl (Or.inr (Or.inr (Or.inl rfl)))]
    exact ih _ hr rfl rfl

/-- The tokens of the chain `a o_1 a_1 ... o_k a_k`. -/
theorem tokenize_chain (a : NumLit) (rest : List (Char × NumLit)) (ha : a.wf)
    (hrest : ∀ p ∈ rest, isBinOp p.1 ∧ p.2.wf) :
    tokenize new (a.chars ++ chainChars rest) =
      some { root := TreeNode.null
             operators := chainOps 0 0 rest
             numbers := a.value :: rest.map fun p => p.2.value } := by
  obtain ⟨k1, k2, k3, k4, k5, k6⟩ :=
    afterChain_props rest ((ScanState.init new).afterLit a) rfl rfl
  simp only [tokenize]
  rw [scanLoop_lit_append a ha _ _ rfl rfl (Or.inl rfl),
    scanLoop_chain rest _ hrest rfl rfl]
  simp only [k1, k3, k4, k5, k6]
  simp [ScanState.afterLit, ScanState.init, new]

theorem chainOps_append (d : Int) (i : Nat) (l₁ l₂ : List (Char × NumLit)) :
    chainOps d i (l₁ ++ l₂) = chainOps d i l₁ ++ chainOps d (i + l₁.length) l₂ := by
  induction l₁ generalizing i with
  | nil => simp [chainOps]
  | cons p l ih =>
    have h : i + 1 + l.length = i + (l.length + 1) := by omega
    have h2 := ih (i + 1)
    rw [h] at h2
    simp only [List.cons_append, chainOps, List.length_cons]
    exact congrArg (List.cons (Operator.new p.1 d i)) h2

theorem chainOps_length (d : Int) (i : Nat) (l : List (Char × NumLit)) :
    (chainOps d i l).length = l.length := by
  induction l generalizing i with
  | nil => simp [chainOps]
  | cons p l ih => simp [chainOps, ih]

theorem chainOps_idx (d : Int) (i : Nat) (l : List (Char × NumLit)) :
    ∀ o ∈ chainOps d i l, i ≤ o.array_idx := by
  induction l generalizing i with
  | nil => simp [chainOps]
  | cons p l ih =>
    intro o ho
    simp only [chainOps, List.mem_cons] at ho
    rcases ho with rfl | ho
    · simp [Operator.new]
    · exact Nat.le_of_succ_le (ih (i + 1) o ho)

theorem chainOps_pairwise (d : Int) (i : Nat) (l : List (Char × NumLit)) :
    (chainOps d i l).Pairwise fun a b => a.array_idx < b.array_idx := by
  induction l generalizing i with
  | nil => simp [chainOps]
  | cons p l ih =>
    simp only [chainOps, List.pairwise_cons]
    refine ⟨fun o ho => ?_, ih (i + 1)⟩
    have := chainOps_idx d (i + 1) l o ho
    simp only [Operator.new]
    omega

theorem chainOps_priority (d : Int) (i : Nat) (l : List (Char × NumLit)) :
    ∀ o ∈ chainOps d i l, ∃ p ∈ l, o.priority_lvl = wrapInt (d * 4 + OpPriority p.1) := by
  induction l generalizing i with
  | nil => simp [chainOps]
  | cons p l ih =>
    intro o ho
    simp only [chainOps, List.mem_cons] at ho
    rcases ho with rfl | ho
    · exact ⟨p, List.mem_cons_self p l, rfl⟩
    · obtain ⟨q, hq, hq2⟩ := ih (i + 1) o ho
      exact ⟨q, List.mem_cons_of_mem p hq, hq2⟩

theorem orderedInsert_last (x : Operator) (l : List Operator) (h : ∀ y ∈ l, ¬ opLess x y) :
    List.orderedInsert opLess x l = l ++ [x] := by
  induction l with
  | nil => simp
  | cons y l ih =>
    have hy : ¬ opLess x y := h y (List.mem_cons_self y l)
    simp only [List.orderedInsert, if_neg hy, List.cons_append]
    rw [ih fun z hz => h z (List.mem_cons_of_mem y hz)]

/-- Operators of one priority key with increasing position indices are sorted
into the reverse order. -/
theorem sortOperators_same_priority (ops : List Operator)
    (hinc : ops.Pairwise fun a b => a.array_idx < b.array_idx)
    (hsame : ∀ a ∈ ops, ∀ b ∈ ops, a.priority_lvl = b.priority_lvl) :
    sortOperators ops = ops.reverse := by
  induction ops with
  | nil => simp [sortOperators]
  | cons x xs ih =>
    rw [List.pairwise_cons] at hinc
    have ih1 := ih hinc.2 fun a ha b hb =>
      hsame a (List.mem_cons_of_mem x ha) b (List.mem_cons_of_mem x hb)
    simp only [sortOperators, List.insertionSort] at ih1 ⊢
    rw [ih1, List.reverse_cons]
    refine orderedInsert_last x _ fun y hy => ?_
    have hy1 : y ∈ xs := List.mem_reverse.1 hy
    have hlt := hinc.1 y hy1
    have hp := hsame x (List.mem_cons_self x xs) y (List.mem_cons_of_mem x hy1)
    unfold opLess
    rw [if_neg (by simp [hp])]
    exact Nat.lt_asymm hlt

theorem leftSpine_isNull (o : Operator) (s : List Operator) :
    (leftSpine (o :: s)).isNull = false := rfl

theorem placeOperator_leftSpine (o c : Operator) (s : List Operator)
    (h : ∀ x ∈ c :: s, o.array_idx < x.array_idx) :
    placeOperator o (leftSpine (c :: s)) = some (leftSpine (c :: s ++ [o])) := by
  induction s generalizing c with
  | nil =>
    have hc := h c (List.mem_cons_self c [])
    simp [leftSpine, placeOperator, hc, TreeNode.isNull, TreeNode.ofOperator]
  | cons d s ih =>
    have hc := h c (List.mem_cons_self c (d :: s))
    have ih1 := ih d fun x hx => h x (List.mem_cons_of_mem c hx)
    have hn : (leftSpine (d :: s)).isNull = false := rfl
    rw [leftSpine, placeOperator]
    simp only [if_pos hc, hn, Bool.false_eq_true, if_false, ih1]
    simp [leftSpine]

theorem placeAll_leftSpine (rest : List Operator) (c : Operator) (s : List Operator)
    (h : (c :: s ++ rest).Pairwise fun a b => b.array_idx < a.array_idx) :
    placeAll (leftSpine (c :: s)) rest = some (leftSpine (c :: s ++ rest)) := by
  induction rest generalizing s with
  | nil => simp [placeAll]
  | cons o rest ih =>
    have ho : ∀ x ∈ c :: s, o.array_idx < x.array_idx := by
      intro x hx
      have h1 : (c :: s ++ o :: rest) = (c :: s) ++ o :: rest := by simp
      rw [h1, List.pairwise_append] at h
      exact h.2.2 x hx o (List.mem_cons_self o rest)
    have hn : (leftSpine (c :: s)).isNull = false := rfl
    rw [placeAll]
    simp only [hn, Bool.false_eq_true, if_false, placeOperator_leftSpine o c s ho,
      Option.some_bind]
    have h2 : c :: s ++ o :: rest = c :: (s ++ [o]) ++ rest := by simp
    rw [h2] at h ⊢
    exact ih (s ++ [o]) h

/-- The placement loop on operators in decreasing order of position index
builds a left spine. -/
theorem placeAll_null_leftSpine (ops : List Operator) (hne : ops ≠ [])
    (h : ops.Pairwise fun a b => b.array_idx < a.array_idx) :
    placeAll TreeNode.null ops = some (leftSpine ops) := by
  obtain ⟨c, rest, rfl⟩ := List.exists_cons_of_ne_nil hne
  have h1 := placeAll_leftSpine rest c [] (by simpa using h)
  simpa [placeAll, TreeNode.isNull, TreeNode.ofOperator, leftSpine] using h1

/-- The leaf fill of a left spine. -/
theorem FillNum_leftSpine (o : Operator) (s : List Operator) (pre r : List ℚ)
    (hlen : r.length = s.length + 2) :
    FillNumIntoTreeNode (leftSpine (o :: s)) (pre ++ r.reverse) =
      some (filledSpine (o :: s) r, pre) := by
  induction s generalizing o r with
  | nil =>
    match r, hlen with
    | [x, y], _ =>
      simp [leftSpine, FillNumIntoTreeNode, TreeNode.isNull, popLeaf, filledSpine,
        List.getLast?_append, List.dropLast_append_of_ne_nil]
  | cons d s ih =>
    match r, hlen with
    | x :: r, hlen =>
      have hl : r.length = s.length + 2 := by simpa using hlen
      have hn : (leftSpine (d :: s)).isNull = false := rfl
      have h := ih d r hl
      have hnull : TreeNode.null.isNull = true := rfl
      rw [leftSpine, FillNumIntoTreeNode]
      simp only [hnull, if_true, hn, Bool.false_eq_true, if_false, popLeaf,
        List.reverse_cons]
      rw [← List.append_assoc, List.getLast?_concat, List.dropLast_concat]
      simp only [Option.some_bind, h]
      simp [filledSpine]

theorem leftFold_append (x : ℚ) (i : Nat) (l : List (Char × NumLit)) (p : Char × NumLit) :
    leftFold x i (l ++ [p]) =
      (leftFold x i l).bind fun y => (Operator.new p.1 0 (i + l.length)).compute y p.2.value := by
  induction l generalizing x i with
  | nil => simp [leftFold]
  | cons q l ih =>
    simp only [List.cons_append, leftFold, List.length_cons]
    cases (Operator.new q.1 0 i).compute x q.2.value with
    | none => simp
    | some y =>
      have h : i + 1 + l.length = i + (l.length + 1) := by omega
      simp [ih, h]

/-- Evaluating the filled left spine of a chain is the left fold. -/
theorem solve_filledSpine (x : ℚ) (i : Nat) (l : List (Char × NumLit)) :
    (filledSpine (chainOps 0 i l).reverse
      (x :: l.map fun p => p.2.value).reverse).solve = leftFold x i l := by
  induction l using List.reverseRecOn with
  | nil => simp [chainOps, filledSpine, TreeNode.ofNumber, TreeNode.solve, leftFold]
  | append_singleton l p ih =>
    rw [chainOps_append, leftFold_append]
    simp only [chainOps, List.reverse_append, List.reverse_cons, List.reverse_nil,
      List.nil_append, List.map_append, List.map_cons, List.map_nil, List.singleton_append]
    simp only [List.reverse_cons] at ih
    rw [List.cons_append, filledSpine, TreeNode.solve, ih]
    simp [TreeNode.ofNumber, TreeNode.solve]

theorem parse_input_of_tokenize {input : List Char} {es1 es2 : ExpressionSolver}
    (h1 : tokenize new input = some es1) (h2 : BuildTree es1 = some es2) :
    parse_input new input = ParseResult.built es2.numbers.isEmpty es2 := by
  simp [parse_input, h1, h2]

theorem evaluate_of_parse {input : List Char} {es : ExpressionSolver}
    (h : parse_input new input = ParseResult.built true es) :
    evaluate input = es.root.solve := by
  simp [evaluate, h, solve]

theorem evaluate_2_plus_3_times_4 : evaluate "2+3*4".toList = some 14 := by
  simp [evaluate, parse_input, tokenize, scanLoop, scanStep, ScanState.init, new,
    forbidden_last_chars, BuildTree, sortOperators, Operator.new, wrapInt, OpPriority,
    CharToOperatorType, opLess, placeAll, placeOperator, TreeNode.isNull, TreeNode.ofOperator,
    TreeNode.ofNumber, FillNumIntoTreeNode, popLeaf, solve, TreeNode.solve, Operator.compute]
  norm_num

theorem evaluate_group_2_plus_3_times_4 : evaluate "(2+3)*4".toList = some 20 := by
  simp [evaluate, parse_input, tokenize, scanLoop, scanStep, ScanState.init, new,
    forbidden_last_chars, BuildTree, sortOperators, Operator.new, wrapInt, OpPriority,
    CharToOperatorType, opLess, placeAll, placeOperator, TreeNode.isNull, TreeNode.ofOperator,
    TreeNode.ofNumber, FillNumIntoTreeNode, popLeaf, solve, TreeNode.solve, Operator.compute,
    are_matching_parenthesis]
  norm_num

theorem evaluate_8_minus_3_minus_2 : evaluate "8-3-2".toList = some 3 := by
  simp [evaluate, parse_input, tokenize, scanLoop, scanStep, ScanState.init, new,
    forbidden_last_chars, BuildTree, sortOperators, Operator.new, wrapInt, OpPriority,
    CharToOperatorType, opLess, placeAll, placeOperator, TreeNode.isNull, TreeNode.ofOperator,
    TreeNode.ofNumber, FillNumIntoTreeNode, popLeaf, solve, TreeNode.solve, Operator.compute]
  norm_num

/-- `BuildTree` on the tokens of a chain whose operators share one priority
key. -/
theorem BuildTree_chain (x : ℚ) (rest : List (Char × NumLit)) (hne : rest ≠ [])
    (hsame : ∀ p ∈ rest, ∀ q ∈ rest, OpPriority p.1 = OpPriority q.1) :
    BuildTree { root := TreeNode.null
                operators := chainOps 0 0 rest
                numbers := x :: rest.map fun p => p.2.value } =
      some { root := filledSpine (chainOps 0 0 rest).reverse
               (x :: rest.map fun p => p.2.value).reverse
             operators := (chainOps 0 0 rest).reverse
             numbers := [] } := by
  have hinc := chainOps_pairwise 0 0 rest
  have hprio : ∀ a ∈ chainOps 0 0 rest, ∀ b ∈ chainOps 0 0 rest,
      a.priority_lvl = b.priority_lvl := by
    intro a ha b hb
    obtain ⟨p, hp, hp2⟩ := chainOps_priority 0 0 rest a ha
    obtain ⟨q, hq, hq2⟩ := chainOps_priority 0 0 rest b hb
    rw [hp2, hq2, hsame p hp q hq]
  have hsort := sortOperators_same_priority _ hinc hprio
  have hlen := chainOps_length 0 0 rest
  have hne2 : (chainOps 0 0 rest).reverse ≠ [] := by
    intro h
    have := congrArg List.length h
    simp [hlen] at this
    exact hne this
  have hplace := placeAll_null_leftSpine (chainOps 0 0 rest).reverse hne2
    (List.pairwise_reverse.2 hinc)
  obtain ⟨o, s, hos⟩ := List.exists_cons_of_ne_nil hne2
  have hslen : s.length + 1 = rest.length := by
    have := congrArg List.length hos
    simpa [hlen] using this.symm
  have hfill := FillNum_leftSpine o s [] (x :: rest.map fun p => p.2.value).reverse
    (by simp; omega)
  rw [List.reverse_reverse, List.nil_append, ← hos] at hfill
  have hemp : (chainOps 0 0 rest).isEmpty = false := by
    cases h : chainOps 0 0 rest with
    | nil => simp [h] at hne2
    | cons _ _ => rfl
  simp [BuildTree, hemp, hsort, hplace, hfill]

/-! ## Case analysis of one scan step -/

/-- Every accepted step of the scan is one of the seven branches of the loop
body. -/
theorem scanStep_cases {st st1 : ScanState} {c : Char} (h : scanStep st c = some st1) :
    (isOpen c ∧ st.is_num_active = false ∧ st.last_char_type ∉ [')', '0', '.'] ∧
        st1 = st.afterOpen c) ∨
    (isClose c ∧ (∃ top, st.parenthesis.getLast? = some top ∧
        are_matching_parenthesis top c = true) ∧ st.last_char_type ∉ ['(', '.', '+'] ∧
        st1 = st.afterClose) ∨
    (isDigit c ∧ st.last_char_type ≠ ')' ∧ st1.es = st.es ∧ st1.parenthesis = st.parenthesis ∧
        st1.sign = st.sign ∧ st1.is_decimal = st.is_decimal ∧ st1.last_char_type = '0' ∧
        st1.is_num_active = true) ∨
    (isSeparator c ∧ st.is_decimal = false ∧ st.is_num_active = true ∧
        st.last_char_type = '0' ∧
        st1 = { st with is_decimal := true, decimal_mult := 1, last_char_type := '.' }) ∨
    (c = '-' ∧ st.last_char_type ∈ ['?', '('] ∧ st.sign = 1 ∧ st1 = st.afterSign) ∨
    (isBinOp c ∧ ¬ (c = '-' ∧ st.last_char_type ∈ ['?', '(']) ∧ st.is_num_active = true ∧
        st.last_char_type ∉ ['(', '.', '+'] ∧ st1 = st.afterOp c) ∨
    (¬ isOpen c ∧ ¬ isClose c ∧ ¬ isDigit c ∧ ¬ isSeparator c ∧ ¬ isBinOp c ∧ st1 = st) := by
  by_cases h1 : isOpen c
  · rw [scanStep_open st h1] at h
    split at h
    · simp at h
    · rename_i hcond
      simp only [not_or, Bool.not_eq_true] at hcond
      exact Or.inl ⟨h1, hcond.1, hcond.2, (Option.some.inj h).symm⟩
  by_cases h2 : isClose c
  · rw [scanStep_close st h2] at h
    split at h
    · simp at h
    · rename_i top htop
      split at h
      · simp at h
      · rename_i hcond
        simp only [not_or, Bool.not_eq_false] at hcond
        exact Or.inr (Or.inl ⟨h2, ⟨top, htop, hcond.1⟩, hcond.2, (Option.some.inj h).symm⟩)
  by_cases h3 : isDigit c
  · rw [scanStep_digit st h3] at h
    refine Or.inr (Or.inr (Or.inl ?_))
    split at h
    · simp at h
    · rename_i hlast
      split at h
      · cases Option.some.inj h
        exact ⟨h3, hlast, rfl, rfl, rfl, rfl, rfl, rfl⟩
      · rename_i hact
        simp only [Bool.not_eq_false] at hact
        split at h
        · cases Option.some.inj h
          exact ⟨h3, hlast, rfl, rfl, rfl, rfl, rfl, hact⟩
        · cases Option.some.inj h
          exact ⟨h3, hlast, rfl, rfl, rfl, rfl, rfl, hact⟩
  by_cases h4 : isSeparator c
  · rw [scanStep_separator st h4] at h
    split at h
    · simp at h
    · rename_i hcond
      simp only [not_or, Bool.not_eq_true, ne_eq, not_not, Bool.not_eq_false] at hcond
      exact Or.inr (Or.inr (Or.inr (Or.inl
        ⟨h4, hcond.1, hcond.2.1, hcond.2.2, (Option.some.inj h).symm⟩)))
  by_cases h5 : isBinOp c
  · rw [scanStep_binop st h5] at h
    split at h
    · rename_i hcond
      split at h
      · simp at h
      · rename_i hsign
        simp only [ne_eq, not_not] at hsign
        exact Or.inr (Or.inr (Or.inr (Or.inr (Or.inl
          ⟨hcond.1, hcond.2, hsign, (Option.some.inj h).symm⟩))))
    · rename_i hcond
      split at h
      · simp at h
      · rename_i hcond2
        simp only [not_or, Bool.not_eq_false] at hcond2
        exact Or.inr (Or.inr (Or.inr (Or.inr (Or.inr (Or.inl
          ⟨h5, hcond, hcond2.1, hcond2.2, (Option.some.inj h).symm⟩)))))
  · rw [scanStep_other st h1 h2 h3 h4 h5] at h
    exact Or.inr (Or.inr (Or.inr (Or.inr (Or.inr (Or.inr
      ⟨h1, h2, h3, h4, h5, (Option.some.inj h).symm⟩)))))

/-! ## Invariants of the scan -/

theorem scanStep_lengths {st st1 : ScanState} {c : Char} (h : scanStep st c = some st1)
    (hinv : st.es.numbers.length = st.es.operators.length) :
    st1.es.numbers.length = st1.es.operators.length := by
  rcases scanStep_cases h with h1 | h1 | h1 | h1 | h1 | h1 | h1
  · rw [h1.2.2.2]; exact hinv
  · rw [h1.2.2.2]; exact hinv
  · rw [h1.2.2.1]; exact hinv
  · rw [h1.2.2.2.2]; exact hinv
  · rw [h1.2.2.2]; exact hinv
  · rw [h1.2.2.2.2]
    simp [ScanState.afterOp, hinv]
  · rw [h1.2.2.2.2.2]; exact hinv

theorem scanLoop_lengths (input : List Char) {st st1 : ScanState}
    (h : scanLoop st input = some st1)
    (hinv : st.es.numbers.length = st.es.operators.length) :
    st1.es.numbers.length = st1.es.operators.length := by
  induction input generalizing st with
  | nil =>
    simp only [scanLoop, Option.some.injEq] at h
    rw [← h]; exact hinv
  | cons c cs ih =>
    cases hc : scanStep st c with
    | none => rw [scanLoop_none_cons cs hc] at h; simp at h
    | some st2 =>
      rw [scanLoop_some_cons cs hc] at h
      exact ih h (scanStep_lengths hc hinv)

/-- A successful scan: the final state of the loop and the object handed to
`BuildTree`. -/
theorem tokenize_eq_some {es0 es : ExpressionSolver} {input : List Char}
    (h : tokenize es0 input = some es) :
    ∃ st, scanLoop (ScanState.init es0) input = some st ∧ st.parenthesis = [] ∧
      st.is_num_active = true ∧
      es = { st.es with numbers := st.es.numbers ++ [st.current_num * (st.sign : ℚ)] } := by
  unfold tokenize at h
  cases hs : scanLoop (ScanState.init es0) input with
  | none => simp [hs] at h
  | some st =>
    simp only [hs] at h
    split at h
    · simp at h
    · rename_i hcond
      simp only [not_or, Bool.not_eq_true, Bool.not_eq_false', Bool.not_eq_false,
        List.isEmpty_iff] at hcond
      exact ⟨st, rfl, by simpa using hcond.1, by simpa using hcond.2, (Option.some.inj h).symm⟩

theorem tokenize_2_plus_3_times_4 :
    tokenize new "2+3*4".toList =
      some { root := TreeNode.null
             operators := [Operator.new '+' 0 0, Operator.new '*' 0 1]
             numbers := [2, 3, 4] } := by
  simp [tokenize, scanLoop, scanStep, ScanState.init, new, forbidden_last_chars]

/-! ## Brackets -/

theorem Pending.nested_of_nil {l : List Char} (h : Pending [] l) : Nested l := by
  generalize hs : ([] : List Char) = s at h
  cases h with
  | base l hn => exact hn
  | push stack l m o hp hn => simp at hs

theorem Pending.append_nested {s l n : List Char} (h : Pending s l) (hn : Nested n) :
    Pending s (l ++ n) := by
  cases h with
  | base l hl => exact Pending.base _ (Nested.append _ _ hl hn)
  | push stack l m o hp hm =>
    have h1 : l ++ o :: m ++ n = l ++ o :: (m ++ n) := by simp
    rw [h1]
    exact Pending.push stack l (m ++ n) o hp (Nested.append _ _ hm hn)

theorem Pending.close {s l : List Char} {o c : Char} (h : Pending (s ++ [o]) l)
    (hm : are_matching_parenthesis o c = true) : Pending s (l ++ [c]) := by
  generalize hs : s ++ [o] = t at h
  cases h with
  | base l hn => simp at hs
  | push stack l m o1 hp hn =>
    obtain ⟨h1, h2⟩ := List.append_inj' hs rfl
    have h3 : o = o1 := by simpa using h2
    subst h1 h3
    have h4 : l ++ o :: m ++ [c] = l ++ (o :: m ++ [c]) := by simp
    rw [h4]
    exact Pending.append_nested hp (Nested.wrap o c m hm hn)

theorem not_bracket_of_isDigit {c : Char} (h : isDigit c) : ¬ isOpen c ∧ ¬ isClose c :=
  ⟨isDigit_not_open h, isDigit_not_close h⟩

theorem not_bracket_of_isSeparator {c : Char} (h : isSeparator c) :
    ¬ isOpen c ∧ ¬ isClose c := by
  rcases h with rfl | rfl <;> decide

theorem not_bracket_of_isBinOp {c : Char} (h : isBinOp c) : ¬ isOpen c ∧ ¬ isClose c := by
  rcases h with rfl | rfl | rfl | rfl | rfl | rfl <;> decide

theorem not_isClose_of_isOpen {c : Char} (h : isOpen c) : ¬ isClose c := by
  rcases h with rfl | rfl | rfl <;> decide

/-- How one accepted step changes the stack of open brackets. -/
theorem scanStep_parenthesis {st st1 : ScanState} {c : Char} (h : scanStep st c = some st1) :
    (isOpen c ∧ st1.parenthesis = st.parenthesis ++ [c]) ∨
    (isClose c ∧ ∃ top, st.parenthesis = st1.parenthesis ++ [top] ∧
      are_matching_parenthesis top c = true) ∨
    ((¬ isOpen c ∧ ¬ isClose c) ∧ st1.parenthesis = st.parenthesis) := by
  rcases scanStep_cases h with h1 | h1 | h1 | h1 | h1 | h1 | h1
  · exact Or.inl ⟨h1.1, by rw [h1.2.2.2]; rfl⟩
  · obtain ⟨hc, ⟨top, htop, hm⟩, _, hst⟩ := h1
    refine Or.inr (Or.inl ⟨hc, top, ?_, hm⟩)
    rw [hst]
    simp only [ScanState.afterClose]
    obtain ⟨s, hs⟩ : ∃ s, st.parenthesis = s ++ [top] := by
      rcases List.eq_nil_or_concat st.parenthesis with hnil | ⟨s, b, hsb⟩
      · simp [hnil] at htop
      · rw [List.concat_eq_append] at hsb
        rw [hsb, List.getLast?_concat] at htop
        exact ⟨s, by rw [hsb, Option.some.inj htop]⟩
    rw [hs, List.dropLast_concat]
  · exact Or.inr (Or.inr ⟨not_bracket_of_isDigit h1.1, h1.2.2.2.1⟩)
  · exact Or.inr (Or.inr ⟨not_bracket_of_isSeparator h1.1, by rw [h1.2.2.2.2]⟩)
  · refine Or.inr (Or.inr ⟨not_bracket_of_isBinOp (Or.inr (Or.inl h1.1)), ?_⟩)
    rw [h1.2.2.2]; rfl
  · refine Or.inr (Or.inr ⟨not_bracket_of_isBinOp h1.1, ?_⟩)
    rw [h1.2.2.2.2]; rfl
  · exact Or.inr (Or.inr ⟨⟨h1.1, h1.2.1⟩, by rw [h1.2.2.2.2.2]⟩)

theorem brackets_cons_of_bracket {c : Char} (cs : List Char) (h : isOpen c ∨ isClose c) :
    brackets (c :: cs) = c :: brackets cs := by
  simp [brackets, List.filter_cons, h]

theorem brackets_cons_of_not {c : Char} (cs : List Char) (h : ¬ isOpen c ∧ ¬ isClose c) :
    brackets (c :: cs) = brackets cs := by
  simp [brackets, List.filter_cons, h.1, h.2]

theorem scanLoop_pending (input : List Char) {st st1 : ScanState} (pre : List Char)
    (h : scanLoop st input = some st1) (hp : Pending st.parenthesis pre) :
    Pending st1.parenthesis (pre ++ brackets input) := by
  induction input generalizing st pre with
  | nil =>
    simp only [scanLoop, Option.some.injEq] at h
    rw [← h]
    simpa [brackets] using hp
  | cons c cs ih =>
    cases hc : scanStep st c with
    | none => rw [scanLoop_none_cons cs hc] at h; simp at h
    | some st2 =>
      rw [scanLoop_some_cons cs hc] at h
      rcases scanStep_parenthesis hc with h1 | h1 | h1
      · rw [brackets_cons_of_bracket cs (Or.inl h1.1)]
        have hp2 : Pending st2.parenthesis (pre ++ [c]) := by
          rw [h1.2]
          exact Pending.push _ _ [] c hp Nested.nil
        have := ih (pre ++ [c]) h hp2
        simpa using this
      · obtain ⟨hcl, top, htop, hm⟩ := h1
        rw [brackets_cons_of_bracket cs (Or.inr hcl)]
        rw [htop] at hp
        have := ih (pre ++ [c]) h (Pending.close hp hm)
        simpa using this
      · rw [brackets_cons_of_not cs h1.1]
        rw [← h1.2] at hp
        exact ih pre h hp

/-- The brackets of an input on which the scan completes are properly
nested. -/
theorem tokenize_nested {input : List Char} {es : ExpressionSolver}
    (h : tokenize new input = some es) : Nested (brackets input) := by
  obtain ⟨st, h1, h2, _, _⟩ := tokenize_eq_some h
  have h3 := scanLoop_pending input [] h1 (Pending.base [] Nested.nil)
  rw [h2] at h3
  simpa using Pending.nested_of_nil h3

theorem parse_input_rejected_of_tokenize {input : List Char}
    (h : tokenize new input = none) : parse_input new input = ParseResult.rejected := by
  simp [parse_input, h]

theorem tokenize_isSome_of_returned_true {input : List Char}
    (h : (parse_input new input).returned = some true) :
    ∃ es, tokenize new input = some es := by
  cases ht : tokenize new input with
  | none =>
    rw [parse_input_rejected_of_tokenize ht] at h
    simp [ParseResult.returned] at h
  | some es => exact ⟨es, rfl⟩

theorem returned_group_2_plus_3 :
    (parse_input new "[(2+3)]*{4}".toList).returned = some true := by
  simp [parse_input, tokenize, scanLoop, scanStep, ScanState.init, new,
    forbidden_last_chars, BuildTree, sortOperators, Operator.new, wrapInt, OpPriority,
    CharToOperatorType, opLess, placeAll, placeOperator, TreeNode.isNull, TreeNode.ofOperator,
    TreeNode.ofNumber, FillNumIntoTreeNode, popLeaf, are_matching_parenthesis,
    ParseResult.returned]

theorem matchStack_cons_open {c : Char} (stack cs : List Char) (h : isOpen c) :
    matchStack stack (c :: cs) = matchStack (c :: stack) cs := by
  simp [matchStack, h]

theorem matchStack_cons_close {c : Char} (o : Char) (stack cs : List Char) (h : ¬ isOpen c) :
    matchStack (o :: stack) (c :: cs) =
      (are_matching_parenthesis o c && matchStack stack cs) := by
  simp [matchStack, h]

theorem matchStack_nested {l : List Char} (h : Nested l) (stack rest : List Char) :
    matchStack stack (l ++ rest) = matchStack stack rest := by
  induction h generalizing stack rest with
  | nil => rfl
  | wrap o c l hm _ ih =>
    have ho : isOpen o := isOpen_of_matching hm
    have hc : ¬ isOpen c := fun h =>
      not_isClose_of_isOpen h (isClose_of_matching hm)
    have h1 : o :: l ++ [c] ++ rest = o :: (l ++ c :: rest) := by simp
    rw [h1, matchStack_cons_open _ _ ho, ih, matchStack_cons_close _ _ _ hc]
    simp [hm]
  | append l₁ l₂ _ _ ih₁ ih₂ =>
    rw [List.append_assoc, ih₁, ih₂]

/-- Every properly nested sequence passes the stack checker. -/
theorem matchStack_of_nested {l : List Char} (h : Nested l) : matchStack [] l = true := by
  have := matchStack_nested h [] []
  simpa [matchStack] using this

theorem not_nested_mismatch : ¬ Nested (brackets "(5]".toList) := by
  intro h
  have := matchStack_of_nested h
  revert this
  decide

theorem returned_mismatch : (parse_input new "(5]".toList).returned = some false := by
  simp [parse_input, tokenize, scanLoop, scanStep, ScanState.init, new,
    forbidden_last_chars, are_matching_parenthesis, ParseResult.returned]

/-! ## The unary minus -/

theorem scanStep_noNumberAtStart {st st1 : ScanState} {c : Char}
    (h : scanStep st c = some st1) (hinv : st.noNumberAtStart) : st1.noNumberAtStart := by
  rcases scanStep_cases h with h1 | h1 | h1 | h1 | h1 | h1 | h1
  · intro _
    rw [h1.2.2.2]
    exact h1.2.1
  · intro hm
    rw [h1.2.2.2] at hm
    simp [ScanState.afterClose] at hm
  · intro hm
    rw [h1.2.2.2.2.2.2.1] at hm
    simp at hm
  · intro hm
    rw [h1.2.2.2.2] at hm
    simp at hm
  · intro hm
    rw [h1.2.2.2] at hm
    simp [ScanState.afterSign] at hm
  · intro hm
    rw [h1.2.2.2.2] at hm
    simp [ScanState.afterOp] at hm
  · rw [h1.2.2.2.2.2]
    exact hinv

theorem scanLoop_noNumberAtStart (input : List Char) {st st1 : ScanState}
    (h : scanLoop st input = some st1) (hinv : st.noNumberAtStart) : st1.noNumberAtStart := by
  induction input generalizing st with
  | nil =>
    simp only [scanLoop, Option.some.injEq] at h
    rw [← h]; exact hinv
  | cons c cs ih =>
    cases hc : scanStep st c with
    | none => rw [scanLoop_none_cons cs hc] at h; simp at h
    | some st2 =>
      rw [scanLoop_some_cons cs hc] at h
      exact ih h (scanStep_noNumberAtStart hc hinv)

/-- A `-` directly after a binary operator character stops the scan. -/
theorem scanLoop_op_minus (st : ScanState) {p : Char} (hp : isBinOp p) (post : List Char)
    (hinv : st.noNumberAtStart) : scanLoop st (p :: '-' :: post) = none := by
  cases hc : scanStep st p with
  | none => exact scanLoop_none_cons _ hc
  | some st1 =>
    rw [scanLoop_some_cons _ hc]
    refine scanLoop_none_cons _ ?_
    rw [scanStep_binop st1 (by decide)]
    rcases scanStep_cases hc with h1 | h1 | h1 | h1 | h1 | h1 | h1
    · exact absurd h1.1 (not_bracket_of_isBinOp hp).1
    · exact absurd h1.1 (not_bracket_of_isBinOp hp).2
    · exact absurd h1.1 (by rcases hp with rfl | rfl | rfl | rfl | rfl | rfl <;> decide)
    · exact absurd h1.1 (by rcases hp with rfl | rfl | rfl | rfl | rfl | rfl <;> decide)
    · have hact : st.is_num_active = false := hinv h1.2.1
      rw [h1.2.2.2]
      simp [ScanState.afterSign, hact]
    · rw [h1.2.2.2.2]
      simp [ScanState.afterOp]
    · exact absurd hp h1.2.2.2.2.1

/-- The scan rejects every input in which a `-` directly follows a binary
operator character. -/
theorem tokenize_op_minus (pre post : List Char) {p : Char} (hp : isBinOp p) :
    tokenize new (pre ++ p :: '-' :: post) = none := by
  have hinit : (ScanState.init new).noNumberAtStart := fun _ => rfl
  unfold tokenize
  rw [scanLoop_append]
  cases hs : scanLoop (ScanState.init new) pre with
  | none => simp
  | some st =>
    simp only [Option.some_bind]
    rw [scanLoop_op_minus st hp post (scanLoop_noNumberAtStart pre hs hinit)]

/-! ## Fast exponentiation -/

/-- The square-and-multiply loop on a non-negative exponent: with more fuel
than the exponent it reaches its `break` with `result * base ^ exp`. -/
theorem compute_power_loop_nat (fuel : Nat) (base : ℚ) (n : Nat) (result : ℚ)
    (hf : n < fuel) :
    compute_power_loop fuel base (n : Int) result = some (result * base ^ n) := by
  induction fuel generalizing base n result with
  | zero => omega
  | succ fuel ih =>
    have hmod : (n : Int).tmod 2 = ((n % 2 : Nat) : Int) := (Int.ofNat_tmod n 2).symm
    have hdiv : (n : Int).tdiv 2 = ((n / 2 : Nat) : Int) := (Int.ofNat_tdiv n 2).symm
    have hn : n = 2 * (n / 2) + n % 2 := (Nat.div_add_mod n 2).symm
    simp only [compute_power_loop, hmod, hdiv]
    by_cases h0 : n / 2 = 0
    · have hlt : n < 2 := by omega
      simp only [h0, Nat.cast_zero, if_true]
      interval_cases n
      · simp
      · simp
    · have h0' : ¬ (((n / 2 : Nat) : Int) = 0) := by exact_mod_cast h0
      rw [if_neg h0', ih (base * base) (n / 2) _ (by omega)]
      rcases Nat.mod_two_eq_zero_or_one n with h2 | h2
      · have hn2 : n = 2 * (n / 2) := by omega
        simp only [h2, Nat.cast_zero]
        rw [if_neg (by decide)]
        conv_rhs => rw [hn2]
        rw [pow_mul, pow_two]
      · have hn2 : n = 2 * (n / 2) + 1 := by omega
        simp only [h2, Nat.cast_one, if_true]
        conv_rhs => rw [hn2]
        rw [pow_succ, pow_mul, pow_two]
        rw [mul_assoc result, mul_comm base]

/-- `compute_power` terminates on every non-negative exponent and returns
`base ^ exp`. -/
theorem compute_power_nat (base : ℚ) (n : Nat) :
    compute_power base (n : Int) = some (base ^ n) := by
  unfold compute_power
  rw [compute_power_loop_nat _ base n 1 (by simp)]
  simp

/-- The tokens of `a q (-b)`. -/
theorem tokenize_neg_group (a b : NumLit) (q o cl : Char) (ha : a.wf) (hb : b.wf)
    (hq : isBinOp q) (hm : are_matching_parenthesis o cl = true) :
    tokenize new (a.chars ++ q :: o :: '-' :: b.chars ++ [cl]) =
      some { root := TreeNode.null
             operators := [Operator.new q 0 0]
             numbers := [a.value, -b.value] } := by
  have ho := isOpen_of_matching hm
  have hcl := isClose_of_matching hm
  simp only [tokenize, List.cons_append, List.append_assoc]
  rw [scanLoop_lit_append a ha _ _ rfl rfl (Or.inl rfl),
    scanLoop_op_cons _ hq _ rfl (Or.inl rfl),
    scanLoop_open_cons _ ho _ rfl (Or.inr (Or.inr rfl)),
    scanLoop_sign_cons _ _ (Or.inr rfl) rfl,
    scanLoop_lit_append b hb _ _ rfl rfl (Or.inr (Or.inr (Or.inr rfl))),
    scanLoop_close_cons _ hcl _ [] rfl hm (Or.inl rfl)]
  simp [scanLoop, ScanState.afterLit, ScanState.afterOp, ScanState.afterOpen,
    ScanState.afterClose, ScanState.afterSign, ScanState.init, new]

/-- `BuildTree` on a single operator. -/
theorem BuildTree_one (x : Operator) (n0 n1 : ℚ) :
    BuildTree { root := TreeNode.null, operators := [x], numbers := [n0, n1] } =
      some { root := TreeNode.mk 0 (some x) (TreeNode.ofNumber n0) (TreeNode.ofNumber n1)
             operators := [x]
             numbers := [] } := by
  simp [BuildTree, sortOperators, placeAll, TreeNode.isNull, TreeNode.ofOperator,
    FillNumIntoTreeNode, popLeaf]

theorem evaluate_5_times_neg_3 : evaluate "5*(-3)".toList = some (-15) := by
  simp [evaluate, parse_input, tokenize, scanLoop, scanStep, ScanState.init, new,
    forbidden_last_chars, BuildTree, sortOperators, Operator.new, wrapInt, OpPriority,
    CharToOperatorType, opLess, placeAll, placeOperator, TreeNode.isNull, TreeNode.ofOperator,
    TreeNode.ofNumber, FillNumIntoTreeNode, popLeaf, solve, TreeNode.solve, Operator.compute,
    are_matching_parenthesis]
  norm_num

theorem value_lit_2 : (NumLit.mk ['2'] none).value = 2 := by
  simp [NumLit.value, accInt, digitValue]
  norm_num

/-! ## Inputs with at least one operator -/

theorem scanStep_operators_idx {st st1 : ScanState} {c : Char} (h : scanStep st c = some st1)
    (hinv : st.es.operators.map Operator.array_idx = List.range st.es.operators.length ∧
      st.es.root = TreeNode.null) :
    st1.es.operators.map Operator.array_idx = List.range st1.es.operators.length ∧
      st1.es.root = TreeNode.null := by
  rcases scanStep_cases h with h1 | h1 | h1 | h1 | h1 | h1 | h1
  · rw [h1.2.2.2]; exact hinv
  · rw [h1.2.2.2]; exact hinv
  · rw [h1.2.2.1]; exact hinv
  · rw [h1.2.2.2.2]; exact hinv
  · rw [h1.2.2.2]; exact hinv
  · rw [h1.2.2.2.2]
    simp [ScanState.afterOp, hinv.1, hinv.2, List.range_succ, Operator.new]
  · rw [h1.2.2.2.2.2]; exact hinv

theorem scanLoop_operators_idx (input : List Char) {st st1 : ScanState}
    (h : scanLoop st input = some st1)
    (hinv : st.es.operators.map Operator.array_idx = List.range st.es.operators.length ∧
      st.es.root = TreeNode.null) :
    st1.es.operators.map Operator.array_idx = List.range st1.es.operators.length ∧
      st1.es.root = TreeNode.null := by
  induction input generalizing st with
  | nil =>
    simp only [scanLoop, Option.some.injEq] at h
    rw [← h]; exact hinv
  | cons c cs ih =>
    cases hc : scanStep st c with
    | none => rw [scanLoop_none_cons cs hc] at h; simp at h
    | some st2 =>
      rw [scanLoop_some_cons cs hc] at h
      exact ih h (scanStep_operators_idx hc hinv)

/-- `BuildTree` on an empty root, n ≥ 1 operators with the position indices
0..n-1 and n + 1 numbers: the tree is full, reads in-order as the textual
sequence, and no number is left. -/
theorem BuildTree_spec (ops : List Operator) (nums : List ℚ) (hne : ops ≠ [])
    (hidx : ops.map Operator.array_idx = List.range ops.length)
    (hlen : nums.length = ops.length + 1) :
    ∃ t, BuildTree { root := TreeNode.null, operators := ops, numbers := nums } =
        some { root := t, operators := sortOperators ops, numbers := [] } ∧
      t.isFull = true ∧ t.inorder = interleave nums ops := by
  have hperm := sortOperators_perm ops
  have hsne : sortOperators ops ≠ [] := fun h => hne (by simpa [h] using hperm.symm)
  obtain ⟨c, rest, hs⟩ := List.exists_cons_of_ne_nil hsne
  obtain ⟨t1, h1, h2, h3, h4, h5⟩ := placeAll_null_spec c rest
  rw [← hs] at h1 h4
  have hops : t1.operators = ops :=
    TreeNode.operators_eq_of_perm t1 ops h5 (h4.trans hperm) (pairwise_idx_of_range ops hidx)
  obtain ⟨t2, k1, k2, k3⟩ := fillSlot_spec t1 h2 [] nums (by rw [hops]; exact hlen)
  rw [if_neg (by simp [h3]), List.nil_append] at k1
  refine ⟨t2, ?_, k2, ?_⟩
  · have hemp : ops.isEmpty = false := by cases ops <;> simp at hne ⊢
    simp [BuildTree, hemp, h1, k1]
  · rw [k3, hops]

/-- On every input on which the scan completes with at least one operator,
`parse_input` returns `true`: the leaf fill uses up all the numbers. -/
theorem parse_input_true_of_operators {input : List Char} {es : ExpressionSolver}
    (h : tokenize new input = some es) (hne : es.operators ≠ []) :
    ∃ t, parse_input new input =
        ParseResult.built true
          { root := t, operators := sortOperators es.operators, numbers := [] } ∧
      t.isFull = true ∧ t.inorder = interleave es.numbers es.operators := by
  obtain ⟨st, h1, _, _, h4⟩ := tokenize_eq_some h
  have hlen := scanLoop_lengths input h1 rfl
  obtain ⟨hidx, hroot⟩ := scanLoop_operators_idx input h1 ⟨rfl, rfl⟩
  have hes : es = { root := TreeNode.null, operators := es.operators, numbers := es.numbers } := by
    rw [h4]; simp [hroot]
  have hidx2 : es.operators.map Operator.array_idx = List.range es.operators.length := by
    rw [h4]; exact hidx
  have hlen2 : es.numbers.length = es.operators.length + 1 := by
    rw [h4]; simp [hlen]
  obtain ⟨t, k1, k2, k3⟩ := BuildTree_spec es.operators es.numbers hne hidx2 hlen2
  rw [← hes] at k1
  exact ⟨t, parse_input_of_tokenize h k1, k2, k3⟩

/-! ## Rejected adjacencies and skipped characters -/

theorem returned_rejected_of_tokenize {input : List Char} (h : tokenize new input = none) :
    (parse_input new input).returned = some false := by
  rw [parse_input_rejected_of_tokenize h]
  rfl

theorem tokenize_nil : tokenize new [] = none := by
  simp [tokenize, scanLoop, ScanState.init]

/-- A binary operator character other than `-` as first character stops the
scan. -/
theorem tokenize_first_binop {c : Char} (input : List Char)
    (hc : c = '+' ∨ c = '*' ∨ c = '/' ∨ c = ':' ∨ c = '^') :
    tokenize new (c :: input) = none := by
  have hstep : scanStep (ScanState.init new) c = none := by
    rcases hc with rfl | rfl | rfl | rfl | rfl <;>
      simp [scanStep, ScanState.init, forbidden_last_chars]
  simp [tokenize, scanLoop_none_cons input hstep]

/-- After a binary operator character, be it taken as operator or as sign, no
number is active. -/
theorem scanStep_binop_inactive {st st1 : ScanState} {c : Char} (hc : isBinOp c)
    (h : scanStep st c = some st1) (hinv : st.noNumberAtStart) :
    st1.is_num_active = false := by
  rcases scanStep_cases h with h1 | h1 | h1 | h1 | h1 | h1 | h1
  · exact absurd h1.1 (not_bracket_of_isBinOp hc).1
  · exact absurd h1.1 (not_bracket_of_isBinOp hc).2
  · exact absurd h1.1 (by rcases hc with rfl | rfl | rfl | rfl | rfl | rfl <;> decide)
  · exact absurd h1.1 (by rcases hc with rfl | rfl | rfl | rfl | rfl | rfl <;> decide)
  · rw [h1.2.2.2]
    exact hinv h1.2.1
  · rw [h1.2.2.2.2]
    rfl
  · exact absurd hc h1.2.2.2.2.1

/-- An input whose last character is a binary operator character is
rejected. -/
theorem tokenize_last_binop {c : Char} (input : List Char) (hc : isBinOp c) :
    tokenize new (input ++ [c]) = none := by
  have hinit : (ScanState.init new).noNumberAtStart := fun _ => rfl
  unfold tokenize
  rw [scanLoop_append]
  cases hs : scanLoop (ScanState.init new) input with
  | none => simp
  | some st =>
    simp only [Option.some_bind]
    cases hstep : scanStep st c with
    | none => rw [scanLoop_none_cons [] hstep]
    | some st1 =>
      have hact := scanStep_binop_inactive hc hstep (scanLoop_noNumberAtStart input hs hinit)
      rw [scanLoop_some_cons [] hstep]
      simp [scanLoop, hact]

/-- An opening bracket directly after a digit, a decimal separator or a
closing bracket stops the scan. -/
theorem scanLoop_adjacent_open (st : ScanState) {d o : Char} (post : List Char)
    (hd : isDigit d ∨ isSeparator d ∨ isClose d) (ho : isOpen o) :
    scanLoop st (d :: o :: post) = none := by
  cases hc : scanStep st d with
  | none => exact scanLoop_none_cons _ hc
  | some st1 =>
    rw [scanLoop_some_cons _ hc]
    refine scanLoop_none_cons _ ?_
    rw [scanStep_open st1 ho]
    have hlast : st1.last_char_type ∈ [')', '0', '.'] := by
      rcases scanStep_cases hc with h1 | h1 | h1 | h1 | h1 | h1 | h1
      · rcases hd with h | h | h
        · exact absurd h1.1 (not_bracket_of_isDigit h).1
        · exact absurd h1.1 (not_bracket_of_isSeparator h).1
        · exact absurd h (not_isClose_of_isOpen h1.1)
      · rw [h1.2.2.2]; simp [ScanState.afterClose]
      · rw [h1.2.2.2.2.2.2.1]; simp
      · rw [h1.2.2.2.2]; simp
      · have hb : isBinOp d := Or.inr (Or.inl h1.1)
        rcases hd with h | h | h
        · exact absurd hb (by rcases h1.1 with rfl; revert h; decide)
        · exact absurd h (by rcases h1.1 with rfl; decide)
        · exact absurd h (not_bracket_of_isBinOp hb).2
      · rcases hd with h | h | h
        · exact absurd h (by
            rcases h1.1 with rfl | rfl | rfl | rfl | rfl | rfl <;> decide)
        · exact absurd h (by
            rcases h1.1 with rfl | rfl | rfl | rfl | rfl | rfl <;> decide)
        · exact absurd h (not_bracket_of_isBinOp h1.1).2
      · rcases hd with h | h | h
        · exact absurd h h1.2.2.1
        · exact absurd h h1.2.2.2.1
        · exact absurd h h1.2.1
    rw [if_pos (Or.inr hlast)]

/-- A digit directly after a closing bracket stops the scan. -/
theorem scanLoop_close_digit (st : ScanState) {cl d : Char} (post : List Char)
    (hcl : isClose cl) (hd : isDigit d) : scanLoop st (cl :: d :: post) = none := by
  cases hc : scanStep st cl with
  | none => exact scanLoop_none_cons _ hc
  | some st1 =>
    rw [scanLoop_some_cons _ hc]
    refine scanLoop_none_cons _ ?_
    have hlast : st1.last_char_type = ')' := by
      rcases scanStep_cases hc with h1 | h1 | h1 | h1 | h1 | h1 | h1
      · exact absurd hcl (not_isClose_of_isOpen h1.1)
      · rw [h1.2.2.2]; rfl
      · exact absurd hcl (not_bracket_of_isDigit h1.1).2
      · exact absurd hcl (not_bracket_of_isSeparator h1.1).2
      · exact absurd hcl (not_bracket_of_isBinOp (Or.inr (Or.inl h1.1))).2
      · exact absurd hcl (not_bracket_of_isBinOp h1.1).2
      · exact absurd hcl h1.2.1
    rw [scanStep_digit st1 hd, if_pos hlast]

theorem tokenize_none_of_scan_suffix (pre suffix : List Char)
    (h : ∀ st, scanLoop st suffix = none) : tokenize new (pre ++ suffix) = none := by
  unfold tokenize
  rw [scanLoop_append]
  cases hs : scanLoop (ScanState.init new) pre with
  | none => simp
  | some st => simp [h st]

/-- Characters outside the alphabet leave the scan state unchanged, so the
scan of an input is the scan of its characters of the alphabet. -/
theorem scanLoop_filter_alphabet (input : List Char) (st : ScanState) :
    scanLoop st (input.filter fun c => inAlphabet c) = scanLoop st input := by
  induction input generalizing st with
  | nil => rfl
  | cons c cs ih =>
    by_cases hc : inAlphabet c
    · rw [List.filter_cons_of_pos (by simpa using hc)]
      cases hstep : scanStep st c with
      | none => rw [scanLoop_none_cons _ hstep, scanLoop_none_cons _ hstep]
      | some st1 => rw [scanLoop_some_cons _ hstep, scanLoop_some_cons _ hstep, ih]
    · rw [List.filter_cons_of_neg (by simpa using hc)]
      have hstep : scanStep st c = some st := by
        unfold inAlphabet at hc
        simp only [not_or] at hc
        exact scanStep_other st hc.2.2.2.1 hc.2.2.2.2 hc.1 hc.2.1 hc.2.2.1
      rw [scanLoop_some_cons _ hstep, ih]

theorem parse_input_filter_alphabet (input : List Char) :
    parse_input new (input.filter fun c => inAlphabet c) = parse_input new input := by
  simp only [parse_input, tokenize, scanLoop_filter_alphabet]

/-! ## The power operator -/

theorem static_cast_int_eq (r : ℚ) (h1 : -2147483648 ≤ truncate r)
    (h2 : truncate r ≤ 2147483647) : static_cast_int r = some (truncate r) := by
  unfold static_cast_int
  simp only []
  rw [if_pos ⟨h1, h2⟩]
  rfl

theorem truncate_nonneg {r : ℚ} (hr : 0 ≤ r) : 0 ≤ truncate r :=
  Int.tdiv_nonneg (Rat.num_nonneg.2 hr) (Int.ofNat_nonneg _)

theorem truncate_neg (r : ℚ) : truncate (-r) = -truncate r := by
  unfold truncate
  rw [Rat.neg_num, Rat.neg_den, Int.neg_tdiv]

theorem truncate_nonpos {r : ℚ} (hr : r ≤ 0) : truncate r ≤ 0 := by
  have h := truncate_nonneg (neg_nonneg.2 hr)
  rw [truncate_neg] at h
  omega

theorem truncate_intCast (n : Int) : truncate (n : ℚ) = n := by
  simp [truncate]

theorem truncate_zero : truncate 0 = 0 := by
  simp [truncate]

/-- The power operator on an exponent `r ≥ 0` whose truncation fits in an
`int`. -/
theorem compute_pow_of_nonneg (x : Operator) (hx : x.op = OperatorType.pow) (l r : ℚ)
    (hr : 0 ≤ r) (hfit : truncate r ≤ 2147483647) :
    x.compute l r = some (l ^ (truncate r).toNat) := by
  have h0 := truncate_nonneg hr
  have hcast := static_cast_int_eq r (by omega) hfit
  unfold Operator.compute
  rw [hx]
  simp only [hcast, Option.some_bind, if_pos (ge_iff_le.2 hr)]
  have h := compute_power_nat l (truncate r).toNat
  rwa [Int.toNat_of_nonneg h0] at h

/-- The power operator on an exponent `r < 0` whose truncation is above
`INT_MIN`. -/
theorem compute_pow_of_neg (x : Operator) (hx : x.op = OperatorType.pow) (l r : ℚ)
    (hr : r < 0) (hfit : -2147483648 < truncate r) :
    x.compute l r = some ((1 / l) ^ (-truncate r).toNat) := by
  have h0 := truncate_nonpos (le_of_lt hr)
  have hcast := static_cast_int_eq r (by omega) (by omega)
  have hneg : int_neg (truncate r) = some (-truncate r) := by
    unfold int_neg
    rw [if_neg (by omega)]
  unfold Operator.compute
  rw [hx]
  simp only [hcast, Option.some_bind, if_neg (not_le.2 hr), hneg]
  have h := compute_power_nat (1 / l) (-truncate r).toNat
  rwa [Int.toNat_of_nonneg (by omega)] at h

/-- At the exponent `-2^31` the negation of the truncated exponent
overflows. -/
theorem compute_pow_int_min (x : Operator) (hx : x.op = OperatorType.pow) (l : ℚ) :
    x.compute l (-2147483648) = none := by
  have ht : truncate (-2147483648) = -2147483648 := by
    have := truncate_intCast (-2147483648)
    simpa using this
  have hcast := static_cast_int_eq (-2147483648) (by rw [ht]) (by rw [ht]; decide)
  unfold Operator.compute
  rw [hx]
  simp only [hcast, Option.some_bind, ht]
  rw [if_neg (by norm_num)]
  simp [int_neg]

/-- A fractional exponent gives the result of its integer part. -/
theorem compute_pow_truncate (x : Operator) (hx : x.op = OperatorType.pow) (l r : ℚ)
    (h1 : -2147483648 < truncate r) (h2 : truncate r ≤ 2147483647) :
    x.compute l r = x.compute l ((truncate r : Int) : ℚ) := by
  by_cases hr : 0 ≤ r
  · have h0 := truncate_nonneg hr
    rw [compute_pow_of_nonneg x hx l r hr h2,
      compute_pow_of_nonneg x hx l _ (by exact_mod_cast h0) (by rw [truncate_intCast]; exact h2),
      truncate_intCast]
  · have hr1 : r < 0 := not_le.1 hr
    have h0 := truncate_nonpos (le_of_lt hr1)
    rw [compute_pow_of_neg x hx l r hr1 h1]
    by_cases hz : truncate r = 0
    · rw [hz, Int.cast_zero,
        compute_pow_of_nonneg x hx l 0 (le_refl 0) (by rw [truncate_zero]; decide),
        truncate_zero]
      simp
    · have hlt : truncate r < 0 := by omega
      rw [compute_pow_of_neg x hx l _ (by exact_mod_cast hlt)
        (by rw [truncate_intCast]; exact h1), truncate_intCast]

/-! ## Inputs with one operator -/

/-- The tokens of `a q b`. -/
theorem tokenize_one_op (a b : NumLit) (q : Char) (ha : a.wf) (hb : b.wf) (hq : isBinOp q) :
    tokenize new (a.chars ++ q :: b.chars) =
      some { root := TreeNode.null
             operators := [Operator.new q 0 0]
             numbers := [a.value, b.value] } := by
  simp only [tokenize]
  rw [scanLoop_lit_append a ha _ _ rfl rfl (Or.inl rfl),
    scanLoop_op_cons _ hq _ rfl (Or.inl rfl),
    scanLoop_lit b hb _ rfl rfl (Or.inr (Or.inr (Or.inl rfl)))]
  simp [ScanState.afterLit, ScanState.afterOp, ScanState.init, new]

/-- The tokens of `-a q b`. -/
theorem tokenize_neg_first (a b : NumLit) (q : Char) (ha : a.wf) (hb : b.wf)
    (hq : isBinOp q) :
    tokenize new ('-' :: a.chars ++ q :: b.chars) =
      some { root := TreeNode.null
             operators := [Operator.new q 0 0]
             numbers := [-a.value, b.value] } := by
  simp only [tokenize, List.cons_append]
  rw [scanLoop_sign_cons _ _ (Or.inl rfl) rfl,
    scanLoop_lit_append a ha _ _ rfl rfl (Or.inr (Or.inr (Or.inr rfl))),
    scanLoop_op_cons _ hq _ rfl (Or.inl rfl),
    scanLoop_lit b hb _ rfl rfl (Or.inr (Or.inr (Or.inl rfl)))]
  simp [ScanState.afterLit, ScanState.afterOp, ScanState.afterSign, ScanState.init, new]

theorem value_lit_0 : (NumLit.mk ['0'] none).value = 0 := by
  simp [NumLit.value, accInt, digitValue]

/-- The input `a/0`, and `a:0` alike, is accepted, and the tree is the division
of a by the literal 0. What `solve` returns on it is the IEEE quotient by
zero, which is not a number of the embedding. -/
theorem parse_input_div_zero (a : NumLit) (q : Char) (ha : a.wf) (hq : q = '/' ∨ q = ':') :
    parse_input new (a.chars ++ [q, '0']) =
      ParseResult.built true
        { root := TreeNode.mk 0 (some (Operator.new q 0 0)) (TreeNode.ofNumber a.value)
            (TreeNode.ofNumber 0)
          operators := [Operator.new q 0 0]
          numbers := [] } ∧
      (Operator.new q 0 0).op = OperatorType.div := by
  have hz : (NumLit.mk ['0'] none).wf := by decide
  have hb : isBinOp q := by rcases hq with rfl | rfl <;> decide
  have h1 := parse_input_of_tokenize (tokenize_one_op a (NumLit.mk ['0'] none) q ha hz hb)
    (BuildTree_one _ _ _)
  rw [value_lit_0] at h1
  refine ⟨h1, ?_⟩
  rcases hq with rfl | rfl <;> rfl

theorem truncate_two : truncate 2 = 2 := by
  have := truncate_intCast 2
  simpa using this

theorem evaluate_neg_2_pow_2 : evaluate "-2^2".toList = some 4 := by
  have h := compute_pow_of_nonneg (Operator.new '^' 0 0) rfl (-2) 2 (by norm_num)
    (by rw [truncate_two]; decide)
  rw [truncate_two] at h
  simp [evaluate, parse_input, tokenize, scanLoop, scanStep, ScanState.init, new,
    forbidden_last_chars, BuildTree, sortOperators, placeAll, placeOperator, TreeNode.isNull,
    TreeNode.ofOperator, TreeNode.ofNumber, FillNumIntoTreeNode, popLeaf, solve, TreeNode.solve,
    h]
  norm_num

theorem evaluate_2_space_plus_3 : evaluate "2 + 3".toList = some 5 := by
  simp [evaluate, parse_input, tokenize, scanLoop, scanStep, ScanState.init, new,
    forbidden_last_chars, BuildTree, sortOperators, Operator.new, wrapInt, OpPriority,
    CharToOperatorType, placeAll, placeOperator, TreeNode.isNull, TreeNode.ofOperator,
    TreeNode.ofNumber, FillNumIntoTreeNode, popLeaf, solve, TreeNode.solve, Operator.compute]
  norm_num

theorem returned_2_space_plus_3 :
    (parse_input new "2 + 3".toList).returned = some true := by
  simp [parse_input, tokenize, scanLoop, scanStep, ScanState.init, new,
    forbidden_last_chars, BuildTree, sortOperators, placeAll, placeOperator, TreeNode.isNull,
    TreeNode.ofOperator, TreeNode.ofNumber, FillNumIntoTreeNode, popLeaf, ParseResult.returned]

theorem truncate_five_halves : truncate (5 / 2) = 2 := by
  have h : ((5 : ℚ) / 2) = Rat.divInt 5 2 := by norm_num [Rat.divInt_eq_div]
  have hn : ((5 : ℚ) / 2).num = 5 := by rw [h]; rfl
  have hd : ((5 : ℚ) / 2).den = 2 := by rw [h]; rfl
  simp only [truncate, hn, hd]
  decide

/-! ## Position index and priority key of the emitted operators -/

theorem bracketDepth_cons_open {c : Char} (cs : List Char) (h : isOpen c) :
    bracketDepth (c :: cs) = bracketDepth cs + 1 := by
  have h2 : ¬ isClose c := not_isClose_of_isOpen h
  simp only [bracketDepth, List.countP_cons, h, h2, decide_True, decide_False, if_true]
  simp
  omega

theorem bracketDepth_cons_close {c : Char} (cs : List Char) (h : isClose c) :
    bracketDepth (c :: cs) = bracketDepth cs - 1 := by
  have h2 : ¬ isOpen c := fun ho => not_isClose_of_isOpen ho h
  simp only [bracketDepth, List.countP_cons, h, h2, decide_True, decide_False, if_true]
  simp
  omega

theorem bracketDepth_cons_other {c : Char} (cs : List Char) (h : ¬ isOpen c ∧ ¬ isClose c) :
    bracketDepth (c :: cs) = bracketDepth cs := by
  simp [bracketDepth, List.countP_cons, h.1, h.2]

/-- The size of the bracket stack follows the brackets read. -/
theorem scanLoop_depth (pre : List Char) {st st1 : ScanState}
    (h : scanLoop st pre = some st1) :
    (st1.parenthesis.length : Int) = st.parenthesis.length + bracketDepth pre := by
  induction pre generalizing st with
  | nil =>
    simp only [scanLoop, Option.some.injEq] at h
    rw [← h]
    simp [bracketDepth]
  | cons c cs ih =>
    cases hc : scanStep st c with
    | none => rw [scanLoop_none_cons cs hc] at h; simp at h
    | some st2 =>
      rw [scanLoop_some_cons cs hc] at h
      have h2 := ih h
      rcases scanStep_parenthesis hc with h1 | h1 | h1
      · rw [bracketDepth_cons_open cs h1.1, h2, h1.2]
        simp only [List.length_append, List.length_singleton, Nat.cast_add, Nat.cast_one]
        omega
      · obtain ⟨hcl, top, htop, _⟩ := h1
        rw [bracketDepth_cons_close cs hcl, h2, htop]
        simp only [List.length_append, List.length_singleton, Nat.cast_add, Nat.cast_one]
        omega
      · rw [bracketDepth_cons_other cs h1.1, h2, h1.2]

theorem scanLoop_snoc {st st1 st2 : ScanState} {pre : List Char} {c : Char}
    (h1 : scanLoop st pre = some st1) (h2 : scanStep st1 c = some st2) :
    scanLoop st (pre ++ [c]) = some st2 := by
  rw [scanLoop_append, h1, Option.some_bind, scanLoop_some_cons [] h2]
  rfl

theorem scanLoop_emitted (rest : List Char) (pre : List Char) {st st1 : ScanState}
    (hpre : scanLoop (ScanState.init new) pre = some st)
    (hrest : scanLoop st rest = some st1)
    (hinv : ∀ i o, st.es.operators[i]? = some o → EmittedAt (pre ++ rest) i o) :
    ∀ i o, st1.es.operators[i]? = some o → EmittedAt (pre ++ rest) i o := by
  induction rest generalizing pre st with
  | nil =>
    simp only [scanLoop, Option.some.injEq] at hrest
    rw [← hrest]
    exact hinv
  | cons c cs ih =>
    cases hc : scanStep st c with
    | none => rw [scanLoop_none_cons cs hc] at hrest; simp at hrest
    | some st2 =>
      rw [scanLoop_some_cons cs hc] at hrest
      have hassoc : pre ++ c :: cs = (pre ++ [c]) ++ cs := by simp
      rw [hassoc] at hinv ⊢
      refine ih (pre ++ [c]) (scanLoop_snoc hpre hc) hrest ?_
      rcases scanStep_cases hc with h1 | h1 | h1 | h1 | h1 | h1 | h1
      · rw [h1.2.2.2]; exact hinv
      · rw [h1.2.2.2]; exact hinv
      · rw [h1.2.2.1]; exact hinv
      · rw [h1.2.2.2.2]; exact hinv
      · rw [h1.2.2.2]; exact hinv
      · intro i o hio
        rw [h1.2.2.2.2] at hio hc
        simp only [ScanState.afterOp] at hio
        by_cases hi : i < st.es.operators.length
        · rw [List.getElem?_append_left hi] at hio
          exact hinv i o hio
        · have hge : st.es.operators.length ≤ i := Nat.le_of_not_lt hi
          rw [List.getElem?_append_right hge] at hio
          have hi0 : i - st.es.operators.length = 0 := by
            by_contra hne
            have hpos : 0 < i - st.es.operators.length := Nat.pos_of_ne_zero hne
            rw [List.getElem?_eq_none (by simp only [List.length_singleton]; omega)] at hio
            simp at hio
          rw [hi0] at hio
          simp only [List.getElem?_cons_zero, Option.some.injEq] at hio
          have hidx : st.es.operators.length = i := by omega
          have hdepth := scanLoop_depth pre hpre
          simp only [ScanState.init, List.length_nil, Nat.cast_zero, zero_add] at hdepth
          have hnonneg : 0 ≤ bracketDepth pre := by rw [← hdepth]; exact Int.ofNat_nonneg _
          have hkey : (Operator.new c (st.parenthesis.length : Int)
              st.es.operators.length).priority_lvl =
              wrapInt (4 * bracketDepth pre + OpPriority c) := by
            simp only [Operator.new, hdepth, mul_comm]
          refine ⟨pre, c, cs, st, by simp, h1.1, hpre, hc, hidx, hnonneg, ?_, ?_, ?_, ?_⟩
          · rw [← hio]; rfl
          · rw [← hio, ← hidx]; rfl
          · rw [← hio]; exact hkey
          · intro hlt
            have b := OpPriority_bounds h1.1
            rw [← hio, hkey]
            unfold wrapInt
            omega
      · rw [h1.2.2.2.2.2]; exact hinv

/-- Every operator of a completed scan was emitted at its position index with
the priority key of its character and depth. -/
theorem tokenize_emitted {input : List Char} {es : ExpressionSolver}
    (h : tokenize new input = some es) (i : Nat) (o : Operator)
    (hio : es.operators[i]? = some o) : EmittedAt input i o := by
  obtain ⟨st, h1, _, _, h4⟩ := tokenize_eq_some h
  have hops : es.operators = st.es.operators := by rw [h4]
  rw [hops] at hio
  have := scanLoop_emitted input [] rfl h1 (by
    intro j p hj
    simp [ScanState.init, new] at hj) i o hio
  simpa using this

/-! ## The order of the sorted operators -/

theorem opLess_iff (x y : Operator) :
    opLess x y ↔ x.priority_lvl < y.priority_lvl ∨
      (x.priority_lvl = y.priority_lvl ∧ y.array_idx < x.array_idx) := by
  unfold opLess
  by_cases h : x.priority_lvl = y.priority_lvl
  · rw [if_neg (by simpa using h)]
    constructor
    · intro h1; exact Or.inr ⟨h, h1⟩
    · rintro (h1 | h1)
      · omega
      · exact h1.2
  · rw [if_pos h]
    constructor
    · intro h1; exact Or.inl h1
    · rintro (h1 | h1)
      · exact h1
      · exact absurd h1.1 h

theorem opLess_asymm {x y : Operator} (h : opLess x y) : ¬ opLess y x := by
  rw [opLess_iff] at h ⊢
  omega

theorem opLess_trans {x y z : Operator} (h1 : opLess x y) (h2 : opLess y z) : opLess x z := by
  rw [opLess_iff] at h1 h2 ⊢
  omega

theorem not_opLess_trans {x y z : Operator} (h1 : ¬ opLess y x) (h2 : ¬ opLess z y) :
    ¬ opLess z x := by
  rw [opLess_iff] at h1 h2 ⊢
  omega

theorem orderedInsert_sorted (x : Operator) (l : List Operator)
    (hl : l.Pairwise fun a b => ¬ opLess b a) :
    (List.orderedInsert opLess x l).Pairwise fun a b => ¬ opLess b a := by
  induction l with
  | nil => simp
  | cons y l ih =>
    rw [List.pairwise_cons] at hl
    simp only [List.orderedInsert]
    by_cases hxy : opLess x y
    · rw [if_pos hxy, List.pairwise_cons, List.pairwise_cons]
      refine ⟨?_, hl⟩
      intro z hz
      rcases List.mem_cons.1 hz with rfl | hz
      · exact opLess_asymm hxy
      · exact not_opLess_trans (opLess_asymm hxy) (hl.1 z hz)
    · rw [if_neg hxy, List.pairwise_cons]
      refine ⟨?_, ih hl.2⟩
      intro z hz
      rcases (List.mem_orderedInsert opLess).1 hz with rfl | hz
      · exact hxy
      · exact hl.1 z hz

/-- The sorted operators: no operator comes before one that the comparator
puts first. -/
theorem sortOperators_sorted (ops : List Operator) :
    (sortOperators ops).Pairwise fun a b => ¬ opLess b a := by
  induction ops with
  | nil => simp [sortOperators]
  | cons x xs ih => exact orderedInsert_sorted x _ ih

theorem sortOperators_priority (ops : List Operator) :
    (sortOperators ops).Pairwise fun a b => a.priority_lvl ≤ b.priority_lvl :=
  (sortOperators_sorted ops).imp fun h => by
    rw [opLess_iff] at h
    omega

/-! ## The heap order of the placement -/

theorem placeOperator_heap (o : Operator) (t : TreeNode) (hs : t.isSkeleton = true)
    (hn : t.isNull = false) (hheap : t.isHeap)
    (hle : ∀ x ∈ t.operators, x.priority_lvl ≤ o.priority_lvl) :
    ∀ t1, placeOperator o t = some t1 → t1.isHeap := by
  induction t with
  | null => simp [TreeNode.isNull] at hn
  | mk number cop son0 son1 ih0 ih1 =>
    cases cop with
    | none => simp [TreeNode.isSkeleton] at hs
    | some c =>
      intro t1 ht1
      simp only [TreeNode.isSkeleton, Bool.and_eq_true] at hs
      simp only [TreeNode.isHeap] at hheap
      simp only [TreeNode.operators] at hle
      have hc : c.priority_lvl ≤ o.priority_lvl := hle c (by simp)
      simp only [placeOperator] at ht1
      by_cases hlt : o.array_idx < c.array_idx
      · rw [if_pos hlt] at ht1
        cases h0 : son0.isNull with
        | true =>
          simp only [h0, if_true, Option.some.injEq] at ht1
          rw [← ht1]
          simp only [TreeNode.isHeap, TreeNode.ofOperator, TreeNode.operators]
          refine ⟨?_, hheap.2.1, ?_, hheap.2.2.2⟩
          · intro x hx
            simp at hx
            rw [hx]; exact hc
          · simp
        | false =>
          simp only [h0, Bool.false_eq_true, if_false] at ht1
          obtain ⟨s, hs1, _, _, hs4, _⟩ := placeOperator_spec o son0 hs.1 h0
          rw [hs1] at ht1
          simp only [Option.map_some', Option.some.injEq] at ht1
          rw [← ht1]
          simp only [TreeNode.isHeap]
          refine ⟨?_, hheap.2.1, ?_, hheap.2.2.2⟩
          · intro x hx
            rcases List.mem_cons.1 (hs4.mem_iff.1 hx) with rfl | hx1
            · exact hc
            · exact hheap.1 x hx1
          · exact ih0 hs.1 h0 hheap.2.2.1 (fun x hx => hle x (by simp [hx])) s hs1
      · rw [if_neg hlt] at ht1
        cases h1 : son1.isNull with
        | true =>
          simp only [h1, if_true, Option.some.injEq] at ht1
          rw [← ht1]
          simp only [TreeNode.isHeap, TreeNode.ofOperator, TreeNode.operators]
          refine ⟨hheap.1, ?_, hheap.2.2.1, ?_⟩
          · intro x hx
            simp at hx
            rw [hx]; exact hc
          · simp
        | false =>
          simp only [h1, Bool.false_eq_true, if_false] at ht1
          obtain ⟨s, hs1, _, _, hs4, _⟩ := placeOperator_spec o son1 hs.2 h1
          rw [hs1] at ht1
          simp only [Option.map_some', Option.some.injEq] at ht1
          rw [← ht1]
          simp only [TreeNode.isHeap]
          refine ⟨hheap.1, ?_, hheap.2.2.1, ?_⟩
          · intro x hx
            rcases List.mem_cons.1 (hs4.mem_iff.1 hx) with rfl | hx1
            · exact hc
            · exact hheap.2.1 x hx1
          · exact ih1 hs.2 h1 hheap.2.2.2 (fun x hx => hle x (by simp [hx])) s hs1

theorem placeAll_heap (ops : List Operator) (t : TreeNode) (hs : t.isSkeleton = true)
    (hn : t.isNull = false) (hheap : t.isHeap)
    (hsorted : ops.Pairwise fun a b => a.priority_lvl ≤ b.priority_lvl)
    (hle : ∀ x ∈ t.operators, ∀ o ∈ ops, x.priority_lvl ≤ o.priority_lvl) :
    ∀ t1, placeAll t ops = some t1 → t1.isHeap := by
  induction ops generalizing t with
  | nil =>
    intro t1 h
    simp only [placeAll, Option.some.injEq] at h
    rw [← h]; exact hheap
  | cons o rest ih =>
    intro t1 h
    rw [List.pairwise_cons] at hsorted
    obtain ⟨t2, h1, h2, h3, h4, _⟩ := placeOperator_spec o t hs hn
    simp only [placeAll, hn, Bool.false_eq_true, if_false, h1, Option.some_bind] at h
    have hheap2 := placeOperator_heap o t hs hn hheap
      (fun x hx => hle x hx o (List.mem_cons_self o rest)) t2 h1
    refine ih t2 h2 h3 hheap2 hsorted.2 ?_ t1 h
    intro x hx p hp
    rcases List.mem_cons.1 (h4.mem_iff.1 hx) with rfl | hx1
    · exact hsorted.1 p hp
    · exact hle x hx1 p (List.mem_cons_of_mem o hp)

/-- The placement loop on operators sorted by priority key builds a heap. -/
theorem placeAll_null_heap (ops : List Operator)
    (hsorted : ops.Pairwise fun a b => a.priority_lvl ≤ b.priority_lvl) :
    ∀ t1, placeAll TreeNode.null ops = some t1 → t1.isHeap := by
  intro t1 h
  cases ops with
  | nil =>
    simp only [placeAll, Option.some.injEq] at h
    rw [← h]; trivial
  | cons o rest =>
    rw [List.pairwise_cons] at hsorted
    simp only [placeAll, TreeNode.isNull, if_true] at h
    refine placeAll_heap rest (TreeNode.ofOperator o) rfl rfl ?_ hsorted.2 ?_ t1 h
    · simp [TreeNode.ofOperator, TreeNode.isHeap, TreeNode.operators]
    · intro x hx p hp
      simp [TreeNode.ofOperator, TreeNode.operators] at hx
      rw [hx]
      exact hsorted.1 p hp

/-! ## What the leaf fill preserves -/

theorem popLeaf_eq_some {numbers : List ℚ} {p : TreeNode × List ℚ}
    (h : popLeaf numbers = some p) : ∃ x, p.1 = TreeNode.ofNumber x := by
  unfold popLeaf at h
  cases hl : numbers.getLast? with
  | none => simp [hl] at h
  | some x =>
    simp only [hl, Option.some.injEq] at h
    exact ⟨x, by rw [← h]⟩

/-- The leaf fill only adds leaves in the empty slots: the operator nodes, the
heap order and the ancestors stay, and one leaf is created per empty slot. -/
theorem fillSlot_preserves (t : TreeNode) (hs : t.isSkeleton = true) (numbers : List ℚ)
    (p : TreeNode × List ℚ)
    (h : (if t.isNull = true then popLeaf numbers else FillNumIntoTreeNode t numbers) = some p) :
    p.1.strip = t ∧ p.1.operators = t.operators ∧
      p.1.numLeaves = t.operators.length + 1 ∧ t.emptySlots = t.operators.length + 1 ∧
      (t.isHeap → p.1.isHeap) ∧ (∀ a b, t.isAncestor a b → p.1.isAncestor a b) := by
  induction t generalizing numbers p with
  | null =>
    simp only [TreeNode.isNull, if_true] at h
    obtain ⟨x, hx⟩ := popLeaf_eq_some h
    rw [hx]
    simp [TreeNode.ofNumber, TreeNode.strip, TreeNode.operators, TreeNode.numLeaves,
      TreeNode.emptySlots, TreeNode.isHeap, TreeNode.isAncestor]
  | mk number cop son0 son1 ih0 ih1 =>
    cases cop with
    | none => simp [TreeNode.isSkeleton] at hs
    | some c =>
      simp only [TreeNode.isSkeleton, Bool.and_eq_true] at hs
      have hnn : (TreeNode.mk number (some c) son0 son1).isNull = false := rfl
      rw [hnn, if_neg (by simp), FillNumIntoTreeNode] at h
      cases h1 : (if son1.isNull = true then popLeaf numbers
          else FillNumIntoTreeNode son1 numbers) with
      | none => simp [h1] at h
      | some p1 =>
        rw [h1, Option.some_bind] at h
        cases h0 : (if son0.isNull = true then popLeaf p1.2
            else FillNumIntoTreeNode son0 p1.2) with
        | none => simp [h0] at h
        | some p0 =>
          rw [h0, Option.some_bind, Option.some.injEq] at h
          obtain ⟨k1, k2, k3, k4, k5, k6⟩ := ih1 hs.2 numbers p1 h1
          obtain ⟨j1, j2, j3, j4, j5, j6⟩ := ih0 hs.1 p1.2 p0 h0
          rw [← h]
          refine ⟨?_, ?_, ?_, ?_, ?_, ?_⟩
          · simp [TreeNode.strip, k1, j1]
          · simp [TreeNode.operators, k2, j2]
          · simp only [TreeNode.numLeaves, TreeNode.operators, k3, j3, List.length_append,
              List.length_cons]
            omega
          · simp only [TreeNode.emptySlots, TreeNode.operators, k4, j4, List.length_append,
              List.length_cons]
            omega
          · intro hh
            simp only [TreeNode.isHeap] at hh ⊢
            rw [j2, k2]
            exact ⟨hh.1, hh.2.1, j5 hh.2.2.1, k5 hh.2.2.2⟩
          · intro a b hab
            simp only [TreeNode.isAncestor] at hab ⊢
            rw [j2, k2]
            rcases hab with hab | hab | hab
            · exact Or.inl hab
            · exact Or.inr (Or.inl (j6 a b hab))
            · exact Or.inr (Or.inr (k6 a b hab))

/-- `BuildTree` on an empty root and n ≥ 1 operators, whatever their position
indices, with n + 1 numbers: the placement succeeds, the leaf fill succeeds
and uses up the numbers. -/
theorem BuildTree_parts (ops : List Operator) (nums : List ℚ) (hne : ops ≠ [])
    (hlen : nums.length = ops.length + 1) :
    ∃ t1 t2, placeAll TreeNode.null (sortOperators ops) = some t1 ∧
      t1.isSkeleton = true ∧ t1.isNull = false ∧ t1.operators.Perm ops ∧
      FillNumIntoTreeNode t1 nums = some (t2, []) ∧
      BuildTree { root := TreeNode.null, operators := ops, numbers := nums } =
        some { root := t2, operators := sortOperators ops, numbers := [] } := by
  have hperm := sortOperators_perm ops
  have hsne : sortOperators ops ≠ [] := fun h => hne (by simpa [h] using hperm.symm)
  obtain ⟨c, rest, hs⟩ := List.exists_cons_of_ne_nil hsne
  obtain ⟨t1, h1, h2, h3, h4, _⟩ := placeAll_null_spec c rest
  rw [← hs] at h1 h4
  have hl : nums.length = t1.operators.length + 1 := by
    rw [(h4.trans hperm).length_eq]; exact hlen
  obtain ⟨t2, k1, _, _⟩ := fillSlot_spec t1 h2 [] nums hl
  rw [if_neg (by simp [h3]), List.nil_append] at k1
  refine ⟨t1, t2, h1, h2, h3, h4.trans hperm, k1, ?_⟩
  have hemp : ops.isEmpty = false := by cases ops <;> simp at hne ⊢
  simp [BuildTree, hemp, h1, k1]

theorem tokenize_2_times_group :
    tokenize new "2*(3+4)".toList =
      some { root := TreeNode.null
             operators := [Operator.new '*' 0 0, Operator.new '+' 1 1]
             numbers := [2, 3, 4] } := by
  simp [tokenize, scanLoop, scanStep, ScanState.init, new, forbidden_last_chars,
    are_matching_parenthesis]

theorem strip_eq_mk {t : TreeNode} {number : ℚ} {c : Operator} {s0 s1 : TreeNode}
    (h : t.strip = TreeNode.mk number (some c) s0 s1) :
    ∃ r0 r1, t = TreeNode.mk number (some c) r0 r1 ∧ r0.strip = s0 ∧ r1.strip = s1 := by
  cases t with
  | null => simp [TreeNode.strip] at h
  | mk n cop r0 r1 =>
    cases cop with
    | none => simp [TreeNode.strip] at h
    | some d =>
      simp only [TreeNode.strip, TreeNode.mk.injEq, Option.some.injEq] at h
      obtain ⟨h1, h2, h3, h4⟩ := h
      subst h1 h2
      exact ⟨r0, r1, rfl, h3, h4⟩

theorem skeleton_eq_mk {t : TreeNode} (hs : t.isSkeleton = true) (hn : t.isNull = false) :
    ∃ number c s0 s1, t = TreeNode.mk number (some c) s0 s1 := by
  cases t with
  | null => simp [TreeNode.isNull] at hn
  | mk n cop s0 s1 =>
    cases cop with
    | none => simp [TreeNode.isSkeleton] at hs
    | some c => exact ⟨n, c, s0, s1, rfl⟩

/-! ## The placement as a recursive partition -/

theorem bind_const_none {α β : Type} (x : Option α) :
    (x.bind fun _ => (none : Option β)) = none := by
  cases x <;> rfl

/-- The placement loop on a node: the operators with a smaller position index
than the node go to the left son, in their order, the others to the right
son. -/
theorem placeAll_node (ops : List Operator) (number : ℚ) (c : Operator) (s0 s1 : TreeNode) :
    placeAll (TreeNode.mk number (some c) s0 s1) ops =
      (placeAll s0 (ops.filter fun o => o.array_idx < c.array_idx)).bind fun l =>
        (placeAll s1 (ops.filter fun o => ¬ o.array_idx < c.array_idx)).bind fun r =>
          some (TreeNode.mk number (some c) l r) := by
  induction ops generalizing s0 s1 with
  | nil => simp [placeAll]
  | cons o rest ih =>
    have hnn : (TreeNode.mk number (some c) s0 s1).isNull = false := rfl
    rw [placeAll, hnn, if_neg (by simp), placeOperator]
    by_cases hlt : o.array_idx < c.array_idx
    · rw [List.filter_cons_of_pos (by simpa using hlt),
        List.filter_cons_of_neg (by simpa using hlt)]
      simp only [if_pos hlt]
      cases h0 : s0.isNull with
      | true =>
        simp only [if_true, Option.some_bind, ih]
        rw [placeAll, h0, if_pos rfl]
      | false =>
        simp only [Bool.false_eq_true, if_false]
        rw [placeAll, h0, if_neg (by simp)]
        cases hp : placeOperator o s0 with
        | none => simp
        | some s => simp only [Option.map_some', Option.some_bind, ih]
    · rw [List.filter_cons_of_neg (by simpa using hlt),
        List.filter_cons_of_pos (by simpa using hlt)]
      simp only [if_neg hlt]
      cases h1 : s1.isNull with
      | true =>
        simp only [if_true, Option.some_bind, ih]
        rw [placeAll, h1, if_pos rfl]
      | false =>
        simp only [Bool.false_eq_true, if_false]
        rw [placeAll, h1, if_neg (by simp)]
        cases hp : placeOperator o s1 with
        | none => simp [bind_const_none]
        | some s => simp only [Option.map_some', Option.some_bind, ih]

theorem placeAll_null_cons (x : Operator) (rest : List Operator) :
    placeAll TreeNode.null (x :: rest) =
      (placeAll TreeNode.null (rest.filter fun o => o.array_idx < x.array_idx)).bind fun l =>
        (placeAll TreeNode.null (rest.filter fun o => ¬ o.array_idx < x.array_idx)).bind fun r =>
          some (TreeNode.mk 0 (some x) l r) := by
  rw [placeAll]
  simp only [TreeNode.isNull, if_true, TreeNode.ofOperator]
  exact placeAll_node rest 0 x TreeNode.null TreeNode.null

theorem placeAll_null_operators (ops : List Operator) (t : TreeNode)
    (h : placeAll TreeNode.null ops = some t) : t.operators.Perm ops := by
  cases ops with
  | nil =>
    simp only [placeAll, Option.some.injEq] at h
    rw [← h]
    simp [TreeNode.operators]
  | cons o rest =>
    obtain ⟨t1, h1, _, _, h4, _⟩ := placeAll_null_spec o rest
    rw [h1, Option.some.injEq] at h
    rw [← h]
    exact h4

/-- When `b` is placed before `a`, and every operator placed before `b` has
both on the same side, `b` becomes an ancestor of `a`. -/
theorem placeAll_null_ancestor (n : Nat) (s t : List Operator) (a b : Operator)
    (hn : s.length ≤ n) (ha : a ∈ t) (hab : a.array_idx < b.array_idx)
    (hside : ∀ x ∈ s, (a.array_idx < x.array_idx ↔ b.array_idx < x.array_idx))
    (tree : TreeNode) (h : placeAll TreeNode.null (s ++ b :: t) = some tree) :
    tree.isAncestor b a := by
  induction n generalizing s t tree with
  | zero =>
    have hs : s = [] := List.length_eq_zero.1 (Nat.le_zero.1 hn)
    subst hs
    rw [List.nil_append, placeAll_null_cons] at h
    cases hl : placeAll TreeNode.null (t.filter fun o => o.array_idx < b.array_idx) with
    | none => rw [hl] at h; simp at h
    | some l =>
      rw [hl, Option.some_bind] at h
      cases hr : placeAll TreeNode.null (t.filter fun o => ¬ o.array_idx < b.array_idx) with
      | none => rw [hr] at h; simp at h
      | some r =>
        rw [hr, Option.some_bind, Option.some.injEq] at h
        rw [← h]
        have hmem : a ∈ l.operators :=
          (placeAll_null_operators _ l hl).mem_iff.2
            (List.mem_filter.2 ⟨ha, by simpa using hab⟩)
        exact Or.inl ⟨rfl, Or.inl hmem⟩
  | succ n ih =>
    cases s with
    | nil => exact ih [] t (Nat.zero_le n) ha hside tree h
    | cons x s =>
      have hx := hside x (List.mem_cons_self x s)
      have hs : ∀ y ∈ s, (a.array_idx < y.array_idx ↔ b.array_idx < y.array_idx) :=
        fun y hy => hside y (List.mem_cons_of_mem x hy)
      have hlen : s.length ≤ n := by simpa using hn
      rw [List.cons_append, placeAll_null_cons] at h
      cases hl : placeAll TreeNode.null
          ((s ++ b :: t).filter fun o => o.array_idx < x.array_idx) with
      | none => rw [hl] at h; simp at h
      | some l =>
        rw [hl, Option.some_bind] at h
        cases hr : placeAll TreeNode.null
            ((s ++ b :: t).filter fun o => ¬ o.array_idx < x.array_idx) with
        | none => rw [hr] at h; simp at h
        | some r =>
          rw [hr, Option.some_bind, Option.some.injEq] at h
          rw [← h]
          by_cases hax : a.array_idx < x.array_idx
          · have hbx : b.array_idx < x.array_idx := hx.1 hax
            rw [List.filter_append, List.filter_cons_of_pos (by simpa using hbx)] at hl
            have := ih (s.filter fun o => o.array_idx < x.array_idx)
              (t.filter fun o => o.array_idx < x.array_idx)
              (Nat.le_trans (List.length_filter_le _ s) hlen)
              (List.mem_filter.2 ⟨ha, by simpa using hax⟩)
              (fun y hy => hs y (List.mem_filter.1 hy).1) l hl
            exact Or.inr (Or.inl this)
          · have hbx : ¬ b.array_idx < x.array_idx := fun hb => hax (hx.2 hb)
            rw [List.filter_append, List.filter_cons_of_pos (by simpa using hbx)] at hr
            have := ih (s.filter fun o => ¬ o.array_idx < x.array_idx)
              (t.filter fun o => ¬ o.array_idx < x.array_idx)
              (Nat.le_trans (List.length_filter_le _ s) hlen)
              (List.mem_filter.2 ⟨ha, by simpa using hax⟩)
              (fun y hy => hs y (List.mem_filter.1 hy).1) r hr
            exact Or.inr (Or.inr this)

/-! ## Deep nesting: the priority key beyond the range of `int` -/

theorem scanLoop_opens (n : Nat) (st : ScanState) (rest : List Char)
    (h1 : st.is_num_active = false)
    (h2 : st.last_char_type = '?' ∨ st.last_char_type = '(' ∨ st.last_char_type = '+') :
    scanLoop st (List.replicate (n + 1) '(' ++ rest) =
      scanLoop { st with parenthesis := st.parenthesis ++ List.replicate (n + 1) '('
                         last_char_type := '(' } rest := by
  induction n generalizing st with
  | zero =>
    rw [List.replicate_succ, List.replicate_zero, List.cons_append, List.nil_append,
      scanLoop_open_cons st (by decide) rest h1 h2]
    rfl
  | succ n ih =>
    rw [List.replicate_succ, List.cons_append, scanLoop_open_cons st (by decide) _ h1 h2,
      ih (st.afterOpen '(') h1 (Or.inr (Or.inl rfl))]
    have h : (st.afterOpen '(').parenthesis ++ List.replicate (n + 1) '(' =
        st.parenthesis ++ List.replicate (n + 1 + 1) '(' := by
      rw [List.replicate_succ (n := n + 1)]
      simp only [ScanState.afterOpen, List.append_assoc, List.singleton_append]
    rw [h]
    rfl

theorem scanLoop_closes (n : Nat) (st : ScanState) (rest base : List Char)
    (h1 : st.parenthesis = base ++ List.replicate (n + 1) '(')
    (h2 : st.last_char_type = '0' ∨ st.last_char_type = ')') :
    scanLoop st (List.replicate (n + 1) ')' ++ rest) =
      scanLoop { st with parenthesis := base, last_char_type := ')' } rest := by
  induction n generalizing st with
  | zero =>
    rw [List.replicate_succ, List.replicate_zero] at h1
    rw [List.replicate_succ, List.replicate_zero, List.cons_append, List.nil_append,
      scanLoop_close_cons st (by decide) rest base h1 (by decide) h2]
    simp only [ScanState.afterClose, h1, List.dropLast_concat]
  | succ n ih =>
    have h3 : st.parenthesis = (base ++ List.replicate (n + 1) '(') ++ ['('] := by
      rw [h1, List.replicate_succ' (n := n + 1), List.append_assoc]
    rw [List.replicate_succ, List.cons_append,
      scanLoop_close_cons st (by decide) _ _ h3 (by decide) h2,
      ih st.afterClose (by simp only [ScanState.afterClose, h3, List.dropLast_concat])
        (Or.inr rfl)]
    rfl

/-- The tokens of `a q ((...(b p c)...))` with `n + 1` pairs of round
brackets. -/
theorem tokenize_deep_group (n : Nat) (a b c : NumLit) (p q : Char) (ha : a.wf) (hb : b.wf)
    (hc : c.wf) (hp : isBinOp p) (hq : isBinOp q) :
    tokenize new (a.chars ++ q :: (List.replicate (n + 1) '(' ++
        (b.chars ++ p :: (c.chars ++ List.replicate (n + 1) ')')))) =
      some { root := TreeNode.null
             operators := [Operator.new q 0 0, Operator.new p ((n + 1 : Nat) : Int) 1]
             numbers := [a.value, b.value, c.value] } := by
  have hend : List.replicate (n + 1) ')' = List.replicate (n + 1) ')' ++ [] := by
    rw [List.append_nil]
  simp only [tokenize]
  rw [scanLoop_lit_append a ha _ _ rfl rfl (Or.inl rfl),
    scanLoop_op_cons _ hq _ rfl (Or.inl rfl),
    scanLoop_opens n _ _ rfl (Or.inr (Or.inr rfl)),
    scanLoop_lit_append b hb _ _ rfl rfl (Or.inr (Or.inl rfl)),
    scanLoop_op_cons _ hp _ rfl (Or.inl rfl),
    scanLoop_lit_append c hc _ _ rfl rfl (Or.inr (Or.inr (Or.inl rfl))),
    hend, scanLoop_closes n _ [] [] (by simp [ScanState.afterLit, ScanState.afterOp,
      ScanState.init]) (Or.inl rfl)]
  simp [scanLoop, ScanState.afterLit, ScanState.afterOp, ScanState.init, new]

/-- The tokens of `((...(b p c)...))` with `n + 1` pairs of round brackets. -/
theorem tokenize_deep_single (n : Nat) (b c : NumLit) (p : Char) (hb : b.wf) (hc : c.wf)
    (hp : isBinOp p) :
    tokenize new (List.replicate (n + 1) '(' ++
        (b.chars ++ p :: (c.chars ++ List.replicate (n + 1) ')'))) =
      some { root := TreeNode.null
             operators := [Operator.new p ((n + 1 : Nat) : Int) 0]
             numbers := [b.value, c.value] } := by
  have hend : List.replicate (n + 1) ')' = List.replicate (n + 1) ')' ++ [] := by
    rw [List.append_nil]
  simp only [tokenize]
  rw [scanLoop_opens n _ _ rfl (Or.inl rfl),
    scanLoop_lit_append b hb _ _ rfl rfl (Or.inr (Or.inl rfl)),
    scanLoop_op_cons _ hp _ rfl (Or.inl rfl),
    scanLoop_lit_append c hc _ _ rfl rfl (Or.inr (Or.inr (Or.inl rfl))),
    hend, scanLoop_closes n _ [] [] (by simp [ScanState.afterLit, ScanState.afterOp,
      ScanState.init]) (Or.inl rfl)]
  simp [scanLoop, ScanState.afterLit, ScanState.afterOp, ScanState.init, new]

theorem bracketDepth_opens (n : Nat) (rest : List Char)
    (h : ∀ x ∈ rest, ¬ isOpen x ∧ ¬ isClose x) :
    bracketDepth (List.replicate n '(' ++ rest) = n := by
  induction n with
  | zero =>
    rw [List.replicate_zero, List.nil_append]
    induction rest with
    | nil => simp [bracketDepth]
    | cons x xs ih =>
      rw [bracketDepth_cons_other xs (h x (List.mem_cons_self x xs))]
      simpa using ih fun y hy => h y (List.mem_cons_of_mem x hy)
  | succ n ih =>
    rw [List.replicate_succ, List.cons_append, bracketDepth_cons_open _ (by decide), ih]
    simp

theorem value_lit_3 : (NumLit.mk ['3'] none).value = 3 := by
  simp [NumLit.value, accInt, digitValue]
  norm_num

theorem value_lit_4 : (NumLit.mk ['4'] none).value = 4 := by
  simp [NumLit.value, accInt, digitValue]
  norm_num

theorem priority_deep_plus (i : Nat) :
    (Operator.new '+' ((536870911 + 1 : Nat) : Int) i).priority_lvl = -2147483648 := by
  simp only [Operator.new, wrapInt, OpPriority]
  decide

theorem priority_times_zero (i : Nat) : (Operator.new '*' 0 i).priority_lvl = 1 := by
  simp only [Operator.new, wrapInt, OpPriority]
  decide

end ExpressionSolver

/-! # The claims -/

namespace ExpressionSolver

/-- C1: for every sequence of n ≥ 1 operators carrying the position indices
0..n-1 in order and every sequence of n + 1 numbers, `BuildTree` (sort,
positional insertion, leaf fill) produces a full binary tree whose in-order
traversal is `x_0, op_0, x_1, ..., op_(n-1), x_n`. -/
theorem C1_buildTree_inorder (ops : List Operator) (nums : List ℚ) (hne : ops ≠ [])
    (hidx : ops.map Operator.array_idx = List.range ops.length)
    (hlen : nums.length = ops.length + 1) :
    ∃ es, BuildTree { root := TreeNode.null, operators := ops, numbers := nums } = some es ∧
      es.root.isFull = true ∧ es.root.inorder = interleave nums ops := by
  obtain ⟨t, h1, h2, h3⟩ := BuildTree_spec ops nums hne hidx hlen
  exact ⟨_, h1, h2, h3⟩

/-- A concrete instance of C1: the operators of `2+3*4`. -/
theorem C1_buildTree_inorder_witness :
    ∃ es, BuildTree { root := TreeNode.null
                      operators := [Operator.new '+' 0 0, Operator.new '*' 0 1]
                      numbers := [2, 3, 4] } = some es ∧
      es.root.isFull = true ∧
      es.root.inorder =
        interleave [2, 3, 4] [Operator.new '+' 0 0, Operator.new '*' 0 1] :=
  C1_buildTree_inorder [Operator.new '+' 0 0, Operator.new '*' 0 1] [2, 3, 4]
    (by decide) (by decide) (by decide)

/-- C2: for number literals a, b, c and binary operators p, q with
`OpPriority p < OpPriority q`, `parse_input` returns `true` on `a p b q c` with
the tree `p(a, q(b, c))` and on `a q b p c` with the tree `p(q(a, b), c)`;
`2+3*4` evaluates to 14. -/
theorem C2_precedence (a b c : NumLit) (p q : Char) (ha : a.wf) (hb : b.wf) (hc : c.wf)
    (hp : isBinOp p) (hq : isBinOp q) (hpq : OpPriority p < OpPriority q) :
    parse_input new (a.chars ++ p :: b.chars ++ q :: c.chars) =
        ParseResult.built true
          { root := TreeNode.mk 0 (some (Operator.new p 0 0)) (TreeNode.ofNumber a.value)
              (TreeNode.mk 0 (some (Operator.new q 0 1)) (TreeNode.ofNumber b.value)
                (TreeNode.ofNumber c.value))
            operators := [Operator.new p 0 0, Operator.new q 0 1]
            numbers := [] } ∧
      parse_input new (a.chars ++ q :: b.chars ++ p :: c.chars) =
        ParseResult.built true
          { root := TreeNode.mk 0 (some (Operator.new p 0 1))
              (TreeNode.mk 0 (some (Operator.new q 0 0)) (TreeNode.ofNumber a.value)
                (TreeNode.ofNumber b.value))
              (TreeNode.ofNumber c.value)
            operators := [Operator.new p 0 1, Operator.new q 0 0]
            numbers := [] } ∧
      evaluate "2+3*4".toList = some 14 := by
  refine ⟨?_, ?_, evaluate_2_plus_3_times_4⟩
  · exact parse_input_of_tokenize (tokenize_two_ops a b c p q ha hb hc hp hq)
      (BuildTree_two_first _ _ _ _ _ (by simp [Operator.new])
        (by rw [priority_new_zero hp, priority_new_zero hq]; exact hpq))
  · exact parse_input_of_tokenize (tokenize_two_ops a b c q p ha hb hc hq hp)
      (BuildTree_two_second _ _ _ _ _ (by simp [Operator.new])
        (by rw [priority_new_zero hp, priority_new_zero hq]; exact hpq))

/-- A concrete instance of C2: the literals 2, 3, 4 with `+` and `*`. -/
theorem C2_precedence_witness :
    parse_input new ((NumLit.mk ['2'] none).chars ++ '+' :: (NumLit.mk ['3'] none).chars ++
        '*' :: (NumLit.mk ['4'] none).chars) =
      ParseResult.built true
        { root := TreeNode.mk 0 (some (Operator.new '+' 0 0))
            (TreeNode.ofNumber (NumLit.mk ['2'] none).value)
            (TreeNode.mk 0 (some (Operator.new '*' 0 1))
              (TreeNode.ofNumber (NumLit.mk ['3'] none).value)
              (TreeNode.ofNumber (NumLit.mk ['4'] none).value))
          operators := [Operator.new '+' 0 0, Operator.new '*' 0 1]
          numbers := [] } :=
  (C2_precedence (NumLit.mk ['2'] none) (NumLit.mk ['3'] none) (NumLit.mk ['4'] none) '+' '*'
    (by decide) (by decide) (by decide) (by decide) (by decide) (by decide)).1

/-- C3 as stated fails: in `2*((...(3+4)...))` with `2^29` pairs of brackets
the key of `+` is computed as `4 * 2^29` in `int` and wraps to `-2^31`, below
the key 1 of `*` at depth 0; `parse_input` builds `+(*(2, 3), 4)`, which
evaluates to 10: the grouping does not override the precedence. The key of
`^` at depth `2^29 - 1` is `2^31 - 1`, the largest `int`, so that no key of a
greater depth is strictly larger. -/
theorem C3_counterexample :
    parse_input new ((NumLit.mk ['2'] none).chars ++ '*' :: (List.replicate 536870912 '(' ++
        ((NumLit.mk ['3'] none).chars ++ '+' ::
          ((NumLit.mk ['4'] none).chars ++ List.replicate 536870912 ')')))) =
      ParseResult.built true
        { root := TreeNode.mk 0 (some (Operator.new '+' 536870912 1))
            (TreeNode.mk 0 (some (Operator.new '*' 0 0))
              (TreeNode.ofNumber (NumLit.mk ['2'] none).value)
              (TreeNode.ofNumber (NumLit.mk ['3'] none).value))
            (TreeNode.ofNumber (NumLit.mk ['4'] none).value)
          operators := [Operator.new '+' 536870912 1, Operator.new '*' 0 0]
          numbers := [] } ∧
      (Operator.new '+' 536870912 1).priority_lvl < (Operator.new '*' 0 0).priority_lvl ∧
      (TreeNode.mk 0 (some (Operator.new '+' 536870912 1))
          (TreeNode.mk 0 (some (Operator.new '*' 0 0))
            (TreeNode.ofNumber (NumLit.mk ['2'] none).value)
            (TreeNode.ofNumber (NumLit.mk ['3'] none).value))
          (TreeNode.ofNumber (NumLit.mk ['4'] none).value)).solve = some 10 ∧
      (Operator.new '^' 536870911 0).priority_lvl = 2147483647 ∧
      ¬ (Operator.new '^' 536870911 0).priority_lvl <
        (Operator.new '+' 536870912 1).priority_lvl := by
  have hlt : (Operator.new '+' ((536870911 + 1 : Nat) : Int) 1).priority_lvl <
      (Operator.new '*' 0 0).priority_lvl := by
    rw [priority_deep_plus, priority_times_zero]
    decide
  have hmax : (Operator.new '^' 536870911 0).priority_lvl = 2147483647 := by
    simp only [Operator.new, wrapInt, OpPriority]
    decide
  have hdeep : (Operator.new '+' ((536870911 + 1 : Nat) : Int) 1).priority_lvl =
      -2147483648 := priority_deep_plus 1
  refine ⟨?_, hlt, ?_, hmax, ?_⟩
  rotate_left 2
  · intro h
    have h2 : (2147483647 : Int) < -2147483648 := by
      calc (2147483647 : Int) = (Operator.new '^' 536870911 0).priority_lvl := hmax.symm
        _ < (Operator.new '+' 536870912 1).priority_lvl := h
        _ = -2147483648 := hdeep
    revert h2
    decide
  · exact parse_input_of_tokenize
      (tokenize_deep_group 536870911 (NumLit.mk ['2'] none) (NumLit.mk ['3'] none)
        (NumLit.mk ['4'] none) '+' '*' (by decide) (by decide) (by decide) (by decide)
        (by decide))
      (BuildTree_two_second _ _ _ _ _ (by simp only [Operator.new]; decide) hlt)
  · rw [value_lit_2, value_lit_3, value_lit_4]
    simp [TreeNode.solve, TreeNode.ofNumber, Operator.compute, Operator.new,
      CharToOperatorType]
    norm_num

/-- C3, amended: for number literals a, b, c, binary operators p, q of any base
precedence and each of the three bracket shapes, `parse_input` returns `true`
on `(a p b) q c` with the tree `q(p(a, b), c)` and on `a q (b p c)` with the
tree `q(a, p(b, c))`; an operator at a greater nesting depth has a strictly
larger priority key than one at a smaller depth as long as the depth is below
`2^29`, where the key fits in an `int`; `(2+3)*4` evaluates to 20. -/
theorem C3_grouping (a b c : NumLit) (p q o cl : Char) (ha : a.wf) (hb : b.wf) (hc : c.wf)
    (hp : isBinOp p) (hq : isBinOp q) (hm : are_matching_parenthesis o cl = true) :
    parse_input new (o :: a.chars ++ p :: b.chars ++ cl :: q :: c.chars) =
        ParseResult.built true
          { root := TreeNode.mk 0 (some (Operator.new q 0 1))
              (TreeNode.mk 0 (some (Operator.new p 1 0)) (TreeNode.ofNumber a.value)
                (TreeNode.ofNumber b.value))
              (TreeNode.ofNumber c.value)
            operators := [Operator.new q 0 1, Operator.new p 1 0]
            numbers := [] } ∧
      parse_input new (a.chars ++ q :: o :: b.chars ++ p :: c.chars ++ [cl]) =
        ParseResult.built true
          { root := TreeNode.mk 0 (some (Operator.new q 0 0)) (TreeNode.ofNumber a.value)
              (TreeNode.mk 0 (some (Operator.new p 1 1)) (TreeNode.ofNumber b.value)
                (TreeNode.ofNumber c.value))
            operators := [Operator.new q 0 0, Operator.new p 1 1]
            numbers := [] } ∧
      (∀ (c1 c2 : Char) (d1 d2 i j : Nat), isBinOp c1 → isBinOp c2 → d1 < d2 →
        d2 < 536870912 →
        (Operator.new c1 d1 i).priority_lvl < (Operator.new c2 d2 j).priority_lvl) ∧
      evaluate "(2+3)*4".toList = some 20 := by
  have h01 := priority_new_lt_of_depth hq hp 0 1 1 0 (by decide) (by decide)
  have h10 := priority_new_lt_of_depth hq hp 0 1 0 1 (by decide) (by decide)
  refine ⟨?_, ?_, ?_, evaluate_group_2_plus_3_times_4⟩
  · exact parse_input_of_tokenize (tokenize_group_left a b c p q o cl ha hb hc hp hq hm)
      (BuildTree_two_second _ _ _ _ _ (by simp [Operator.new]) (by simpa using h01))
  · exact parse_input_of_tokenize (tokenize_group_right a b c p q o cl ha hb hc hp hq hm)
      (BuildTree_two_first _ _ _ _ _ (by simp [Operator.new]) (by simpa using h10))
  · intro c1 c2 d1 d2 i j h1 h2 h hd
    exact priority_new_lt_of_depth h1 h2 d1 d2 i j h hd

/-- A concrete instance of C3: `[2^3]+4`, the operator of higher base
precedence inside the brackets. -/
theorem C3_grouping_witness :
    parse_input new ('[' :: (NumLit.mk ['2'] none).chars ++ '^' :: (NumLit.mk ['3'] none).chars ++
        ']' :: '+' :: (NumLit.mk ['4'] none).chars) =
      ParseResult.built true
        { root := TreeNode.mk 0 (some (Operator.new '+' 0 1))
            (TreeNode.mk 0 (some (Operator.new '^' 1 0))
              (TreeNode.ofNumber (NumLit.mk ['2'] none).value)
              (TreeNode.ofNumber (NumLit.mk ['3'] none).value))
            (TreeNode.ofNumber (NumLit.mk ['4'] none).value)
          operators := [Operator.new '+' 0 1, Operator.new '^' 1 0]
          numbers := [] } :=
  (C3_grouping (NumLit.mk ['2'] none) (NumLit.mk ['3'] none) (NumLit.mk ['4'] none) '^' '+'
    '[' ']' (by decide) (by decide) (by decide) (by decide) (by decide) (by decide)).1

/-- C4: for every bracket-free chain `a_0 o_1 a_1 ... o_k a_k` (k ≥ 1) whose
operators all have the same priority key, `parse_input` returns `true` and
`solve` returns the left fold `(...((a_0 o_1 a_1) o_2 a_2)... o_k a_k)`;
`8-3-2` evaluates to 3. -/
theorem C4_left_associative (a : NumLit) (rest : List (Char × NumLit)) (ha : a.wf)
    (hne : rest ≠ []) (hrest : ∀ p ∈ rest, isBinOp p.1 ∧ p.2.wf)
    (hsame : ∀ p ∈ rest, ∀ q ∈ rest, OpPriority p.1 = OpPriority q.1) :
    (∃ es, parse_input new (a.chars ++ chainChars rest) = ParseResult.built true es ∧
      solve es = leftFold a.value 0 rest) ∧
    evaluate "8-3-2".toList = some 3 := by
  refine ⟨⟨_, parse_input_of_tokenize (tokenize_chain a rest ha hrest)
    (BuildTree_chain a.value rest hne hsame), ?_⟩, evaluate_8_minus_3_minus_2⟩
  exact solve_filledSpine a.value 0 rest

/-- A concrete instance of C4: the chain `8-3+2`. -/
theorem C4_left_associative_witness :
    ∃ es, parse_input new ((NumLit.mk ['8'] none).chars ++
        chainChars [('-', NumLit.mk ['3'] none), ('+', NumLit.mk ['2'] none)]) =
          ParseResult.built true es ∧
      solve es = leftFold (NumLit.mk ['8'] none).value 0
        [('-', NumLit.mk ['3'] none), ('+', NumLit.mk ['2'] none)] :=
  (C4_left_associative (NumLit.mk ['8'] none)
    [('-', NumLit.mk ['3'] none), ('+', NumLit.mk ['2'] none)]
    (by decide) (by decide) (by decide) (by decide)).1

/-- C5: for every input on which the scan of `parse_input` completes without
rejecting, the numbers sequence handed to `BuildTree` has exactly one more
element than the operators sequence. -/
theorem C5_numbers_one_more (input : List Char) (es : ExpressionSolver)
    (h : tokenize new input = some es) :
    es.numbers.length = es.operators.length + 1 := by
  obtain ⟨st, h1, _, _, h4⟩ := tokenize_eq_some h
  have h5 := scanLoop_lengths input h1 rfl
  rw [h4]
  simp [h5]

/-- A concrete instance of C5: the scan of `2+3*4`. -/
theorem C5_numbers_one_more_witness :
    tokenize new "2+3*4".toList =
        some { root := TreeNode.null
               operators := [Operator.new '+' 0 0, Operator.new '*' 0 1]
               numbers := [2, 3, 4] } ∧
      ([2, 3, 4] : List ℚ).length =
        [Operator.new '+' 0 0, Operator.new '*' 0 1].length + 1 :=
  ⟨tokenize_2_plus_3_times_4,
    C5_numbers_one_more "2+3*4".toList
      { root := TreeNode.null
        operators := [Operator.new '+' 0 0, Operator.new '*' 0 1]
        numbers := [2, 3, 4] } tokenize_2_plus_3_times_4⟩

/-- C6 (the code at the input `5`): the scan completes, `BuildTree` makes the
single leaf holding 5 and `solve` would return 5, but the number is left in
`_numbers` and `parse_input` returns `false`. -/
theorem C6_single_number_returns_false :
    parse_input new "5".toList =
        ParseResult.built false
          { root := TreeNode.ofNumber 5, operators := [], numbers := [5] } ∧
      (TreeNode.ofNumber 5).solve = some 5 ∧
      evaluate "5".toList = none := by
  have h : parse_input new "5".toList =
      ParseResult.built false { root := TreeNode.ofNumber 5, operators := [], numbers := [5] } := by
    simp [parse_input, tokenize, scanLoop, scanStep, ScanState.init, new, forbidden_last_chars,
      BuildTree, TreeNode.ofNumber]
  refine ⟨h, by simp [TreeNode.ofNumber, TreeNode.solve], ?_⟩
  rw [evaluate, h]

/-- C7: if `parse_input` returns `true` then the bracket characters of the
input form a properly nested sequence in which every closing bracket has the
shape of the bracket it closes; an input whose brackets are not so nested is
rejected by the scan; the brackets of `(5]` are not nested and `parse_input`
returns `false` on it. -/
theorem C7_brackets_nested (input : List Char) :
    ((parse_input new input).returned = some true → Nested (brackets input)) ∧
    (¬ Nested (brackets input) → parse_input new input = ParseResult.rejected) ∧
    ¬ Nested (brackets "(5]".toList) ∧
    (parse_input new "(5]".toList).returned = some false := by
  refine ⟨fun h => ?_, fun h => ?_, not_nested_mismatch, returned_mismatch⟩
  · obtain ⟨es, hes⟩ := tokenize_isSome_of_returned_true h
    exact tokenize_nested hes
  · cases ht : tokenize new input with
    | none => exact parse_input_rejected_of_tokenize ht
    | some es => exact absurd (tokenize_nested ht) h

/-- A concrete instance of C7: the accepted input `[(2+3)]*{4}`. -/
theorem C7_brackets_nested_witness :
    (parse_input new "[(2+3)]*{4}".toList).returned = some true ∧
      Nested (brackets "[(2+3)]*{4}".toList) :=
  ⟨returned_group_2_plus_3, (C7_brackets_nested "[(2+3)]*{4}".toList).1 returned_group_2_plus_3⟩

/-- C8: `parse_input` returns `false` on every input in which a `-` directly
follows a binary operator character, be that character taken as a binary
operator (as in `5*-3`) or as a unary sign (as in `--5`). -/
theorem C8_minus_after_operator (pre post : List Char) (p : Char) (hp : isBinOp p) :
    (parse_input new (pre ++ p :: '-' :: post)).returned = some false := by
  rw [parse_input_rejected_of_tokenize (tokenize_op_minus pre post hp)]
  rfl

/-- Two concrete instances of C8: `5*-3` and `--5`. -/
theorem C8_minus_after_operator_witness :
    (parse_input new (['5'] ++ '*' :: '-' :: ['3'])).returned = some false ∧
      (parse_input new ([] ++ '-' :: '-' :: ['5'])).returned = some false :=
  ⟨C8_minus_after_operator ['5'] ['3'] '*' (by decide),
    C8_minus_after_operator [] ['5'] '-' (by decide)⟩

/-- C9: a `-` is taken as a unary sign exactly when the class of the last
accepted character is start or open bracket (otherwise it goes through the
binary operator branch), and the number literal after the sign is emitted
negated: `a q (-b)` gives the numbers `[a, -b]` and the single operator `q`;
`5*(-3)` evaluates to -15. -/
theorem C9_unary_minus (st : ScanState) (a b : NumLit) (q o cl : Char) (ha : a.wf)
    (hb : b.wf) (hq : isBinOp q) (hm : are_matching_parenthesis o cl = true) :
    scanStep st '-' =
        (if st.last_char_type ∈ ['?', '('] then
          if st.sign ≠ 1 then none else some st.afterSign
        else if st.is_num_active = false ∨ st.last_char_type ∈ ['(', '.', '+'] then none
        else some (st.afterOp '-')) ∧
      tokenize new (a.chars ++ q :: o :: '-' :: b.chars ++ [cl]) =
        some { root := TreeNode.null
               operators := [Operator.new q 0 0]
               numbers := [a.value, -b.value] } ∧
      evaluate "5*(-3)".toList = some (-15) := by
  refine ⟨?_, tokenize_neg_group a b q o cl ha hb hq hm, evaluate_5_times_neg_3⟩
  rw [scanStep_binop st (by decide)]
  simp

/-- A concrete instance of C9: `5*(-3)`. -/
theorem C9_unary_minus_witness :
    tokenize new ((NumLit.mk ['5'] none).chars ++ '*' :: '(' :: '-' ::
        (NumLit.mk ['3'] none).chars ++ [')']) =
      some { root := TreeNode.null
             operators := [Operator.new '*' 0 0]
             numbers := [(NumLit.mk ['5'] none).value, -(NumLit.mk ['3'] none).value] } :=
  (C9_unary_minus (ScanState.init new) (NumLit.mk ['5'] none) (NumLit.mk ['3'] none) '*' '(' ')'
    (by decide) (by decide) (by decide) (by decide)).2.1

/-- C12: `parse_input` returns `false` for the empty string, for every input
whose first character is one of `+ * / : ^`, and for every input whose last
character is a binary operator character. -/
theorem C12_dangling_operator (input : List Char) (c : Char) :
    (parse_input new []).returned = some false ∧
      ((c = '+' ∨ c = '*' ∨ c = '/' ∨ c = ':' ∨ c = '^') →
        (parse_input new (c :: input)).returned = some false) ∧
      (isBinOp c → (parse_input new (input ++ [c])).returned = some false) :=
  ⟨returned_rejected_of_tokenize tokenize_nil,
    fun hc => returned_rejected_of_tokenize (tokenize_first_binop input hc),
    fun hc => returned_rejected_of_tokenize (tokenize_last_binop input hc)⟩

/-- Two concrete instances of C12: `+5` and `5+`. -/
theorem C12_dangling_operator_witness :
    (parse_input new ('+' :: ['5'])).returned = some false ∧
      (parse_input new (['5'] ++ ['+'])).returned = some false :=
  ⟨(C12_dangling_operator ['5'] '+').2.1 (by decide),
    (C12_dangling_operator ['5'] '+').2.2 (by decide)⟩

/-- C13 as stated fails: the truncation of the exponent `-2^31` fits in an
`int`, but its negation does not, and `compute` is undefined there. -/
theorem C13_counterexample :
    truncate (-2147483648) = -2147483648 ∧
      static_cast_int (-2147483648) = some (-2147483648) ∧
      (Operator.new '^' 0 0).compute 2 (-2147483648) = none := by
  have ht : truncate (-2147483648) = -2147483648 := by
    have := truncate_intCast (-2147483648)
    simpa using this
  refine ⟨ht, ?_, compute_pow_int_min _ rfl 2⟩
  rw [static_cast_int_eq _ (by rw [ht]) (by rw [ht]; decide), ht]

/-- C13, amended: for every base l and every exponent r whose truncation
toward zero n satisfies `-2^31 < n ≤ 2^31 - 1` (so that n and `-n` fit in an
`int`), `compute` for `pow` returns `l ^ n` when `r ≥ 0` and, for l ≠ 0,
`(1/l) ^ (-n)` when `r < 0`; `compute_power` terminates on every exponent
`e ≥ 0` with `base ^ e`; a fractional exponent gives the result of its
integer part. -/
theorem C13_power (o : Operator) (l r base : ℚ) (e : Nat) (ho : o.op = OperatorType.pow)
    (h1 : -2147483648 < truncate r) (h2 : truncate r ≤ 2147483647) :
    (0 ≤ r → o.compute l r = some (l ^ (truncate r).toNat)) ∧
      (r < 0 → l ≠ 0 → o.compute l r = some ((1 / l) ^ (-truncate r).toNat)) ∧
      compute_power base (e : Int) = some (base ^ e) ∧
      o.compute l r = o.compute l ((truncate r : Int) : ℚ) :=
  ⟨fun hr => compute_pow_of_nonneg o ho l r hr h2,
    fun hr _ => compute_pow_of_neg o ho l r hr h1,
    compute_power_nat base e,
    compute_pow_truncate o ho l r h1 h2⟩

/-- A concrete instance of the amended C13: the exponent 5/2 on the base 3. -/
theorem C13_power_witness :
    (Operator.new '^' 0 0).compute 3 (5 / 2) = some (3 ^ (truncate (5 / 2)).toNat) ∧
      (Operator.new '^' 0 0).compute 3 (5 / 2) =
        (Operator.new '^' 0 0).compute 3 ((truncate (5 / 2) : Int) : ℚ) :=
  have h := C13_power (Operator.new '^' 0 0) 3 (5 / 2) 3 2 rfl
    (by rw [truncate_five_halves]; decide) (by rw [truncate_five_halves]; decide)
  ⟨h.1 (by norm_num), h.2.2.2⟩

/-- C14 as stated fails: `2 + 3` contains spaces, which are outside the
alphabet, and `parse_input` returns `true`. -/
theorem C14_counterexample :
    ' ' ∈ "2 + 3".toList ∧ ¬ inAlphabet ' ' ∧
      (parse_input new "2 + 3".toList).returned = some true :=
  ⟨by decide, by decide, returned_2_space_plus_3⟩

/-- C14, amended: whitespace and every other character outside the alphabet is
skipped by the scan: `parse_input` does on every input what it does on the
input without these characters; `2 + 3` is accepted and evaluates to 5. -/
theorem C14_skipped_characters (input : List Char) :
    parse_input new input = parse_input new (input.filter fun c => inAlphabet c) ∧
      evaluate "2 + 3".toList = some 5 :=
  ⟨(parse_input_filter_alphabet input).symm, evaluate_2_space_plus_3⟩

/-- C15: there is no implicit multiplication: `parse_input` returns `false` on
every input in which an opening bracket directly follows a digit, a decimal
separator or a closing bracket, or in which a digit directly follows a closing
bracket. -/
theorem C15_no_implicit_multiplication (pre post : List Char) (x y : Char) :
    ((isDigit x ∨ isSeparator x ∨ isClose x) → isOpen y →
        (parse_input new (pre ++ x :: y :: post)).returned = some false) ∧
      (isClose x → isDigit y →
        (parse_input new (pre ++ x :: y :: post)).returned = some false) :=
  ⟨fun hx hy => returned_rejected_of_tokenize
      (tokenize_none_of_scan_suffix pre _ fun st => scanLoop_adjacent_open st post hx hy),
    fun hx hy => returned_rejected_of_tokenize
      (tokenize_none_of_scan_suffix pre _ fun st => scanLoop_close_digit st post hx hy)⟩

/-- Three concrete instances of C15: `2(`, `(2)(3)` and `(2)3`. -/
theorem C15_no_implicit_multiplication_witness :
    (parse_input new ([] ++ '2' :: '(' :: [])).returned = some false ∧
      (parse_input new (['(', '2'] ++ ')' :: '(' :: ['3', ')'])).returned = some false ∧
      (parse_input new (['(', '2'] ++ ')' :: '3' :: [])).returned = some false :=
  ⟨(C15_no_implicit_multiplication [] [] '2' '(').1 (by decide) (by decide),
    (C15_no_implicit_multiplication ['(', '2'] ['3', ')'] ')' '(').1 (by decide) (by decide),
    (C15_no_implicit_multiplication ['(', '2'] [] ')' '3').2 (by decide) (by decide)⟩

/-- C16 as stated fails: in `((...(3+4)...))` with `2^29` pairs of brackets the
`+` is emitted with `2^29` brackets open, and its priority key is `-2^31`, not
`4 * 2^29 + 0`. -/
theorem C16_counterexample :
    tokenize new (List.replicate 536870912 '(' ++
        ((NumLit.mk ['3'] none).chars ++ '+' ::
          ((NumLit.mk ['4'] none).chars ++ List.replicate 536870912 ')'))) =
      some { root := TreeNode.null
             operators := [Operator.new '+' 536870912 0]
             numbers := [(NumLit.mk ['3'] none).value, (NumLit.mk ['4'] none).value] } ∧
      bracketDepth (List.replicate 536870912 '(' ++ (NumLit.mk ['3'] none).chars) =
        536870912 ∧
      (Operator.new '+' 536870912 0).priority_lvl = -2147483648 ∧
      (Operator.new '+' 536870912 0).priority_lvl ≠ 4 * 536870912 + OpPriority '+' := by
  have hkey : (Operator.new '+' ((536870911 + 1 : Nat) : Int) 0).priority_lvl =
      -2147483648 := priority_deep_plus 0
  refine ⟨?_, ?_, hkey, ?_⟩
  · exact tokenize_deep_single 536870911 (NumLit.mk ['3'] none) (NumLit.mk ['4'] none) '+'
      (by decide) (by decide) (by decide)
  · exact bracketDepth_opens 536870912 _ (by decide)
  · intro h
    have h2 := hkey.symm.trans h
    revert h2
    decide

/-- C16, amended: on every input on which the scan completes, the operator at
position i of the operators sequence has position index i and was emitted,
after i earlier operators, with the kind of its character and the priority key
4 times the number of brackets open at that point plus the base precedence of
the character, computed in `int`: it is that sum whenever fewer than `2^29`
brackets are open; the base is 0 for `+` and `-`, 1 for `*` and `:`, 2 for `/`
and 3 for `^`, and both `/` and `:` are of kind `div`. -/
theorem C16_index_and_priority (input : List Char) (es : ExpressionSolver) (i : Nat)
    (o : Operator) (h : tokenize new input = some es) (hio : es.operators[i]? = some o) :
    o.array_idx = i ∧ EmittedAt input i o ∧
      OpPriority '+' = 0 ∧ OpPriority '-' = 0 ∧ OpPriority '*' = 1 ∧ OpPriority ':' = 1 ∧
      OpPriority '/' = 2 ∧ OpPriority '^' = 3 ∧
      CharToOperatorType '/' = OperatorType.div ∧ CharToOperatorType ':' = OperatorType.div := by
  have hem := tokenize_emitted h i o hio
  refine ⟨?_, hem, by decide, by decide, by decide, by decide, by decide, by decide,
    by decide, by decide⟩
  obtain ⟨_, _, _, _, _, _, _, _, _, _, _, ho, _⟩ := hem
  exact ho

/-- A concrete instance of C16: the `+` of `2*(3+4)`, at depth 1. -/
theorem C16_index_and_priority_witness :
    (Operator.new '+' 1 1).array_idx = 1 ∧
      EmittedAt "2*(3+4)".toList 1 (Operator.new '+' 1 1) :=
  have h := C16_index_and_priority "2*(3+4)".toList
    { root := TreeNode.null
      operators := [Operator.new '*' 0 0, Operator.new '+' 1 1]
      numbers := [2, 3, 4] } 1 (Operator.new '+' 1 1) tokenize_2_times_group rfl
  ⟨h.1, h.2.1⟩

/-- C17: in the tree built by `BuildTree` from operators with distinct position
indices (and one number more than operators), the operator of every internal
node has a priority key less than or equal to that of every operator in its
two subtrees, and the root holds an operator of minimum priority key. -/
theorem C17_heap_order (ops : List Operator) (nums : List ℚ) (hne : ops ≠ [])
    (_hidx : (ops.map Operator.array_idx).Nodup) (hlen : nums.length = ops.length + 1) :
    ∃ es, BuildTree { root := TreeNode.null, operators := ops, numbers := nums } = some es ∧
      es.root.isHeap ∧
      ∃ number c son0 son1, es.root = TreeNode.mk number (some c) son0 son1 ∧ c ∈ ops ∧
        ∀ o ∈ ops, c.priority_lvl ≤ o.priority_lvl := by
  obtain ⟨t1, t2, h1, h2, h3, h4, h5, h6⟩ := BuildTree_parts ops nums hne hlen
  have hheap1 := placeAll_null_heap _ (sortOperators_priority ops) t1 h1
  obtain ⟨k1, k2, _, _, k5, _⟩ := fillSlot_preserves t1 h2 nums (t2, [])
    (by rw [if_neg (by simp [h3])]; exact h5)
  have hheap2 : t2.isHeap := k5 hheap1
  obtain ⟨number, c, s0, s1, ht1⟩ := skeleton_eq_mk h2 h3
  simp only [] at k1 k2
  rw [ht1] at k1
  obtain ⟨r0, r1, ht2, _, _⟩ := strip_eq_mk k1
  refine ⟨_, h6, hheap2, number, c, r0, r1, ht2, ?_, ?_⟩
  · refine h4.mem_iff.1 ?_
    rw [← k2, ht2]
    simp [TreeNode.operators]
  · intro o ho
    have ho2 : o ∈ t2.operators := by rw [k2]; exact h4.mem_iff.2 ho
    rw [ht2] at ho2 hheap2
    simp only [TreeNode.operators, List.mem_append, List.mem_cons] at ho2
    simp only [TreeNode.isHeap] at hheap2
    rcases ho2 with ho2 | rfl | ho2
    · exact hheap2.1 o ho2
    · exact le_refl _
    · exact hheap2.2.1 o ho2

/-- A concrete instance of C17: the operators of `2*3+4`. -/
theorem C17_heap_order_witness :
    ∃ es, BuildTree { root := TreeNode.null
                      operators := [Operator.new '*' 0 0, Operator.new '+' 0 1]
                      numbers := [2, 3, 4] } = some es ∧
      es.root.isHeap ∧
      ∃ number c son0 son1, es.root = TreeNode.mk number (some c) son0 son1 ∧
        c ∈ [Operator.new '*' 0 0, Operator.new '+' 0 1] ∧
        ∀ o ∈ [Operator.new '*' 0 0, Operator.new '+' 0 1], c.priority_lvl ≤ o.priority_lvl :=
  C17_heap_order [Operator.new '*' 0 0, Operator.new '+' 0 1] [2, 3, 4]
    (by decide) (by decide) (by decide)

/-- C18 as stated fails: in the tree of `8-3-2` the two operators share the
priority key 0, and the textually earlier one (position index 0) is not an
ancestor of the later one: it is its left son. In the tree of `(1+2)*(3+4)`
the two `+` share the priority key 4 and neither is an ancestor of the other. -/
theorem C18_counterexample :
    BuildTree { root := TreeNode.null
                operators := [Operator.new '-' 0 0, Operator.new '-' 0 1]
                numbers := [8, 3, 2] } =
        some { root := TreeNode.mk 0 (some (Operator.new '-' 0 1))
                 (TreeNode.mk 0 (some (Operator.new '-' 0 0)) (TreeNode.ofNumber 8)
                   (TreeNode.ofNumber 3))
                 (TreeNode.ofNumber 2)
               operators := [Operator.new '-' 0 1, Operator.new '-' 0 0]
               numbers := [] } ∧
      (Operator.new '-' 0 0).priority_lvl = (Operator.new '-' 0 1).priority_lvl ∧
      ¬ (TreeNode.mk 0 (some (Operator.new '-' 0 1))
          (TreeNode.mk 0 (some (Operator.new '-' 0 0)) (TreeNode.ofNumber 8)
            (TreeNode.ofNumber 3))
          (TreeNode.ofNumber 2)).isAncestor (Operator.new '-' 0 0) (Operator.new '-' 0 1) ∧
      BuildTree { root := TreeNode.null
                  operators := [Operator.new '+' 1 0, Operator.new '*' 0 1, Operator.new '+' 1 2]
                  numbers := [1, 2, 3, 4] } =
        some { root := TreeNode.mk 0 (some (Operator.new '*' 0 1))
                 (TreeNode.mk 0 (some (Operator.new '+' 1 0)) (TreeNode.ofNumber 1)
                   (TreeNode.ofNumber 2))
                 (TreeNode.mk 0 (some (Operator.new '+' 1 2)) (TreeNode.ofNumber 3)
                   (TreeNode.ofNumber 4))
               operators := [Operator.new '*' 0 1, Operator.new '+' 1 2, Operator.new '+' 1 0]
               numbers := [] } ∧
      (Operator.new '+' 1 0).priority_lvl = (Operator.new '+' 1 2).priority_lvl ∧
      ¬ (TreeNode.mk 0 (some (Operator.new '*' 0 1))
          (TreeNode.mk 0 (some (Operator.new '+' 1 0)) (TreeNode.ofNumber 1)
            (TreeNode.ofNumber 2))
          (TreeNode.mk 0 (some (Operator.new '+' 1 2)) (TreeNode.ofNumber 3)
            (TreeNode.ofNumber 4))).isAncestor (Operator.new '+' 1 0) (Operator.new '+' 1 2) ∧
      ¬ (TreeNode.mk 0 (some (Operator.new '*' 0 1))
          (TreeNode.mk 0 (some (Operator.new '+' 1 0)) (TreeNode.ofNumber 1)
            (TreeNode.ofNumber 2))
          (TreeNode.mk 0 (some (Operator.new '+' 1 2)) (TreeNode.ofNumber 3)
            (TreeNode.ofNumber 4))).isAncestor (Operator.new '+' 1 2) (Operator.new '+' 1 0) := by
  refine ⟨?_, by decide, ?_, ?_, by decide, ?_, ?_⟩
  · simp [BuildTree, sortOperators, opLess, Operator.new, wrapInt, OpPriority, placeAll, placeOperator,
      TreeNode.isNull, TreeNode.ofOperator, FillNumIntoTreeNode, popLeaf]
  · simp [TreeNode.isAncestor, TreeNode.operators, TreeNode.ofNumber, Operator.new]
  · simp [BuildTree, sortOperators, opLess, Operator.new, wrapInt, OpPriority, placeAll, placeOperator,
      TreeNode.isNull, TreeNode.ofOperator, FillNumIntoTreeNode, popLeaf]
  · simp [TreeNode.isAncestor, TreeNode.operators, TreeNode.ofNumber, Operator.new,
      CharToOperatorType, OpPriority]
  · simp [TreeNode.isAncestor, TreeNode.operators, TreeNode.ofNumber, Operator.new,
      CharToOperatorType, OpPriority]

/-- C18, amended: in the tree built by `BuildTree` from operators with distinct
position indices, whenever two operators share the same priority key and no
operator textually between them has a smaller key, the textually later one
(larger position index) is an ancestor of the textually earlier one. -/
theorem C18_later_is_ancestor (ops : List Operator) (nums : List ℚ) (a b : Operator)
    (hidx : (ops.map Operator.array_idx).Nodup) (hlen : nums.length = ops.length + 1)
    (ha : a ∈ ops) (hb : b ∈ ops) (hab : a.array_idx < b.array_idx)
    (hprio : a.priority_lvl = b.priority_lvl)
    (hbetween : ∀ m ∈ ops, a.array_idx < m.array_idx → m.array_idx < b.array_idx →
      a.priority_lvl ≤ m.priority_lvl) :
    ∃ es, BuildTree { root := TreeNode.null, operators := ops, numbers := nums } = some es ∧
      es.root.isAncestor b a := by
  have hne : ops ≠ [] := List.ne_nil_of_mem ha
  obtain ⟨t1, t2, h1, h2, h3, _, h5, h6⟩ := BuildTree_parts ops nums hne hlen
  have hperm := sortOperators_perm ops
  have hsorted := sortOperators_sorted ops
  have hdist : (sortOperators ops).Pairwise fun x y => x.array_idx ≠ y.array_idx :=
    (List.pairwise_map.1 hidx).perm hperm.symm fun h => h.symm
  obtain ⟨s, t, hst⟩ := List.append_of_mem (hperm.mem_iff.2 hb)
  rw [hst] at hsorted hdist h1
  have hlessba : opLess b a := (opLess_iff b a).2 (Or.inr ⟨hprio.symm, hab⟩)
  rw [List.pairwise_append, List.pairwise_cons] at hsorted hdist
  have hat : a ∈ t := by
    have hmem : a ∈ s ++ b :: t := by rw [← hst]; exact hperm.mem_iff.2 ha
    rcases List.mem_append.1 hmem with hs | hbt
    · exact absurd hlessba (hsorted.2.2 a hs b (List.mem_cons_self b t))
    · rcases List.mem_cons.1 hbt with rfl | ht
      · exact absurd hab (Nat.lt_irrefl _)
      · exact ht
  have hside : ∀ x ∈ s, (a.array_idx < x.array_idx ↔ b.array_idx < x.array_idx) := by
    intro x hx
    have hxops : x ∈ ops := hperm.mem_iff.1 (by rw [hst]; exact List.mem_append_left _ hx)
    have h1 := hsorted.2.2 x hx b (List.mem_cons_self b t)
    have h2 := hdist.2.2 x hx b (List.mem_cons_self b t)
    have h3 := hbetween x hxops
    rw [opLess_iff] at h1
    constructor
    · intro hax
      by_contra hbx
      have hlt : x.array_idx < b.array_idx := by omega
      have := h3 hax hlt
      omega
    · intro hbx
      omega
  have hanc := placeAll_null_ancestor s.length s t a b (Nat.le_refl _) hat hab hside t1 h1
  obtain ⟨_, _, _, _, _, k6⟩ := fillSlot_preserves t1 h2 nums (t2, [])
    (by rw [if_neg (by simp [h3])]; exact h5)
  exact ⟨_, h6, k6 b a hanc⟩

/-- A concrete instance of the amended C18: the operators of `8-3-2`. -/
theorem C18_later_is_ancestor_witness :
    ∃ es, BuildTree { root := TreeNode.null
                      operators := [Operator.new '-' 0 0, Operator.new '-' 0 1]
                      numbers := [8, 3, 2] } = some es ∧
      es.root.isAncestor (Operator.new '-' 0 1) (Operator.new '-' 0 0) :=
  C18_later_is_ancestor [Operator.new '-' 0 0, Operator.new '-' 0 1] [8, 3, 2]
    (Operator.new '-' 0 0) (Operator.new '-' 0 1) (by decide) (by decide) (by decide)
    (by decide) (by decide) (by decide) (by decide)

/-- C19: for n ≥ 1 operators with distinct position indices and exactly n + 1
numbers, the tree left by the placement pass has n + 1 empty child slots, and
`FillNumIntoTreeNode` on it never pops an empty numbers sequence: it returns,
having put one leaf in each of the n + 1 slots and nothing else, and the
numbers sequence is empty. -/
theorem C19_fill_is_safe (ops : List Operator) (nums : List ℚ) (hne : ops ≠ [])
    (_hidx : (ops.map Operator.array_idx).Nodup) (hlen : nums.length = ops.length + 1) :
    ∃ t1 t2, placeAll TreeNode.null (sortOperators ops) = some t1 ∧
      t1.emptySlots = ops.length + 1 ∧
      FillNumIntoTreeNode t1 nums = some (t2, []) ∧
      t2.strip = t1 ∧ t2.numLeaves = ops.length + 1 := by
  obtain ⟨t1, t2, h1, h2, h3, h4, h5, _⟩ := BuildTree_parts ops nums hne hlen
  obtain ⟨k1, _, k3, k4, _, _⟩ := fillSlot_preserves t1 h2 nums (t2, [])
    (by rw [if_neg (by simp [h3])]; exact h5)
  rw [h4.length_eq] at k3 k4
  exact ⟨t1, t2, h1, k4, h5, k1, k3⟩

/-- A concrete instance of C19: the operators of `2*3+4`. -/
theorem C19_fill_is_safe_witness :
    ∃ t1 t2, placeAll TreeNode.null
        (sortOperators [Operator.new '*' 0 0, Operator.new '+' 0 1]) = some t1 ∧
      t1.emptySlots = [Operator.new '*' 0 0, Operator.new '+' 0 1].length + 1 ∧
      FillNumIntoTreeNode t1 [2, 3, 4] = some (t2, []) ∧
      t2.strip = t1 ∧
      t2.numLeaves = [Operator.new '*' 0 0, Operator.new '+' 0 1].length + 1 :=
  C19_fill_is_safe [Operator.new '*' 0 0, Operator.new '+' 0 1] [2, 3, 4]
    (by decide) (by decide) (by decide)

/-- C20: a unary minus is applied to the number literal before any operator:
for all number literals a and b, `-a^b` tokenizes to the numbers `[-a, b]` and
the single operator `^`, and `parse_input` builds `pow(-a, b)`; `-2^2` is
accepted and evaluates to 4. -/
theorem C20_unary_minus_before_power (a b : NumLit) (ha : a.wf) (hb : b.wf) :
    tokenize new ('-' :: a.chars ++ '^' :: b.chars) =
        some { root := TreeNode.null
               operators := [Operator.new '^' 0 0]
               numbers := [-a.value, b.value] } ∧
      parse_input new ('-' :: a.chars ++ '^' :: b.chars) =
        ParseResult.built true
          { root := TreeNode.mk 0 (some (Operator.new '^' 0 0)) (TreeNode.ofNumber (-a.value))
              (TreeNode.ofNumber b.value)
            operators := [Operator.new '^' 0 0]
            numbers := [] } ∧
      (Operator.new '^' 0 0).op = OperatorType.pow ∧
      evaluate "-2^2".toList = some 4 :=
  ⟨tokenize_neg_first a b '^' ha hb (by decide),
    parse_input_of_tokenize (tokenize_neg_first a b '^' ha hb (by decide)) (BuildTree_one _ _ _),
    rfl, evaluate_neg_2_pow_2⟩

/-- A concrete instance of C20: `-2^2`. -/
theorem C20_unary_minus_before_power_witness :
    tokenize new ('-' :: (NumLit.mk ['2'] none).chars ++ '^' :: (NumLit.mk ['2'] none).chars) =
      some { root := TreeNode.null
             operators := [Operator.new '^' 0 0]
             numbers := [-(NumLit.mk ['2'] none).value, (NumLit.mk ['2'] none).value] } :=
  (C20_unary_minus_before_power (NumLit.mk ['2'] none) (NumLit.mk ['2'] none)
    (by decide) (by decide)).1

end ExpressionSolver
